import Mathlib

/-!
Verification of the libbitcoin-database storage substrate.

This file gives a shallow embedding of the core on-disk storage components
(mmfile, the slab hash table htdb_slab, the shard index hdb_shard, and the
db_interface push loop) and proves the testable properties stated for them.

Conventions of the embedding:
- A file is a List Nat of byte values; multi-byte integers are little-endian,
  as in the serializer used by the source.
- An address_bitset is a List Bool, listed in dynamic_bitset index order:
  position 0 is the bit the sort comparator examines first, the bit that
  becomes the most significant bit of a bucket index, and the first bit of a
  stored scan key.  This is the bit ordering the specification mandates for
  prefix comparison.
- While loops are embedded as fuelled recursions returning Option; a none
  result models a walk that runs off the data structure and never occurs in
  the verified executions.
- Machine integers are Nat with explicit reductions modulo 2 to the width at
  the points where the source writes fixed-width fields.
-/

namespace LibbitcoinDb

/-! ## Byte and bit primitives shared by the components -/

/-- Value of a list of bits read most-significant-first. -/
def toNatMSB (l : List Bool) : Nat :=
  l.foldl (fun acc b => 2 * acc + (if b then 1 else 0)) 0

/-- The eight bits of a byte, most significant first. -/
def byteBits (n : Nat) : List Bool :=
  (List.range 8).map (fun i => decide (n / 2 ^ (7 - i) % 2 = 1))

/-- Serialize a bit list into bytes, eight bits per byte, first bit becoming
the most significant bit of the first byte; a final partial byte is padded
with zero bits.  Modelled from the spec: this is the big-endian-over-raw-bytes
convention the specification prescribes for the block-range conversion used
when shard rows are written. -/
def bitsToBytes (l : List Bool) : List Nat :=
  (List.range ((l.length + 7) / 8)).map
    (fun i => toNatMSB ((l.drop (8 * i)).take 8
      ++ List.replicate (8 - ((l.drop (8 * i)).take 8).length) false))

/-- Deserialize bytes back into bits, most significant bit of each byte
first.  Modelled from the spec: inverse block-range conversion used when a
stored scan key is compared against a prefix. -/
def bytesToBits (bs : List Nat) : List Bool :=
  bs.flatMap byteBits

/-- Little-endian encoding of a value into w bytes, truncating to the field
width exactly as the serializer write functions do. -/
def leBytes (w n : Nat) : List Nat :=
  (List.range w).map (fun i => n / 256 ^ i % 256)

/-- Value of a little-endian byte list, as read by the deserializer. -/
def leVal (bs : List Nat) : Nat :=
  bs.foldr (fun b acc => b + 256 * acc) 0

/-- The len bytes of a file starting at position pos. -/
def slice (f : List Nat) (pos len : Nat) : List Nat :=
  (f.drop pos).take len

/-- Read a w-byte little-endian integer at position pos. -/
def readLE (f : List Nat) (pos w : Nat) : Nat :=
  leVal (slice f pos w)

/-- The single-byte write operations performed when bytes are serialized
starting at position pos, in the order the serializer performs them. -/
def writeByteOps (pos : Nat) : List Nat → List (Nat × Nat)
  | [] => []
  | b :: bs => (pos, b) :: writeByteOps (pos + 1) bs

/-- Apply a sequence of single-byte writes to a file. -/
def applyOps (f : List Nat) (ops : List (Nat × Nat)) : List Nat :=
  ops.foldl (fun f op => f.set op.1 op.2) f

/-! ## mmfile (memory-mapped file), from the source mmfile implementation -/

/-- A memory mapped file: the byte contents.  The size is the length. -/
structure mmfile where
  data : List Nat
deriving DecidableEq, Repr

def mmfile.size (f : mmfile) : Nat := f.data.length

/-- Resize the underlying file with ftruncate semantics and remap: the file
is truncated or zero-extended to exactly new_size.  This is the success path
of the source resize, which performs no comparison against the current
size. -/
def mmfile.resize (f : mmfile) (new_size : Nat) : mmfile :=
  ⟨f.data.take new_size ++ List.replicate (new_size - f.data.length) 0⟩

/-! ## hdb_shard, from src/src/database/hdb_shard.cpp

The shard settings; shard_max_entries is modelled from the spec as a
settings field (the source reads it from a header that is not part of the
sources, and the spec lists it among the shard settings). -/

structure hdb_shard_settings where
  shard_max_entries : Nat
  total_key_size : Nat
  sharded_bitsize : Nat
  bucket_bitsize : Nat
  row_value_size : Nat
deriving DecidableEq, Repr

def hdb_shard_settings.scan_bitsize (s : hdb_shard_settings) : Nat :=
  s.total_key_size * 8 - s.sharded_bitsize

def hdb_shard_settings.scan_size (s : hdb_shard_settings) : Nat :=
  (s.scan_bitsize - 1) / 8 + 1

def hdb_shard_settings.number_buckets (s : hdb_shard_settings) : Nat :=
  2 ^ s.bucket_bitsize

/-- An address_bitset: bits in dynamic_bitset index order (see header). -/
abbrev address_bitset := List Bool

/-- A buffered row: scan key and value, as pushed by add. -/
structure entry_row where
  scan_key : address_bitset
  value : List Nat
deriving DecidableEq, Repr

/-- Resize of a dynamic_bitset: keep the first n bits, pad with zero bits. -/
def bitset_resize (key : address_bitset) (n : Nat) : address_bitset :=
  key.take n ++ List.replicate (n - key.length) false

/-- Bucket value of a key, reading bit 0 as the most significant bit
(source to_ulong_reverse). -/
def to_ulong_reverse (key : address_bitset) : Nat := toNatMSB key

/-- Source which_bucket: resize the key to bucket_bitsize bits and read it
as a reversed ulong. -/
def which_bucket (key : address_bitset) (bucket_bitsize : Nat) : Nat :=
  to_ulong_reverse (bitset_resize key bucket_bitsize)

/-- The comparator of sort_rows: first differing bit decides; equal bit
sequences compare as true (the source loop falls through to return true). -/
def reverse_less_than : address_bitset → address_bitset → Bool
  | [], _ => true
  | _ :: _, [] => true
  | a :: as, b :: bs => if a ≠ b then (!a && b) else reverse_less_than as bs

/-- Sort the buffered rows with the sort_rows comparator.  The source calls
std::sort; since the comparator is a total preorder we model the sort as a
stable comparison sort by that comparator. -/
def sort_rows (rows : List entry_row) : List entry_row :=
  List.insertionSort
    (fun a b => reverse_less_than a.scan_key b.scan_key = true) rows

/-- Bucket index of a row under the shard settings. -/
def row_bucket (s : hdb_shard_settings) (r : entry_row) : Nat :=
  which_bucket r.scan_key s.bucket_bitsize

/-- The sixteen-bit bucket start indexes emitted by write_buckets, in slot
order.  For each row the slots from the previous row's bucket boundary up to
its own bucket receive the row's index; remaining slots receive the total
row count.  Slot values are raw here; the two-byte truncation happens when
the slots are serialized. -/
def write_buckets_go (s : hdb_shard_settings) (total : Nat) :
    List entry_row → Nat → Nat → List Nat
  | [], _, begin_bucket => List.replicate (s.number_buckets - begin_bucket) total
  | r :: rest, i, begin_bucket =>
    List.replicate (row_bucket s r + 1 - begin_bucket) i
      ++ write_buckets_go s total rest (i + 1) (row_bucket s r + 1)

def write_buckets (s : hdb_shard_settings) (rows : List entry_row) : List Nat :=
  write_buckets_go s rows.length rows 0 0

/-- Bytes of one row: the scan key serialized to scan_size bytes followed by
the value bytes (source write_rows body). -/
def row_bytes (r : entry_row) : List Nat :=
  bitsToBytes r.scan_key ++ r.value

/-- Row size in bytes. -/
def hdb_shard_settings.row_size (s : hdb_shard_settings) : Nat :=
  s.scan_size + s.row_value_size

/-- Entry header size: row count field plus the bucket table. -/
def hdb_shard_settings.entry_header_size (s : hdb_shard_settings) : Nat :=
  2 + 2 * s.number_buckets

/-- Bytes of a whole entry as serialized by sync: the row count as two
bytes, the bucket table as two bytes per slot, then the rows.  The rows
passed here are the sorted rows. -/
def entry_bytes (s : hdb_shard_settings) (rows : List entry_row) : List Nat :=
  leBytes 2 rows.length
    ++ (write_buckets s rows).flatMap (leBytes 2)
    ++ rows.flatMap row_bytes

/-- Size of the entry that sync computes for a buffer of rows. -/
def entry_size_of (s : hdb_shard_settings) (rows : List entry_row) : Nat :=
  s.entry_header_size + s.row_size * rows.length

/-- Shard state: the mapped file and the cached entries_end_ member. -/
structure hdb_shard where
  file : mmfile
  entries_end : Nat
deriving DecidableEq, Repr

/-- Offset of the start of the entry region (end of header plus height
index). -/
def shard_base (s : hdb_shard_settings) : Nat :=
  8 + 8 * s.shard_max_entries

/-- The source initialize_new: resize to the header size, write the initial
entries_end, zero the height index. -/
def hdb_shard.initialize_new (s : hdb_shard_settings) (f : mmfile) : hdb_shard :=
  let f := f.resize (shard_base s)
  let bytes := leBytes 8 (shard_base s)
    ++ (List.replicate s.shard_max_entries 0).flatMap (leBytes 8)
  ⟨⟨applyOps f.data (writeByteOps 0 bytes)⟩, shard_base s⟩

/-- The source reserve: grow the file when the coming entry does not fit;
the new size is one and a half times the required size. -/
def hdb_shard.reserve (s : hdb_shard_settings) (st : hdb_shard)
    (space_needed : Nat) : mmfile :=
  let required_size := st.entries_end + space_needed
  if required_size ≤ st.file.size then st.file
  else st.file.resize (required_size * 3 / 2)

/-- The ordered byte writes performed by sync after reserve: serialize the
entry at entries_end, then (link) write the height slot, then write the new
entries_end into the first eight bytes of the file. -/
def hdb_shard.syncOps (s : hdb_shard_settings) (st : hdb_shard)
    (rows : List entry_row) (height : Nat) : List (Nat × Nat) :=
  let rows' := sort_rows rows
  let entry_size := entry_size_of s rows
  writeByteOps st.entries_end (entry_bytes s rows')
    ++ writeByteOps (8 + 8 * height) (leBytes 8 st.entries_end)
    ++ writeByteOps 0 (leBytes 8 (st.entries_end + entry_size))

/-- The source sync: sort, reserve, write the entry, link the height and
publish the advanced entries_end. -/
def hdb_shard.sync (s : hdb_shard_settings) (st : hdb_shard)
    (rows : List entry_row) (height : Nat) : hdb_shard :=
  let f := st.reserve s (entry_size_of s rows)
  ⟨⟨applyOps f.data (st.syncOps s rows height)⟩,
    st.entries_end + entry_size_of s rows⟩

/-- The source entry_position: read the height slot. -/
def hdb_shard.entry_position (st : hdb_shard) (height : Nat) : Nat :=
  readLE st.file.data (8 + 8 * height) 8

/-- The source calc_entry_size: read the stored row count at the entry and
recompute the entry size from it. -/
def hdb_shard.calc_entry_size (s : hdb_shard_settings) (st : hdb_shard)
    (entry : Nat) : Nat :=
  s.entry_header_size + s.row_size * readLE st.file.data entry 2

/-- The source unlink.  The height > 0 assertion is modelled as a guard; at
height 0 the operation is rejected and the state unchanged. -/
def hdb_shard.unlink (s : hdb_shard_settings) (st : hdb_shard)
    (height : Nat) : Option hdb_shard :=
  if height = 0 then none
  else
    let prev_entry := st.entry_position (height - 1)
    let new_end := prev_entry + st.calc_entry_size s prev_entry
    some ⟨⟨applyOps st.file.data (writeByteOps 0 (leBytes 8 new_end))⟩, new_end⟩

/-- The source read_row_index: read the two-byte slot of a bucket inside an
entry. -/
def read_row_index (f : List Nat) (bucket_index entry : Nat) : Nat :=
  readLE f (entry + 2 + 2 * bucket_index) 2

/-- Does the stored row at position pos match the whole prefix key?
Modelled from the spec: the row scan key shares the full key.length-bit
prefix with key, bits compared in the sort bit order; the bytes holding
those bits are read back through the block-range conversion. -/
def stealth_match (key : address_bitset) (f : List Nat) (pos : Nat) : Bool :=
  (bytesToBits (slice f pos ((key.length + 7) / 8))).take key.length = key

/-- The inner row loop of scan: starting at a row position, invoke the
reader on each row value while the row matches the prefix; stop at the entry
end or the first mismatch.  Fuelled; returns the list of values the reader
receives. -/
def scan_rows_loop (s : hdb_shard_settings) (f : List Nat)
    (key : address_bitset) (entry_end : Nat) :
    Nat → Nat → Option (List (List Nat))
  | _, 0 => none
  | current_row, fuel + 1 =>
    if current_row = entry_end then some []
    else if stealth_match key f current_row then
      (scan_rows_loop s f key entry_end (current_row + s.row_size) fuel).map
        (fun vs => slice f (current_row + s.scan_size) s.row_value_size :: vs)
    else some []

/-- The outer entry loop of scan: walk entries from a start position until
entries_end, jumping into each entry at its bucket slot. -/
def scan_loop (s : hdb_shard_settings) (f : List Nat)
    (key : address_bitset) (bucket_index entries_end : Nat) :
    Nat → Nat → Option (List (List Nat))
  | _, 0 => none
  | entry, fuel + 1 =>
    if entry = entries_end then some []
    else
      let entry_size := s.entry_header_size + s.row_size * readLE f entry 2
      let row_index := read_row_index f bucket_index entry
      let rows_sector := entry + 2 + 2 * s.number_buckets
      match scan_rows_loop s f key (entry + entry_size)
          (rows_sector + s.row_size * row_index) (entry_size + 1) with
      | none => none
      | some vs =>
        (scan_loop s f key bucket_index entries_end (entry + entry_size) fuel).map
          (fun rest => vs ++ rest)

/-- The source scan: start at the entry for from_height and walk to
entries_end. -/
def hdb_shard.scan (s : hdb_shard_settings) (st : hdb_shard)
    (key : address_bitset) (from_height : Nat) : Option (List (List Nat)) :=
  scan_loop s st.file.data key (which_bucket key s.bucket_bitsize)
    st.entries_end (st.entry_position from_height) (st.entries_end + 1)

/-- Sync a list of row batches at consecutive heights 0, 1, ... (the usage
pattern of the shard: one sync per block height). -/
def hdb_shard.syncSeq (s : hdb_shard_settings) (st : hdb_shard)
    (batches : List (List entry_row)) : hdb_shard :=
  (batches.enum).foldl (fun st p => st.sync s p.2 p.1) st

/-- Does a row key match a scan prefix: the row shares the full
key.length-bit prefix. -/
def key_matches (key : address_bitset) (r : entry_row) : Bool :=
  r.scan_key.take key.length = key

/-- Reference result of scanning a single synced batch: jump to the bucket
slot of the prefix in the sorted rows and take matching rows from there. -/
def ref_entry_scan (s : hdb_shard_settings) (key : address_bitset)
    (rows : List entry_row) : List (List Nat) :=
  let rows' := sort_rows rows
  let ri := (write_buckets s rows').getD (which_bucket key s.bucket_bitsize) 0
  ((rows'.drop ri).takeWhile (key_matches key)).map (fun r => r.value)

/-- The serialized entry of one buffered batch, as sync writes it. -/
def entry_blob (s : hdb_shard_settings) (B : List entry_row) : List Nat :=
  entry_bytes s (sort_rows B)

/-- File offset of the end of the first k entries under consecutive syncs
from height 0 (also the start offset of entry k). -/
def ends_at (s : hdb_shard_settings) (batches : List (List entry_row))
    (k : Nat) : Nat :=
  shard_base s + ((batches.take k).map (entry_size_of s)).sum

/-- Contents of the height index after the first k consecutive syncs. -/
def heights_list (s : hdb_shard_settings) (batches : List (List entry_row))
    (k : Nat) : List Nat :=
  (List.range s.shard_max_entries).map
    (fun j => if j < k then ends_at s batches j else 0)

/-- Side conditions on shard settings assumed throughout: at least one scan
bit (asserted by scan_size) and no more bucket bits than scan bits. -/
def settings_ok (s : hdb_shard_settings) : Prop :=
  1 ≤ s.scan_bitsize ∧ s.bucket_bitsize ≤ s.scan_bitsize

/-- Well-formed row batch for given settings: every key has exactly
scan_bitsize bits (asserted by add), every value has row_value_size bytes
(asserted by add), and the batch fits the sixteen-bit row count field. -/
def good_batch (s : hdb_shard_settings) (rows : List entry_row) : Prop :=
  (∀ r ∈ rows, r.scan_key.length = s.scan_bitsize) ∧
  (∀ r ∈ rows, r.value.length = s.row_value_size) ∧
  rows.length < 65536

/-! ## htdb_slab, from the htdb_slab implementation and htdb_slab_list_item

Slabs are modelled by their allocation order: the item created by the n-th
store sits at position n + 1.  Position 0 is the empty sentinel.  Modelled
from the spec: the disk_array empty value and the offset-0 null sentinel of
the slab region (the disk_array implementation is not among the sources).
The key type and the bucket fingerprint function are parameters, as in the
source template. -/

/-- One chain item: key, next position, value (source list item layout). -/
structure slab_item (K V : Type) where
  key : K
  next : Nat
  value : V
deriving DecidableEq, Repr

/-- Hash table state: the bucket header array and the allocated items. -/
structure htdb_slab (K V : Type) where
  buckets : List Nat
  items : List (slab_item K V)
deriving DecidableEq, Repr

/-- A fresh table with every bucket holding the empty sentinel. -/
def htdb_slab.empty (K V : Type) (nb : Nat) : htdb_slab K V :=
  ⟨List.replicate nb 0, []⟩

/-- Source bucket_index: remainder of the key fingerprint by the bucket
count. -/
def bucket_index (fp : K → Nat) (nb : Nat) (k : K) : Nat := fp k % nb

/-- Source read_bucket_value. -/
def htdb_slab.read_bucket_value (fp : K → Nat) (st : htdb_slab K V) (k : K) : Nat :=
  st.buckets.getD (bucket_index fp st.buckets.length k) 0

/-- Source store: read the old bucket head, create the item whose next field
holds it, write the value, then link the bucket to the new item. -/
def htdb_slab.store (fp : K → Nat) (st : htdb_slab K V) (k : K) (v : V) :
    htdb_slab K V :=
  let old_begin := st.read_bucket_value fp k
  let new_begin := st.items.length + 1
  ⟨st.buckets.set (bucket_index fp st.buckets.length k) new_begin,
    st.items ++ [⟨k, old_begin, v⟩]⟩

/-- The chain walk of get: follow next positions until the empty sentinel,
returning the first item whose key compares equal.  Fuelled; a none result
models a walk that leaves the allocated region or does not terminate. -/
def htdb_slab.getLoop [DecidableEq K] (items : List (slab_item K V)) (k : K) :
    Nat → Nat → Option (Option V)
  | _, 0 => none
  | current, fuel + 1 =>
    if current = 0 then some none
    else
      match items.get? (current - 1) with
      | none => none
      | some item =>
        if item.key = k then some (some item.value)
        else getLoop items k item.next fuel

/-- Source get. -/
def htdb_slab.get [DecidableEq K] (fp : K → Nat) (st : htdb_slab K V) (k : K) :
    Option (Option V) :=
  htdb_slab.getLoop st.items k (st.read_bucket_value fp k) (st.items.length + 1)

/-- Walk for unlink: find the first matching item, returning its predecessor
position (0 when it is the chain head) and its next field.  Modelled from
the spec: unlink finds the first matching chain node and splices it out (the
unlink implementation is declared in the sources but its body is not among
them). -/
def htdb_slab.unlinkWalk [DecidableEq K] (items : List (slab_item K V)) (k : K) :
    Nat → Nat → Nat → Option (Option (Nat × Nat))
  | _, _, 0 => none
  | prev, current, fuel + 1 =>
    if current = 0 then some none
    else
      match items.get? (current - 1) with
      | none => none
      | some item =>
        if item.key = k then some (some (prev, item.next))
        else unlinkWalk items k current item.next fuel

/-- Modelled from the spec: unlink splices the first matching node out of
its chain by writing its next into the predecessor's next, or into the
bucket head when it is the first node; returns false when the key is
absent.  The fuelled walk falls back to no change on a corrupt chain. -/
def htdb_slab.unlink [DecidableEq K] (fp : K → Nat) (st : htdb_slab K V) (k : K) :
    htdb_slab K V × Bool :=
  let b := bucket_index fp st.buckets.length k
  let head := st.buckets.getD b 0
  match htdb_slab.unlinkWalk st.items k 0 head (st.items.length + 1) with
  | some (some (prev, found_next)) =>
    if prev = 0 then (⟨st.buckets.set b found_next, st.items⟩, true)
    else
      match st.items.get? (prev - 1) with
      | some pitem =>
        (⟨st.buckets, st.items.set (prev - 1) ⟨pitem.key, found_next, pitem.value⟩⟩, true)
      | none => (st, false)
  | some none => (st, false)
  | none => (st, false)

/-- The intermediate states of one store, in write order: allocate the slab
(uninitialized contents), write the key, write the next field with the old
bucket head, run the caller's write function on the value area, and finally
link the bucket head.  The junk item stands for uninitialized slab memory. -/
def htdb_slab.storeStates (fp : K → Nat) (st : htdb_slab K V) (k : K) (v : V)
    (junk : slab_item K V) : List (htdb_slab K V) :=
  let old_begin := st.read_bucket_value fp k
  let pos := st.items.length
  let s1 : htdb_slab K V := ⟨st.buckets, st.items ++ [junk]⟩
  let s2 : htdb_slab K V := ⟨st.buckets, s1.items.set pos ⟨k, junk.next, junk.value⟩⟩
  let s3 : htdb_slab K V := ⟨st.buckets, s2.items.set pos ⟨k, old_begin, junk.value⟩⟩
  let s4 : htdb_slab K V := ⟨st.buckets, s3.items.set pos ⟨k, old_begin, v⟩⟩
  let s5 : htdb_slab K V :=
    ⟨st.buckets.set (bucket_index fp st.buckets.length k) (pos + 1), s4.items⟩
  [s1, s2, s3, s4, s5]

/-- Step-down well-formedness: every bucket head points into the allocated
items and every item's next points strictly below the item itself (chains
always link new items to older ones). -/
def htdb_slab.wfB (st : htdb_slab K V) : Bool :=
  st.buckets.all (· ≤ st.items.length) &&
    st.items.enum.all (fun p => p.2.next ≤ p.1)

/-- Operations of a single-writer history on the table. -/
inductive slab_op (K V : Type) where
  | store (k : K) (v : V)
  | unlink (k : K)
deriving DecidableEq, Repr

/-- Apply one operation. -/
def slab_apply [DecidableEq K] (fp : K → Nat) (st : htdb_slab K V) :
    slab_op K V → htdb_slab K V
  | .store k v => st.store fp k v
  | .unlink k => (st.unlink fp k).1

/-- Apply a history of operations to the fresh table. -/
def slab_run [DecidableEq K] (fp : K → Nat) (nb : Nat)
    (ops : List (slab_op K V)) : htdb_slab K V :=
  ops.foldl (slab_apply fp) (htdb_slab.empty K V nb)

/-- Reference chain of a bucket: the key-value pairs of the chain, newest
first, as determined by the history alone.  A store to the bucket prepends;
an unlink of a key in the bucket removes the first pair with that key. -/
def ref_chain [DecidableEq K] (fp : K → Nat) (nb : Nat)
    (ops : List (slab_op K V)) (b : Nat) : List (K × V) :=
  ops.foldl
    (fun c op =>
      match op with
      | .store k v => if bucket_index fp nb k = b then (k, v) :: c else c
      | .unlink k =>
        if bucket_index fp nb k = b then c.eraseP (fun p => p.1 = k) else c)
    []

/-- Reference per-key stack: values stored for the key and not yet
unlinked, newest first. -/
def ref_stack [DecidableEq K] (ops : List (slab_op K V)) (k : K) : List V :=
  ops.foldl
    (fun s op =>
      match op with
      | .store k' v => if k' = k then v :: s else s
      | .unlink k' => if k' = k then s.tail else s)
    []

/-! ## db_interface push, from src/src/db_interface.cpp

The loop of push over the transactions of a block is modelled as the list of
table store operations it performs, tagged with the transaction index.
Script parsing (payment address, ephemeral key and stealth prefix
extraction) lives outside these sources and is abstracted by caller-supplied
functions. -/

/-- A transaction input: previous output point and script. -/
structure tx_input where
  previous_output : Nat × Nat
  script : Nat
deriving DecidableEq, Repr

/-- A transaction output: value and script. -/
structure tx_output where
  value : Nat
  script : Nat
deriving DecidableEq, Repr

/-- A transaction as push consumes it. -/
structure tx_type where
  hash : Nat
  is_coinbase : Bool
  inputs : List tx_input
  outputs : List tx_output
deriving DecidableEq, Repr

/-- A block is its transaction list (the header does not enter the loop). -/
structure block_type where
  transactions : List tx_type
deriving DecidableEq, Repr

/-- The script-extraction environment push runs under: payment address
extraction, ephemeral key extraction, stealth prefix extraction, and the
history activation height. -/
structure push_env where
  extract_address : Nat → Option Nat
  extract_ephemeral_key : Nat → Option Nat
  to_stealth_prefix : Nat → Option Nat
  history_height : Nat

/-- Metainfo of a transaction inside a block: height and index. -/
structure transaction_metainfo where
  height : Nat
  index : Nat
deriving DecidableEq, Repr

/-- Source is_special_duplicate: the two historical duplicate transactions. -/
def is_special_duplicate (info : transaction_metainfo) : Bool :=
  (info.height == 91842 || info.height == 91880) && info.index == 0

/-- One table mutation performed inside the push loop. -/
inductive db_effect where
  | spends_store (outpoint : Nat × Nat) (spend : Nat × Nat)
  | history_add_spend (addr : Nat) (outpoint : Nat × Nat) (spend : Nat × Nat)
      (height : Nat)
  | history_add_output (addr : Nat) (outpoint : Nat × Nat) (height : Nat)
      (value : Nat)
  | stealth_store (pfx : Nat) (ephemeral_key : Nat) (addr : Nat)
      (tx_hash : Nat)
  | transactions_store (info : transaction_metainfo) (tx : tx_type)
deriving DecidableEq, Repr

/-- Source push_inputs: store each spend, and the history row when the
height is active and an address extracts. -/
def push_inputs (env : push_env) (tx_hash : Nat) (block_height : Nat)
    (inputs : List tx_input) : List db_effect :=
  (inputs.enum).flatMap (fun p =>
    let spend := (tx_hash, p.1)
    db_effect.spends_store p.2.previous_output spend ::
      (if block_height < env.history_height then []
       else
        match env.extract_address p.2.script with
        | none => []
        | some addr =>
          [db_effect.history_add_spend addr p.2.previous_output spend
            block_height]))

/-- Source push_outputs: store the history row of each output when the
height is active and an address extracts. -/
def push_outputs (env : push_env) (tx_hash : Nat) (block_height : Nat)
    (outputs : List tx_output) : List db_effect :=
  (outputs.enum).flatMap (fun p =>
    if block_height < env.history_height then []
    else
      match env.extract_address p.2.script with
      | none => []
      | some addr =>
        [db_effect.history_add_output addr (tx_hash, p.1) block_height
          p.2.value])

/-- Source push_stealth_outputs: each adjacent output pair can yield a
stealth row when the ephemeral key, the prefix and the following payment
address all extract. -/
def push_stealth_outputs (env : push_env) (tx_hash : Nat)
    (outputs : List tx_output) : List db_effect :=
  (List.range (outputs.length - 1)).flatMap (fun i =>
    match outputs.get? i, outputs.get? (i + 1) with
    | some ephemeral_output, some payment_output =>
      match env.extract_ephemeral_key ephemeral_output.script with
      | none => []
      | some key =>
        match env.to_stealth_prefix ephemeral_output.script with
        | none => []
        | some pfx =>
          match env.extract_address payment_output.script with
          | none => []
          | some addr => [db_effect.stealth_store pfx key addr tx_hash]
    | _, _ => [])

/-- The effects of processing one transaction of the loop body: inputs when
not coinbase, outputs, stealth outputs, then the transaction store. -/
def push_tx_effects (env : push_env) (block_height : Nat) (i : Nat)
    (tx : tx_type) : List db_effect :=
  (if tx.is_coinbase then [] else push_inputs env tx.hash block_height tx.inputs)
    ++ push_outputs env tx.hash block_height tx.outputs
    ++ push_stealth_outputs env tx.hash tx.outputs
    ++ [db_effect.transactions_store ⟨block_height, i⟩ tx]

/-- The effect trace of the push transaction loop over a block at a given
height, each effect tagged with its transaction index; a transaction whose
metainfo is a special duplicate is skipped entirely. -/
def db_push_effects (env : push_env) (block_height : Nat)
    (blk : block_type) : List (Nat × db_effect) :=
  (blk.transactions.enum).flatMap (fun p =>
    if is_special_duplicate ⟨block_height, p.1⟩ then []
    else (push_tx_effects env block_height p.1 p.2).map (fun e => (p.1, e)))

/-! ## Chain structure predicates used to verify htdb_slab

A chain is the list of positions visited from a bucket head to the
terminator; positions strictly decrease along a chain because store links
each new item to an older one. -/

inductive IsChain (items : List (slab_item K V)) : Nat → List Nat → Prop
  | nil : IsChain items 0 []
  | cons (pos : Nat) (ps : List Nat) (item : slab_item K V)
      (hpos : 0 < pos)
      (hget : items.get? (pos - 1) = some item)
      (hdec : item.next < pos)
      (hrest : IsChain items item.next ps) :
      IsChain items pos (pos :: ps)

/-- The key-value pairs stored along a chain. -/
def chain_keyvals (items : List (slab_item K V)) (ps : List Nat) : List (K × V) :=
  ps.filterMap (fun p => (items.get? (p - 1)).map (fun it => (it.key, it.value)))

/-- Result of searching a chain for the first item with the given key:
the predecessor position handed down by the walk, the found position, and
the found item's next field. -/
def splice_result [DecidableEq K] (items : List (slab_item K V)) (k : K)
    (prev : Nat) : List Nat → Option (Nat × Nat × Nat)
  | [] => none
  | p :: rest =>
    match items.get? (p - 1) with
    | none => none
    | some it =>
      if it.key = k then some (prev, p, it.next)
      else splice_result items k p rest

/-- The invariant tying a table state to the operation history: the bucket
array has its creation size, and every bucket holds a well-formed chain
whose pairs are exactly the reference chain of the history, all of whose
items hash to that bucket. -/
def SlabInv [DecidableEq K] (fp : K → Nat) (nb : Nat) (st : htdb_slab K V)
    (ops : List (slab_op K V)) : Prop :=
  st.buckets.length = nb ∧
  ∀ b, b < nb → ∃ ps, IsChain st.items (st.buckets.getD b 0) ps ∧
    chain_keyvals st.items ps = ref_chain fp nb ops b ∧
    ∀ p ∈ ps, ∀ it, st.items.get? (p - 1) = some it →
      bucket_index fp nb it.key = b

/-! ## Infrastructure lemmas on bytes, slices and writes -/

theorem length_leBytes (w n : Nat) : (leBytes w n).length = w := by
  simp [leBytes]

theorem leBytes_succ (w n : Nat) :
    leBytes (w + 1) n = n % 256 :: leBytes w (n / 256) := by
  simp only [leBytes, List.range_succ_eq_map, List.map_cons, List.map_map]
  congr 1
  · simp
  · apply List.map_congr_left
    intro i _
    simp only [Function.comp_apply]
    rw [pow_succ, Nat.div_div_eq_div_mul]
    ring_nf

theorem leVal_cons (b : Nat) (bs : List Nat) :
    leVal (b :: bs) = b + 256 * leVal bs := by
  simp [leVal]

theorem leVal_leBytes (w n : Nat) : leVal (leBytes w n) = n % 256 ^ w := by
  induction w generalizing n with
  | zero => simp [leBytes, leVal, Nat.mod_one]
  | succ w ih =>
    rw [leBytes_succ, leVal_cons, ih]
    rw [pow_succ, Nat.mul_comm (256 ^ w) 256, Nat.mod_mul]

theorem drop_append_offset (A B : List α) (k : Nat) :
    (A ++ B).drop (A.length + k) = B.drop k := by
  rw [← List.drop_drop, List.drop_left]

theorem slice_append_offset (A B : List Nat) (k len : Nat) :
    slice (A ++ B) (A.length + k) len = slice B k len := by
  rw [slice, slice, drop_append_offset]

theorem slice_append_zero (A B : List Nat) (len : Nat) :
    slice (A ++ B) A.length len = slice B 0 len := by
  have := slice_append_offset A B 0 len
  simpa using this

theorem readLE_append_offset (A B : List Nat) (k w : Nat) :
    readLE (A ++ B) (A.length + k) w = readLE B k w := by
  rw [readLE, readLE, slice_append_offset]

theorem readLE_append_zero (A B : List Nat) (w : Nat) :
    readLE (A ++ B) A.length w = readLE B 0 w := by
  have := readLE_append_offset A B 0 w
  simpa using this

theorem slice_zero_of_prefix (B rest : List Nat) (len : Nat)
    (h : len ≤ B.length) : slice (B ++ rest) 0 len = B.take len := by
  simp only [slice, List.drop_zero]
  rw [List.take_append_eq_append_take, Nat.sub_eq_zero_of_le h]
  simp

theorem readLE_leBytes_here (w n : Nat) (rest : List Nat) :
    readLE (leBytes w n ++ rest) 0 w = n % 256 ^ w := by
  rw [readLE, slice_zero_of_prefix _ _ _ (le_of_eq (length_leBytes w n).symm)]
  rw [List.take_of_length_le (le_of_eq (length_leBytes w n))]
  exact leVal_leBytes w n

theorem set_eq_splice (f : List α) (pos : Nat) (b : α) (h : pos < f.length) :
    f.set pos b = f.take pos ++ b :: f.drop (pos + 1) := by
  induction f generalizing pos with
  | nil => simp at h
  | cons x xs ih =>
    cases pos with
    | zero => simp
    | succ p =>
      simp only [List.set_cons_succ, List.take_succ_cons, List.drop_succ_cons,
        List.cons_append]
      rw [ih p (by simpa using h)]

theorem applyOps_append (f : List Nat) (ops1 ops2 : List (Nat × Nat)) :
    applyOps f (ops1 ++ ops2) = applyOps (applyOps f ops1) ops2 := by
  simp [applyOps]

theorem applyOps_writeByteOps (f : List Nat) (pos : Nat) (bs : List Nat)
    (h : pos + bs.length ≤ f.length) :
    applyOps f (writeByteOps pos bs)
      = f.take pos ++ bs ++ f.drop (pos + bs.length) := by
  induction bs generalizing f pos with
  | nil =>
    simp only [writeByteOps, applyOps, List.foldl_nil, List.length_nil,
      Nat.add_zero, List.append_nil]
    exact (List.take_append_drop pos f).symm
  | cons b bs ih =>
    have hpos : pos < f.length := by
      simp only [List.length_cons] at h
      omega
    have hset : (f.set pos b).length = f.length := by simp
    have h2 : pos + 1 + bs.length ≤ (f.set pos b).length := by
      simp only [hset]
      simp only [List.length_cons] at h
      omega
    show applyOps (f.set pos b) (writeByteOps (pos + 1) bs) = _
    rw [ih (f.set pos b) (pos + 1) h2]
    rw [set_eq_splice f pos b hpos]
    have hlen : (f.take pos).length = pos := List.length_take_of_le (le_of_lt hpos)
    have e1 : (f.take pos ++ b :: f.drop (pos + 1)).take (pos + 1)
        = f.take pos ++ [b] := by
      rw [List.take_append_eq_append_take,
        List.take_of_length_le (by rw [hlen]; omega), hlen]
      simp
    have e2 : (f.take pos ++ b :: f.drop (pos + 1)).drop (pos + 1 + bs.length)
        = f.drop (pos + (bs.length + 1)) := by
      have harith : pos + 1 + bs.length = (f.take pos).length + (1 + bs.length) := by
        rw [hlen]; omega
      rw [harith, drop_append_offset, Nat.add_comm 1 bs.length,
        List.drop_succ_cons, List.drop_drop]
      congr 1
      omega
    rw [e1, e2]
    simp


theorem take_set_of_le (f : List α) (p n : Nat) (b : α) (h : n ≤ p) :
    (f.set p b).take n = f.take n := by
  rw [List.set_take]
  exact List.set_eq_of_length_le (le_trans (List.length_take_le n f) h)

theorem take_applyOps_of_ge (f : List Nat) (ops : List (Nat × Nat)) (n : Nat)
    (h : ∀ op ∈ ops, n ≤ op.1) : (applyOps f ops).take n = f.take n := by
  induction ops generalizing f with
  | nil => rfl
  | cons op ops ih =>
    show (applyOps (f.set op.1 op.2) ops).take n = f.take n
    rw [ih (f.set op.1 op.2) (fun o ho => h o (List.mem_cons_of_mem _ ho))]
    exact take_set_of_le f op.1 n op.2 (h op (List.mem_cons_self _ _))

theorem readLE_zero_eq_of_take_eq {f g : List Nat} {w : Nat}
    (h : f.take w = g.take w) : readLE f 0 w = readLE g 0 w := by
  simp only [readLE, slice, List.drop_zero]
  rw [h]

theorem writeByteOps_mem_pos {pos : Nat} {bs : List Nat} {op : Nat × Nat}
    (h : op ∈ writeByteOps pos bs) : pos ≤ op.1 := by
  induction bs generalizing pos with
  | nil => simp [writeByteOps] at h
  | cons b bs ih =>
    simp only [writeByteOps, List.mem_cons] at h
    rcases h with h | h
    · simp [h]
    · exact le_trans (Nat.le_succ pos) (ih h)

theorem writeByteOps_length (pos : Nat) (bs : List Nat) :
    (writeByteOps pos bs).length = bs.length := by
  induction bs generalizing pos with
  | nil => rfl
  | cons b bs ih => simp [writeByteOps, ih]

theorem mmfile.size_resize (f : mmfile) (n : Nat) : (f.resize n).size = n := by
  simp only [mmfile.resize, mmfile.size, List.length_append,
    List.length_take, List.length_replicate]
  omega

theorem resize_take_of_le (f : mmfile) (n k : Nat) (hk : k ≤ n)
    (hk2 : k ≤ f.data.length) :
    ((f.resize n).data).take k = f.data.take k := by
  simp only [mmfile.resize]
  rw [List.take_append_eq_append_take, List.take_take,
    Nat.min_eq_left hk, Nat.sub_eq_zero_of_le
      (by rw [List.length_take]; omega)]
  simp

theorem reserve_size_ge_required (s : hdb_shard_settings) (st : hdb_shard)
    (space : Nat) : st.entries_end + space ≤ (st.reserve s space).size := by
  rw [hdb_shard.reserve]
  split
  · assumption
  · rw [mmfile.size_resize]
    rw [Nat.le_div_iff_mul_le (by norm_num)]
    omega

theorem reserve_size_ge_old (s : hdb_shard_settings) (st : hdb_shard)
    (space : Nat) : st.file.size ≤ (st.reserve s space).size := by
  rw [hdb_shard.reserve]
  split
  · exact le_refl _
  · rw [mmfile.size_resize]
    have : st.file.size < st.entries_end + space := by omega
    have h2 : st.entries_end + space ≤ (st.entries_end + space) * 3 / 2 := by
      rw [Nat.le_div_iff_mul_le (by norm_num)]
      omega
    omega

theorem reserve_take_of_le (s : hdb_shard_settings) (st : hdb_shard)
    (space k : Nat) (hk : k ≤ st.entries_end) (hk2 : k ≤ st.file.data.length) :
    ((st.reserve s space).data).take k = st.file.data.take k := by
  rw [hdb_shard.reserve]
  split
  · rfl
  · apply resize_take_of_le
    · have h2 : st.entries_end + space ≤ (st.entries_end + space) * 3 / 2 := by
        rw [Nat.le_div_iff_mul_le (by norm_num)]
        omega
      omega
    · exact hk2

theorem applyOps_length (f : List Nat) (ops : List (Nat × Nat)) :
    (applyOps f ops).length = f.length := by
  induction ops generalizing f with
  | nil => rfl
  | cons op ops ih =>
    show (applyOps (f.set op.1 op.2) ops).length = f.length
    rw [ih]
    simp

/-! ## Claim theorems: mmfile resize (C7) -/

/-- C7 counterexample: the claim that resize never shrinks is false on the
code; resizing a ten-byte mapped file to five bytes yields size five. -/
theorem mmfile_resize_shrinks_counterexample :
    ((mmfile.mk (List.replicate 10 0)).resize 5).size
      < (mmfile.mk (List.replicate 10 0)).size := by decide

/-- C7 amended: resize sets the mapped size to exactly the requested
new_size, shrinking when it is smaller; the no-shrink guarantee lives at the
call sites, and in particular hdb_shard::reserve never shrinks the file. -/
theorem mmfile_resize_sets_size_and_reserve_grows :
    (∀ (f : mmfile) (n : Nat), (f.resize n).size = n) ∧
    ∀ (s : hdb_shard_settings) (st : hdb_shard) (space : Nat),
      st.file.size ≤ (st.reserve s space).size :=
  ⟨mmfile.size_resize, reserve_size_ge_old⟩

/-! ## Claim theorems: shard unlink guard (C8) -/

/-- C8: unlink at height zero violates the height > 0 precondition and is
rejected without any state change. -/
theorem hdb_shard_unlink_zero_rejected :
    ∀ (s : hdb_shard_settings) (st : hdb_shard), st.unlink s 0 = none := by
  intro s st
  simp [hdb_shard.unlink]

/-! ## Claim theorems: the sort_rows comparator (C3) -/

/-- C3: the sort_rows comparator returns true on every pair of equal keys,
so it is not irreflexive and therefore not a strict weak ordering; std::sort
requires a strict weak ordering. -/
theorem reverse_less_than_reflexive :
    ∀ k : address_bitset, reverse_less_than k k = true := by
  intro k
  induction k with
  | nil => rfl
  | cons a as ih => simpa [reverse_less_than] using ih

/-! ## Claim theorems: sync write ordering (C4) -/

/-- C4: during sync the eight-byte entries_end header field is the last
value written: applying any prefix of the write sequence that stops before
the final eight-byte header write leaves the previous entries_end intact,
and the complete sequence publishes the advanced entries_end. -/
theorem hdb_shard_sync_entries_end_last (s : hdb_shard_settings)
    (st : hdb_shard) (rows : List entry_row) (height : Nat)
    (h8 : 8 ≤ st.entries_end) (hf : 8 ≤ st.file.size) :
    (∀ k, k + 8 ≤ (st.syncOps s rows height).length →
      readLE (applyOps (st.reserve s (entry_size_of s rows)).data
        ((st.syncOps s rows height).take k)) 0 8 = readLE st.file.data 0 8) ∧
    readLE (st.sync s rows height).file.data 0 8
      = (st.entries_end + entry_size_of s rows) % 256 ^ 8 := by
  have hres8 : ((st.reserve s (entry_size_of s rows)).data).take 8
      = st.file.data.take 8 :=
    reserve_take_of_le s st _ 8 h8 hf
  constructor
  · intro k hk
    set e1 := writeByteOps st.entries_end (entry_bytes s (sort_rows rows))
    set e2 := writeByteOps (8 + 8 * height) (leBytes 8 st.entries_end)
    set e3 := writeByteOps 0
      (leBytes 8 (st.entries_end + entry_size_of s rows))
    have hops : st.syncOps s rows height = (e1 ++ e2) ++ e3 := by
      rw [hdb_shard.syncOps, List.append_assoc]
    have hlen3 : e3.length = 8 := by
      rw [writeByteOps_length, length_leBytes]
    have hk12 : k ≤ (e1 ++ e2).length := by
      rw [hops] at hk
      simp only [List.length_append] at hk ⊢
      omega
    have htake : (st.syncOps s rows height).take k = (e1 ++ e2).take k := by
      rw [hops, List.take_append_eq_append_take,
        Nat.sub_eq_zero_of_le hk12]
      simp
    have hge : ∀ op ∈ (st.syncOps s rows height).take k, 8 ≤ op.1 := by
      intro op hop
      rw [htake] at hop
      have hop2 := List.mem_of_mem_take hop
      rcases List.mem_append.mp hop2 with h | h
      · exact le_trans h8 (writeByteOps_mem_pos h)
      · exact le_trans (by omega) (writeByteOps_mem_pos h)
    apply readLE_zero_eq_of_take_eq
    rw [take_applyOps_of_ge _ _ _ hge, hres8]
  · set newEnd := st.entries_end + entry_size_of s rows
    set f := (st.reserve s (entry_size_of s rows)).data
    set e1 := writeByteOps st.entries_end (entry_bytes s (sort_rows rows))
    set e2 := writeByteOps (8 + 8 * height) (leBytes 8 st.entries_end)
    have hops : st.syncOps s rows height
        = (e1 ++ e2) ++ writeByteOps 0 (leBytes 8 newEnd) := by
      rw [hdb_shard.syncOps, List.append_assoc]
    have hflen : 8 ≤ (applyOps f (e1 ++ e2)).length := by
      rw [applyOps_length]
      have h1 := reserve_size_ge_required s st (entry_size_of s rows)
      have : f.length = (st.reserve s (entry_size_of s rows)).size := rfl
      omega
    show readLE (applyOps f (st.syncOps s rows height)) 0 8 = newEnd % 256 ^ 8
    rw [hops, applyOps_append,
      applyOps_writeByteOps _ 0 _ (by rw [length_leBytes]; omega)]
    simp only [List.take_zero, List.nil_append]
    exact readLE_leBytes_here 8 newEnd _

/-- C4 witness: a concrete shard state discharging the hypotheses. -/
theorem hdb_shard_sync_entries_end_last_witness :
    8 ≤ (hdb_shard.mk ⟨List.replicate 24 0⟩ 8).entries_end ∧
    8 ≤ (hdb_shard.mk ⟨List.replicate 24 0⟩ 8).file.size ∧
    ((∀ k, k + 8 ≤ ((hdb_shard.mk ⟨List.replicate 24 0⟩ 8).syncOps
        ⟨1, 1, 0, 1, 1⟩ [] 0).length →
      readLE (applyOps ((hdb_shard.mk ⟨List.replicate 24 0⟩ 8).reserve
          ⟨1, 1, 0, 1, 1⟩ (entry_size_of ⟨1, 1, 0, 1, 1⟩ [])).data
        (((hdb_shard.mk ⟨List.replicate 24 0⟩ 8).syncOps
          ⟨1, 1, 0, 1, 1⟩ [] 0).take k)) 0 8
        = readLE (hdb_shard.mk ⟨List.replicate 24 0⟩ 8).file.data 0 8) ∧
    readLE ((hdb_shard.mk ⟨List.replicate 24 0⟩ 8).sync
        ⟨1, 1, 0, 1, 1⟩ [] 0).file.data 0 8
      = ((hdb_shard.mk ⟨List.replicate 24 0⟩ 8).entries_end
          + entry_size_of ⟨1, 1, 0, 1, 1⟩ []) % 256 ^ 8) :=
  ⟨by decide, by decide,
    hdb_shard_sync_entries_end_last ⟨1, 1, 0, 1, 1⟩
      (hdb_shard.mk ⟨List.replicate 24 0⟩ 8) [] 0 (by decide) (by decide)⟩

/-! ## Claim theorems: sixteen-bit entry fields (C9) -/

theorem sort_rows_perm (rows : List entry_row) :
    List.Perm (sort_rows rows) rows :=
  List.perm_insertionSort _ rows

theorem sort_rows_length (rows : List entry_row) :
    (sort_rows rows).length = rows.length :=
  (sort_rows_perm rows).length_eq

theorem readLE_flatMap_leBytes2 (l : List Nat) (j : Nat) (rest : List Nat)
    (hj : j < l.length) :
    readLE (l.flatMap (leBytes 2) ++ rest) (2 * j) 2 = l.getD j 0 % 65536 := by
  induction l generalizing j rest with
  | nil => simp at hj
  | cons x l ih =>
    cases j with
    | zero =>
      simp only [Nat.mul_zero, List.flatMap_cons, List.append_assoc]
      have := readLE_leBytes_here 2 x (l.flatMap (leBytes 2) ++ rest)
      simpa using this
    | succ j =>
      have harith : 2 * (j + 1) = (leBytes 2 x).length + 2 * j := by
        rw [length_leBytes]; omega
      simp only [List.flatMap_cons, List.append_assoc, harith]
      rw [readLE_append_offset]
      simpa using ih j rest (by simpa using hj)

/-- C9: sync serializes the row count and every bucket slot as sixteen-bit
little-endian fields: the stored row count always equals the buffered count
reduced modulo 65536 (so a buffer of more than 65535 rows is stored
truncated), and every stored bucket slot is likewise reduced modulo
65536. -/
theorem hdb_shard_entry_fields_mod_65536 (s : hdb_shard_settings)
    (rows : List entry_row) :
    readLE (entry_bytes s (sort_rows rows)) 0 2 = rows.length % 65536 ∧
    ∀ j, j < (write_buckets s (sort_rows rows)).length →
      readLE (entry_bytes s (sort_rows rows)) (2 + 2 * j) 2
        = (write_buckets s (sort_rows rows)).getD j 0 % 65536 := by
  constructor
  · rw [entry_bytes, List.append_assoc, readLE_leBytes_here, sort_rows_length]
    norm_num
  · intro j hj
    have harith : 2 + 2 * j = (leBytes 2 (sort_rows rows).length).length + 2 * j := by
      rw [length_leBytes]
    rw [entry_bytes, List.append_assoc, harith, readLE_append_offset]
    exact readLE_flatMap_leBytes2 _ j _ hj

/-- C9 witness: a concrete one-row entry, reading back its first bucket
slot. -/
theorem hdb_shard_entry_fields_mod_65536_witness :
    0 < (write_buckets ⟨1, 1, 0, 1, 1⟩
        (sort_rows [entry_row.mk (List.replicate 8 false) [5]])).length ∧
    readLE (entry_bytes ⟨1, 1, 0, 1, 1⟩
        (sort_rows [entry_row.mk (List.replicate 8 false) [5]])) (2 + 2 * 0) 2
      = (write_buckets ⟨1, 1, 0, 1, 1⟩
          (sort_rows [entry_row.mk (List.replicate 8 false) [5]])).getD 0 0
        % 65536 :=
  ⟨by decide,
    (hdb_shard_entry_fields_mod_65536 ⟨1, 1, 0, 1, 1⟩
      [entry_row.mk (List.replicate 8 false) [5]]).2 0 (by decide)⟩

/-! ## Claim theorems: the special duplicate transactions (C10) -/

/-- C10: at block heights 91842 and 91880 the push loop silently skips the
transaction at index 0: its spends, history, stealth and transaction store
effects are all absent and every other transaction contributes exactly its
normal effects; at every other height no transaction is skipped. -/
theorem db_push_skips_special_duplicates (env : push_env) (h : Nat)
    (blk : block_type) :
    ((h = 91842 ∨ h = 91880) →
      (db_push_effects env h blk
        = (blk.transactions.enum).flatMap
            (fun p => if p.1 = 0 then []
              else (push_tx_effects env h p.1 p.2).map (fun e => (p.1, e)))) ∧
      ∀ e ∈ db_push_effects env h blk, e.1 ≠ 0) ∧
    (¬(h = 91842 ∨ h = 91880) →
      db_push_effects env h blk
        = (blk.transactions.enum).flatMap
            (fun p => (push_tx_effects env h p.1 p.2).map (fun e => (p.1, e)))) := by
  constructor
  · intro hs
    have hspec : ∀ idx : Nat, is_special_duplicate ⟨h, idx⟩ = decide (idx = 0) := by
      intro idx
      rcases hs with rfl | rfl <;>
        · simp only [is_special_duplicate]
          by_cases hi : idx = 0 <;> simp [hi]
    have heq : db_push_effects env h blk
        = (blk.transactions.enum).flatMap
            (fun p => if p.1 = 0 then []
              else (push_tx_effects env h p.1 p.2).map (fun e => (p.1, e))) := by
      rw [db_push_effects]
      apply List.flatMap_congr
      intro p _
      rw [hspec p.1]
      by_cases hp : p.1 = 0 <;> simp [hp]
    refine ⟨heq, ?_⟩
    intro e he
    rw [heq] at he
    rcases List.mem_flatMap.mp he with ⟨p, _, hep⟩
    by_cases hp : p.1 = 0
    · simp [hp] at hep
    · simp only [if_neg hp, List.mem_map] at hep
      rcases hep with ⟨a, _, rfl⟩
      exact hp
  · intro hs
    rw [db_push_effects]
    apply List.flatMap_congr
    intro p _
    have : is_special_duplicate ⟨h, p.1⟩ = false := by
      simp only [is_special_duplicate]
      simp only [not_or] at hs
      rcases hs with ⟨h1, h2⟩
      simp [h1, h2]
    simp [this]

/-- C10 witness: a concrete two-transaction block at height 91842. -/
theorem db_push_skips_special_duplicates_witness :
    ((91842 : Nat) = 91842 ∨ (91842 : Nat) = 91880) ∧
    ((db_push_effects ⟨fun _ => none, fun _ => none, fun _ => none, 0⟩ 91842
        ⟨[⟨1, true, [], []⟩, ⟨2, true, [], []⟩]⟩
      = ((block_type.mk [⟨1, true, [], []⟩, ⟨2, true, [], []⟩]).transactions.enum).flatMap
          (fun p => if p.1 = 0 then []
            else (push_tx_effects ⟨fun _ => none, fun _ => none, fun _ => none, 0⟩
              91842 p.1 p.2).map (fun e => (p.1, e)))) ∧
    ∀ e ∈ db_push_effects ⟨fun _ => none, fun _ => none, fun _ => none, 0⟩ 91842
        ⟨[⟨1, true, [], []⟩, ⟨2, true, [], []⟩]⟩, e.1 ≠ 0) :=
  ⟨Or.inl rfl,
    (db_push_skips_special_duplicates
      ⟨fun _ => none, fun _ => none, fun _ => none, 0⟩ 91842
      ⟨[⟨1, true, [], []⟩, ⟨2, true, [], []⟩]⟩).1 (Or.inl rfl)⟩

/-! ## Chain lemmas for htdb_slab (C1, C5) -/

theorem chain_mem_le {items : List (slab_item K V)} {head : Nat} {ps : List Nat}
    (h : IsChain items head ps) : ∀ q ∈ ps, q ≤ head := by
  induction h with
  | nil => intro q hq; simp at hq
  | cons pos ps item hpos hget hdec hrest ih =>
    intro q hq
    rcases List.mem_cons.mp hq with rfl | hq
    · exact le_refl q
    · exact le_trans (ih q hq) (le_of_lt hdec)

theorem chain_head_le_length {items : List (slab_item K V)} {head : Nat}
    {ps : List Nat} (h : IsChain items head ps) : head ≤ items.length := by
  cases h with
  | nil => exact Nat.zero_le _
  | cons pos ps item hpos hget hdec hrest =>
    obtain ⟨hlt, -⟩ := List.get?_eq_some.mp hget
    omega

theorem chain_mem_pos {items : List (slab_item K V)} {head : Nat}
    {ps : List Nat} (h : IsChain items head ps) : ∀ q ∈ ps, 0 < q := by
  induction h with
  | nil => intro q hq; simp at hq
  | cons pos ps item hpos hget hdec hrest ih =>
    intro q hq
    rcases List.mem_cons.mp hq with rfl | hq
    · exact hpos
    · exact ih q hq

theorem IsChain_cons_inv {items : List (slab_item K V)} {head p : Nat}
    {ps : List Nat} (h : IsChain items head (p :: ps)) :
    head = p ∧ ∃ item, items.get? (p - 1) = some item ∧ item.next < p ∧
      IsChain items item.next ps := by
  cases h with
  | cons pos ps item hpos hget hdec hrest => exact ⟨rfl, item, hget, hdec, hrest⟩

theorem IsChain_congr {items items' : List (slab_item K V)} {head : Nat}
    {ps : List Nat}
    (hag : ∀ i, i < items.length → items'.get? i = items.get? i)
    (h : IsChain items head ps) : IsChain items' head ps := by
  induction h with
  | nil => exact IsChain.nil
  | cons pos ps item hpos hget hdec hrest ih =>
    obtain ⟨hlt, -⟩ := List.get?_eq_some.mp hget
    exact IsChain.cons pos ps item hpos (by rw [hag _ hlt]; exact hget) hdec ih

theorem chain_keyvals_congr {items items' : List (slab_item K V)} {head : Nat}
    {ps : List Nat}
    (hag : ∀ i, i < items.length → items'.get? i = items.get? i)
    (h : IsChain items head ps) :
    chain_keyvals items' ps = chain_keyvals items ps := by
  induction h with
  | nil => rfl
  | cons pos ps item hpos hget hdec hrest ih =>
    obtain ⟨hlt, -⟩ := List.get?_eq_some.mp hget
    simp only [chain_keyvals, List.filterMap_cons] at ih ⊢
    rw [hag _ hlt, ih]

theorem IsChain_append {items l : List (slab_item K V)} {head : Nat}
    {ps : List Nat} (h : IsChain items head ps) :
    IsChain (items ++ l) head ps :=
  IsChain_congr (fun i hi => by
    rw [List.get?_eq_getElem?, List.get?_eq_getElem?, List.getElem?_append_left hi]) h

theorem chain_keyvals_append {items l : List (slab_item K V)} {head : Nat}
    {ps : List Nat} (h : IsChain items head ps) :
    chain_keyvals (items ++ l) ps = chain_keyvals items ps :=
  chain_keyvals_congr (fun i hi => by
    rw [List.get?_eq_getElem?, List.get?_eq_getElem?, List.getElem?_append_left hi]) h

theorem IsChain_set_ne {items : List (slab_item K V)} {head pos : Nat}
    {x : slab_item K V} {ps : List Nat}
    (hnot : ∀ q ∈ ps, q ≠ pos) (hpos : 0 < pos)
    (h : IsChain items head ps) : IsChain (items.set (pos - 1) x) head ps := by
  induction h with
  | nil => exact IsChain.nil
  | cons p ps item hp hget hdec hrest ih =>
    refine IsChain.cons p ps item hp ?_ hdec
      (ih (fun q hq => hnot q (List.mem_cons_of_mem _ hq)))
    rw [List.get?_eq_getElem?, List.getElem?_set_ne, ← List.get?_eq_getElem?]
    · exact hget
    · have hne : p ≠ pos := hnot p (List.mem_cons_self _ _)
      omega

theorem chain_keyvals_set_ne {items : List (slab_item K V)} {head pos : Nat}
    {x : slab_item K V} {ps : List Nat}
    (hnot : ∀ q ∈ ps, q ≠ pos) (hpos : 0 < pos)
    (h : IsChain items head ps) :
    chain_keyvals (items.set (pos - 1) x) ps = chain_keyvals items ps := by
  induction h with
  | nil => rfl
  | cons p ps item hp hget hdec hrest ih =>
    simp only [chain_keyvals, List.filterMap_cons] at ih ⊢
    rw [ih (fun q hq => hnot q (List.mem_cons_of_mem _ hq))]
    have hne : p ≠ pos := hnot p (List.mem_cons_self _ _)
    rw [List.get?_eq_getElem?, List.getElem?_set_ne (by omega),
      ← List.get?_eq_getElem?]

theorem unlinkWalk_eq_splice [DecidableEq K] {items : List (slab_item K V)}
    {k : K} {head : Nat} {ps : List Nat} (h : IsChain items head ps) :
    ∀ prev fuel, head < fuel →
    htdb_slab.unlinkWalk items k prev head fuel
      = some ((splice_result items k prev ps).map (fun t => (t.1, t.2.2))) := by
  induction h with
  | nil =>
    intro prev fuel hf
    cases fuel with
    | zero => omega
    | succ f => simp [htdb_slab.unlinkWalk, splice_result]
  | cons pos ps item hpos hget hdec hrest ih =>
    intro prev fuel hf
    cases fuel with
    | zero => omega
    | succ f =>
      have hget' : items[pos - 1]? = some item := by
        rw [← List.get?_eq_getElem?]
        exact hget
      rw [htdb_slab.unlinkWalk]
      rw [if_neg (by omega), hget]
      by_cases hk : item.key = k
      · simp [splice_result, hget, hget', hk]
      · simp only [splice_result, hget, if_neg hk]
        exact ih pos f (by omega)

theorem splice_spec [DecidableEq K] {items : List (slab_item K V)} {k : K} :
    ∀ {head : Nat} {ps : List Nat}, IsChain items head ps →
    ∀ {prev : Nat}, prev ∉ ps →
    ((splice_result items k prev ps = none →
       ∀ p ∈ chain_keyvals items ps, p.1 ≠ k) ∧
     (∀ fpos nxt, splice_result items k prev ps = some (prev, fpos, nxt) →
       ∃ ps2 it, ps = fpos :: ps2 ∧ items.get? (fpos - 1) = some it ∧
         it.key = k ∧ nxt = it.next ∧ IsChain items nxt ps2 ∧
         chain_keyvals items ps2
           = (chain_keyvals items ps).eraseP (fun p => decide (p.1 = k))) ∧
     (∀ pp fpos nxt, splice_result items k prev ps = some (pp, fpos, nxt) →
       pp ≠ prev →
       ∃ ppitem ps', pp ∈ ps ∧ 0 < pp ∧ items.get? (pp - 1) = some ppitem ∧
         IsChain (items.set (pp - 1) ⟨ppitem.key, nxt, ppitem.value⟩) head ps' ∧
         chain_keyvals (items.set (pp - 1) ⟨ppitem.key, nxt, ppitem.value⟩) ps'
           = (chain_keyvals items ps).eraseP (fun p => decide (p.1 = k)) ∧
         ∀ q ∈ ps', q ∈ ps)) := by
  intro head ps hch
  induction hch with
  | nil =>
    intro prev _
    refine ⟨?_, ?_, ?_⟩
    · intro _ p hp
      simp [chain_keyvals] at hp
    · intro fpos nxt h
      simp [splice_result] at h
    · intro pp fpos nxt h _
      simp [splice_result] at h
  | cons pos ps item hpos hget hdec hrest ih =>
    intro prev hprev
    have hget' : items[pos - 1]? = some item := by
      rw [← List.get?_eq_getElem?]
      exact hget
    have hprev_pos : prev ≠ pos := by
      intro e
      exact hprev (e ▸ List.mem_cons_self _ _)
    have hprev_ps : prev ∉ ps := fun hm => hprev (List.mem_cons_of_mem _ hm)
    have hps_lt : ∀ q ∈ ps, q < pos := fun q hq =>
      lt_of_le_of_lt (chain_mem_le hrest q hq) hdec
    have hpos_ps : pos ∉ ps := fun hm => lt_irrefl pos (hps_lt pos hm)
    have hkv : chain_keyvals items (pos :: ps)
        = (item.key, item.value) :: chain_keyvals items ps := by
      simp [chain_keyvals, hget, hget']
    by_cases hk : item.key = k
    · -- the head of the chain matches
      have hsp : splice_result items k prev (pos :: ps)
          = some (prev, pos, item.next) := by
        simp [splice_result, hget, hget', hk]
      refine ⟨?_, ?_, ?_⟩
      · intro hnone
        rw [hsp] at hnone
        exact absurd hnone (by simp)
      · intro fpos nxt hsome
        rw [hsp] at hsome
        obtain ⟨rfl, rfl⟩ : pos = fpos ∧ item.next = nxt := by
          have := Option.some.inj hsome
          rcases this
          exact ⟨rfl, rfl⟩
        refine ⟨ps, item, rfl, hget, hk, rfl, hrest, ?_⟩
        rw [hkv, List.eraseP_cons_of_pos (by simp [hk])]
      · intro pp fpos nxt hsome hne
        rw [hsp] at hsome
        have := Option.some.inj hsome
        rcases this
        exact absurd rfl hne
    · -- the head does not match; recurse into the tail
      have hsp : splice_result items k prev (pos :: ps)
          = splice_result items k pos ps := by
        simp [splice_result, hget, hget', hk]
      have IH := ih hpos_ps
      refine ⟨?_, ?_, ?_⟩
      · intro hnone p hp
        rw [hsp] at hnone
        rw [hkv] at hp
        rcases List.mem_cons.mp hp with rfl | hp
        · exact hk
        · exact IH.1 hnone p hp
      · intro fpos nxt hsome
        rw [hsp] at hsome
        obtain ⟨_, _, hmem, -⟩ := IH.2.2 prev fpos nxt hsome hprev_pos
        exact absurd hmem hprev_ps
      · intro pp fpos nxt hsome hne
        rw [hsp] at hsome
        by_cases hpp : pp = pos
        · -- the matched node is the first of the tail; pos is the predecessor
          rw [hpp] at hsome ⊢
          obtain ⟨ps2, it2, hps_eq, hget2, hkey2, hnxt2, hch2, hkv2⟩ :=
            IH.2.1 fpos nxt hsome
          have hrest2 : IsChain items item.next (fpos :: ps2) := by
            rw [← hps_eq]
            exact hrest
          obtain ⟨hfpos_eq, item2, hget2', hdec2', -⟩ := IsChain_cons_inv hrest2
          have hit2 : it2 = item2 := by
            rw [hget2'] at hget2
            exact (Option.some.inj hget2).symm
          have hnxt_lt : nxt < pos := by
            rw [hnxt2, hit2]
            omega
          have hpos_lt_len : pos - 1 < items.length := by
            obtain ⟨hlt, -⟩ := List.get?_eq_some.mp hget
            exact hlt
          have hps2_ne_pos : ∀ q ∈ ps2, q ≠ pos := by
            intro q hq
            have : q ∈ ps := by rw [hps_eq]; exact List.mem_cons_of_mem _ hq
            exact ne_of_lt (hps_lt q this)
          refine ⟨item, pos :: ps2, List.mem_cons_self _ _, hpos, hget, ?_, ?_, ?_⟩
          · refine IsChain.cons pos ps2 ⟨item.key, nxt, item.value⟩ hpos ?_
              (by simpa using hnxt_lt) ?_
            · rw [List.get?_eq_getElem?, List.getElem?_set_self hpos_lt_len]
            · exact IsChain_set_ne hps2_ne_pos hpos hch2
          · have hhead : (items.set (pos - 1)
                ⟨item.key, nxt, item.value⟩).get? (pos - 1)
                = some ⟨item.key, nxt, item.value⟩ := by
              rw [List.get?_eq_getElem?, List.getElem?_set_self hpos_lt_len]
            have hcons : chain_keyvals (items.set (pos - 1)
                  ⟨item.key, nxt, item.value⟩) (pos :: ps2)
                = (item.key, item.value) :: chain_keyvals (items.set (pos - 1)
                    ⟨item.key, nxt, item.value⟩) ps2 := by
              simp [chain_keyvals, hhead,
                show (items.set (pos - 1) ⟨item.key, nxt, item.value⟩)[pos - 1]?
                    = some ⟨item.key, nxt, item.value⟩ from by
                  rw [← List.get?_eq_getElem?]; exact hhead]
            rw [hcons, chain_keyvals_set_ne hps2_ne_pos hpos hch2, hkv2, hkv,
              List.eraseP_cons_of_neg (by simp [hk])]
          · intro q hq
            rcases List.mem_cons.mp hq with rfl | hq
            · exact List.mem_cons_self _ _
            · rw [hps_eq]
              exact List.mem_cons_of_mem _ (List.mem_cons_of_mem _ hq)
        · -- the matched node is deeper; the splice happens inside the tail
          obtain ⟨ppitem, ps', hpp_mem, hpp_pos, hpp_get, hch', hkv', hsub⟩ :=
            IH.2.2 pp fpos nxt hsome hpp
          have hpos_ne : pos - 1 ≠ pp - 1 := by
            have : pp < pos := hps_lt pp hpp_mem
            omega
          refine ⟨ppitem, pos :: ps', List.mem_cons_of_mem _ hpp_mem, hpp_pos,
            hpp_get, ?_, ?_, ?_⟩
          · refine IsChain.cons pos ps' item hpos ?_ hdec hch'
            rw [List.get?_eq_getElem?, List.getElem?_set_ne hpos_ne.symm,
              ← List.get?_eq_getElem?]
            exact hget
          · have hhead : (items.set (pp - 1)
                ⟨ppitem.key, nxt, ppitem.value⟩).get? (pos - 1)
                = some item := by
              rw [List.get?_eq_getElem?, List.getElem?_set_ne hpos_ne.symm,
                ← List.get?_eq_getElem?]
              exact hget
            have hcons : chain_keyvals (items.set (pp - 1)
                  ⟨ppitem.key, nxt, ppitem.value⟩) (pos :: ps')
                = (item.key, item.value) :: chain_keyvals (items.set (pp - 1)
                    ⟨ppitem.key, nxt, ppitem.value⟩) ps' := by
              simp [chain_keyvals, hhead,
                show (items.set (pp - 1) ⟨ppitem.key, nxt, ppitem.value⟩)[pos - 1]?
                    = some item from by
                  rw [← List.get?_eq_getElem?]; exact hhead]
            rw [hcons, hkv', hkv, List.eraseP_cons_of_neg (by simp [hk])]
          · intro q hq
            rcases List.mem_cons.mp hq with rfl | hq
            · exact List.mem_cons_self _ _
            · exact List.mem_cons_of_mem _ (hsub q hq)

theorem getLoop_eq_find [DecidableEq K] {items : List (slab_item K V)} {k : K}
    {head : Nat} {ps : List Nat} (h : IsChain items head ps) :
    ∀ fuel, head < fuel →
    htdb_slab.getLoop items k head fuel
      = some (((chain_keyvals items ps).find?
          (fun p => decide (p.1 = k))).map Prod.snd) := by
  induction h with
  | nil =>
    intro fuel hf
    cases fuel with
    | zero => omega
    | succ f => simp [htdb_slab.getLoop, chain_keyvals]
  | cons pos ps item hpos hget hdec hrest ih =>
    intro fuel hf
    cases fuel with
    | zero => omega
    | succ f =>
      have hget' : items[pos - 1]? = some item := by
        rw [← List.get?_eq_getElem?]
        exact hget
      have hkv : chain_keyvals items (pos :: ps)
          = (item.key, item.value) :: chain_keyvals items ps := by
        simp [chain_keyvals, hget, hget']
      rw [htdb_slab.getLoop]
      rw [if_neg (by omega), hget, hkv]
      dsimp only
      by_cases hk : item.key = k
      · rw [if_pos hk, List.find?_cons_of_pos _ (by simp [hk])]
        rfl
      · rw [if_neg hk, List.find?_cons_of_neg _ (by simp [hk])]
        exact ih f (by omega)

theorem chain_mem_get {items : List (slab_item K V)} {head : Nat}
    {ps : List Nat} (h : IsChain items head ps) :
    ∀ q ∈ ps, ∃ it, items.get? (q - 1) = some it := by
  induction h with
  | nil => intro q hq; simp at hq
  | cons pos ps item hpos hget hdec hrest ih =>
    intro q hq
    rcases List.mem_cons.mp hq with rfl | hq
    · exact ⟨item, hget⟩
    · exact ih q hq

theorem ref_chain_append_store [DecidableEq K] (fp : K → Nat) (nb : Nat)
    (ops : List (slab_op K V)) (k : K) (v : V) (b : Nat) :
    ref_chain fp nb (ops ++ [.store k v]) b
      = if bucket_index fp nb k = b then (k, v) :: ref_chain fp nb ops b
        else ref_chain fp nb ops b := by
  simp [ref_chain, List.foldl_append]

theorem ref_chain_append_unlink [DecidableEq K] (fp : K → Nat) (nb : Nat)
    (ops : List (slab_op K V)) (k : K) (b : Nat) :
    ref_chain fp nb (ops ++ [.unlink k]) b
      = if bucket_index fp nb k = b
        then (ref_chain fp nb ops b).eraseP (fun p => decide (p.1 = k))
        else ref_chain fp nb ops b := by
  simp [ref_chain, List.foldl_append]

theorem ref_stack_append_store [DecidableEq K] (ops : List (slab_op K V))
    (k k' : K) (v : V) :
    ref_stack (ops ++ [.store k' v]) k
      = if k' = k then v :: ref_stack ops k else ref_stack ops k := by
  simp [ref_stack, List.foldl_append]

theorem ref_stack_append_unlink [DecidableEq K] (ops : List (slab_op K V))
    (k k' : K) :
    ref_stack (ops ++ [.unlink k']) k
      = if k' = k then (ref_stack ops k).tail else ref_stack ops k := by
  simp [ref_stack, List.foldl_append]

theorem SlabInv_store [DecidableEq K] (fp : K → Nat) (nb : Nat)
    {st : htdb_slab K V} {ops : List (slab_op K V)}
    (hinv : SlabInv fp nb st ops) (k : K) (v : V) :
    SlabInv fp nb (st.store fp k v) (ops ++ [.store k v]) := by
  obtain ⟨hlen, hb⟩ := hinv
  have hbi : bucket_index fp st.buckets.length k = bucket_index fp nb k := by
    rw [hlen]
  refine ⟨by simp [htdb_slab.store, hlen], ?_⟩
  intro b hblt
  obtain ⟨ps, hch, hkv, hcond⟩ := hb b hblt
  have hitems : (st.store fp k v).items = st.items ++ [⟨k, st.read_bucket_value fp k, v⟩] := rfl
  have hget_pres : ∀ i, i < st.items.length →
      (st.store fp k v).items.get? i = st.items.get? i := by
    intro i hi
    rw [hitems, List.get?_eq_getElem?, List.get?_eq_getElem?,
      List.getElem?_append_left hi]
  by_cases hbk : bucket_index fp nb k = b
  · -- the stored key hashes to this bucket: the chain gains a head
    have hblen : b < st.buckets.length := by
      rw [hlen]
      exact hblt
    have hhead : (st.store fp k v).buckets.getD b 0 = st.items.length + 1 := by
      simp only [htdb_slab.store, hbi, hbk]
      simp [List.getD_eq_getElem?_getD, List.getElem?_set_self hblen]
    have hold : st.read_bucket_value fp k = st.buckets.getD b 0 := by
      rw [htdb_slab.read_bucket_value, hbi, hbk]
    refine ⟨(st.items.length + 1) :: ps, ?_, ?_, ?_⟩
    · rw [hhead]
      refine IsChain.cons _ ps ⟨k, st.read_bucket_value fp k, v⟩
        (by omega) ?_ ?_ ?_
      · rw [hitems]
        simp only [Nat.add_sub_cancel]
        rw [List.get?_eq_getElem?, List.getElem?_concat_length]
      · simp only [Nat.add_sub_cancel]
        rw [hold]
        have := chain_head_le_length hch
        omega
      · simp only
        rw [hold]
        exact IsChain_append hch
    · have hc : chain_keyvals (st.store fp k v).items ((st.items.length + 1) :: ps)
          = (k, v) :: chain_keyvals st.items ps := by
        simp only [chain_keyvals, List.filterMap_cons]
        have h1 : (st.store fp k v).items.get? (st.items.length + 1 - 1)
            = some ⟨k, st.read_bucket_value fp k, v⟩ := by
          rw [hitems]
          simp only [Nat.add_sub_cancel]
          rw [List.get?_eq_getElem?, List.getElem?_concat_length]
        rw [h1]
        have h2 : chain_keyvals (st.store fp k v).items ps
            = chain_keyvals st.items ps := by
          rw [hitems]
          exact chain_keyvals_append hch
        simp only [chain_keyvals] at h2
        rw [h2]
        rfl
      rw [hc, hkv, ref_chain_append_store, if_pos hbk]
    · intro p hp it hit
      rcases List.mem_cons.mp hp with rfl | hp
      · have h1 : (st.store fp k v).items.get? (st.items.length + 1 - 1)
            = some ⟨k, st.read_bucket_value fp k, v⟩ := by
          rw [hitems]
          simp only [Nat.add_sub_cancel]
          rw [List.get?_eq_getElem?, List.getElem?_concat_length]
        rw [h1] at hit
        rw [← Option.some.inj hit]
        exact hbk
      · obtain ⟨it0, hit0⟩ := chain_mem_get hch p hp
        obtain ⟨hlt, -⟩ := List.get?_eq_some.mp hit0
        rw [hget_pres _ hlt, hit0] at hit
        rw [← Option.some.inj hit]
        exact hcond p hp it0 hit0
  · -- a different bucket: untouched
    have hhead : (st.store fp k v).buckets.getD b 0 = st.buckets.getD b 0 := by
      simp only [htdb_slab.store, hbi]
      simp [List.getD_eq_getElem?_getD, List.getElem?_set_ne hbk]
    refine ⟨ps, ?_, ?_, ?_⟩
    · rw [hhead, hitems]
      exact IsChain_append hch
    · have h2 : chain_keyvals (st.store fp k v).items ps
          = chain_keyvals st.items ps := by
        rw [hitems]
        exact chain_keyvals_append hch
      rw [h2, hkv, ref_chain_append_store, if_neg hbk]
    · intro p hp it hit
      obtain ⟨it0, hit0⟩ := chain_mem_get hch p hp
      obtain ⟨hlt, -⟩ := List.get?_eq_some.mp hit0
      rw [hget_pres _ hlt, hit0] at hit
      rw [← Option.some.inj hit]
      exact hcond p hp it0 hit0

theorem SlabInv_unlink [DecidableEq K] (fp : K → Nat) (nb : Nat)
    {st : htdb_slab K V} {ops : List (slab_op K V)}
    (hinv : SlabInv fp nb st ops) (k : K) :
    SlabInv fp nb (st.unlink fp k).1 (ops ++ [.unlink k]) := by
  obtain ⟨hlen, hb⟩ := hinv
  have hbi : bucket_index fp st.buckets.length k = bucket_index fp nb k := by
    rw [hlen]
  set bk := bucket_index fp nb k with hbk_def
  by_cases hbklt : bk < nb
  case neg =>
    -- an out-of-range bucket index cannot arise from a remainder, but in
    -- that degenerate case every chain read falls back to the defaults and
    -- the walk sees the sentinel; handle it by noting getD of an
    -- out-of-range index is 0, giving an empty chain
    have hnone : st.buckets.getD bk 0 = 0 := by
      simp [List.getD_eq_getElem?_getD, List.getElem?_eq_none (by omega : st.buckets.length ≤ bk)]
    have hch0 : IsChain st.items 0 ([] : List Nat) := IsChain.nil
    have hwalk := unlinkWalk_eq_splice (k := k) hch0
      0 (st.items.length + 1) (by omega)
    have hres : st.unlink fp k = (st, false) := by
      rw [htdb_slab.unlink]
      simp only [hbi, ← hbk_def, hnone]
      rw [hwalk]
      simp [splice_result]
    rw [hres]
    refine ⟨hlen, ?_⟩
    intro b hblt
    obtain ⟨ps, hch, hkv, hcond⟩ := hb b hblt
    refine ⟨ps, hch, ?_, hcond⟩
    rw [hkv, ref_chain_append_unlink, if_neg (by omega : ¬ bk = b)]
  case pos =>
  obtain ⟨ps, hch, hkv, hcond⟩ := hb bk hbklt
  have hhead_le : st.buckets.getD bk 0 ≤ st.items.length := chain_head_le_length hch
  have h0ps : (0 : Nat) ∉ ps := fun hm => lt_irrefl 0 (chain_mem_pos hch 0 hm)
  have hwalk := unlinkWalk_eq_splice (k := k) hch 0
    (st.items.length + 1) (by omega)
  have hspec := splice_spec (k := k) hch h0ps
  -- case analysis on the walk result
  rcases hsp : splice_result st.items k 0 ps with - | ⟨pp, fpos, nxt⟩
  · -- no matching node: unlink changes nothing and the reference erase is
    -- the identity
    have hres : st.unlink fp k = (st, false) := by
      rw [htdb_slab.unlink]
      simp only [hbi, ← hbk_def]
      rw [hwalk, hsp]
      rfl
    rw [hres]
    refine ⟨hlen, ?_⟩
    intro b hblt
    obtain ⟨ps', hch', hkv', hcond'⟩ := hb b hblt
    refine ⟨ps', hch', ?_, hcond'⟩
    rw [hkv', ref_chain_append_unlink]
    by_cases hbe : bk = b
    · rw [if_pos hbe, List.eraseP_of_forall_not]
      intro p hp
      simp only [decide_eq_true_eq]
      apply hspec.1 hsp
      rw [← hbe] at hp
      rw [← hkv] at hp
      exact hp
    · rw [if_neg hbe]
  · by_cases hpp0 : pp = 0
    · -- the chain head matches: the bucket slot is rewritten
      subst hpp0
      obtain ⟨ps2, it, hps_eq, hget_f, hkey_f, hnxt_f, hch2, hkv2⟩ :=
        hspec.2.1 fpos nxt hsp
      have hres : st.unlink fp k
          = (⟨st.buckets.set bk nxt, st.items⟩, true) := by
        rw [htdb_slab.unlink]
        simp only [hbi, ← hbk_def]
        rw [hwalk, hsp]
        rfl
      rw [hres]
      refine ⟨by simpa using hlen, ?_⟩
      intro b hblt
      by_cases hbe : bk = b
      · subst hbe
        refine ⟨ps2, ?_, ?_, ?_⟩
        · have : (st.buckets.set bk nxt).getD bk 0 = nxt := by
            have hblen : bk < st.buckets.length := by rw [hlen]; exact hbklt
            simp [List.getD_eq_getElem?_getD, List.getElem?_set_self hblen]
          rw [this]
          exact hch2
        · rw [hkv2, hkv, ref_chain_append_unlink, if_pos rfl]
        · intro p hp it' hit'
          have hp' : p ∈ ps := by
            rw [hps_eq]
            exact List.mem_cons_of_mem _ hp
          exact hcond p hp' it' hit'
      · obtain ⟨ps', hch', hkv', hcond'⟩ := hb b hblt
        refine ⟨ps', ?_, ?_, hcond'⟩
        · have : (st.buckets.set bk nxt).getD b 0 = st.buckets.getD b 0 := by
            simp [List.getD_eq_getElem?_getD, List.getElem?_set_ne hbe]
          rw [this]
          exact hch'
        · rw [hkv', ref_chain_append_unlink, if_neg hbe]
    · -- a predecessor node is spliced: one next field is rewritten
      obtain ⟨ppitem, ps', hpp_mem, hpp_pos, hpp_get, hch', hkv', hsub⟩ :=
        hspec.2.2 pp fpos nxt hsp hpp0
      have hres : st.unlink fp k
          = (⟨st.buckets,
              st.items.set (pp - 1) ⟨ppitem.key, nxt, ppitem.value⟩⟩, true) := by
        rw [htdb_slab.unlink]
        simp only [hbi, ← hbk_def]
        rw [hwalk, hsp]
        simp only [Option.map_some']
        rw [if_neg hpp0, hpp_get]
      rw [hres]
      have hppbk : bucket_index fp nb ppitem.key = bk := hcond pp hpp_mem ppitem hpp_get
      have hget_pres : ∀ i, i ≠ pp - 1 →
          (st.items.set (pp - 1) ⟨ppitem.key, nxt, ppitem.value⟩).get? i
            = st.items.get? i := by
        intro i hi
        rw [List.get?_eq_getElem?, List.get?_eq_getElem?,
          List.getElem?_set_ne (fun e => hi e.symm)]
      refine ⟨hlen, ?_⟩
      intro b hblt
      by_cases hbe : bk = b
      · subst hbe
        refine ⟨ps', hch', ?_, ?_⟩
        · rw [hkv', hkv, ref_chain_append_unlink, if_pos rfl]
        · intro p hp it' hit'
          by_cases hppe : p = pp
          · subst hppe
            have : (st.items.set (p - 1) ⟨ppitem.key, nxt, ppitem.value⟩).get? (p - 1)
                = some ⟨ppitem.key, nxt, ppitem.value⟩ := by
              obtain ⟨hlt, -⟩ := List.get?_eq_some.mp hpp_get
              rw [List.get?_eq_getElem?, List.getElem?_set_self hlt]
            rw [this] at hit'
            rw [← Option.some.inj hit']
            exact hppbk
          · rw [hget_pres _ (by
                have hq : 0 < p := chain_mem_pos hch p (hsub p hp)
                omega)] at hit'
            exact hcond p (hsub p hp) it' hit'
      · obtain ⟨psb, hchb, hkvb, hcondb⟩ := hb b hblt
        have hpp_notin : ∀ q ∈ psb, q ≠ pp := by
          intro q hq he
          subst he
          obtain ⟨itb, hitb⟩ := chain_mem_get hchb q hq
          have h1 : bucket_index fp nb itb.key = b := hcondb q hq itb hitb
          have h2 : itb = ppitem := by
            rw [hitb] at hpp_get
            exact Option.some.inj hpp_get
          rw [h2, hppbk] at h1
          exact hbe h1
        refine ⟨psb, ?_, ?_, ?_⟩
        · exact IsChain_set_ne hpp_notin hpp_pos hchb
        · rw [chain_keyvals_set_ne hpp_notin hpp_pos hchb, hkvb,
            ref_chain_append_unlink, if_neg hbe]
        · intro p hp it' hit'
          have hpe : p ≠ pp := hpp_notin p hp
          rw [hget_pres _ (by
            have hq : 0 < p := chain_mem_pos hchb p hp
            omega)] at hit'
          exact hcondb p hp it' hit'

theorem SlabInv_empty [DecidableEq K] (fp : K → Nat) (nb : Nat) :
    SlabInv fp nb (htdb_slab.empty K V nb) ([] : List (slab_op K V)) := by
  refine ⟨by simp [htdb_slab.empty], ?_⟩
  intro b hblt
  refine ⟨[], ?_, rfl, by simp⟩
  have : (htdb_slab.empty K V nb).buckets.getD b 0 = 0 := by
    simp [htdb_slab.empty, List.getD_eq_getElem?_getD,
      List.getElem?_replicate, hblt]
  rw [this]
  exact IsChain.nil

theorem SlabInv_run [DecidableEq K] (fp : K → Nat) (nb : Nat)
    (ops : List (slab_op K V)) :
    SlabInv fp nb (slab_run fp nb ops) ops := by
  induction ops using List.reverseRecOn with
  | nil => exact SlabInv_empty fp nb
  | append_singleton ops op ih =>
    have hrun : slab_run fp nb (ops ++ [op])
        = slab_apply fp (slab_run fp nb ops) op := by
      simp [slab_run, List.foldl_append]
    rw [hrun]
    cases op with
    | store k v => exact SlabInv_store fp nb ih k v
    | unlink k => exact SlabInv_unlink fp nb ih k

theorem find?_eq_head_filter (c : List α) (p : α → Bool) :
    c.find? p = (c.filter p).head? := by
  induction c with
  | nil => rfl
  | cons x xs ih =>
    by_cases hx : p x = true
    · rw [List.find?_cons_of_pos _ hx, List.filter_cons_of_pos hx]
      rfl
    · rw [List.find?_cons_of_neg _ (by simp [hx]),
        List.filter_cons_of_neg (by simp [hx]), ih]

theorem filter_eraseP_self (c : List α) (p : α → Bool) :
    (c.eraseP p).filter p = (c.filter p).tail := by
  induction c with
  | nil => rfl
  | cons x xs ih =>
    by_cases hx : p x = true
    · rw [List.eraseP_cons_of_pos hx, List.filter_cons_of_pos hx]
      rfl
    · rw [List.eraseP_cons_of_neg (by simp [hx]),
        List.filter_cons_of_neg (by simp [hx]),
        List.filter_cons_of_neg (by simp [hx]), ih]

theorem filter_eraseP_disjoint (c : List α) (p q : α → Bool)
    (h : ∀ x, q x = true → p x = false) :
    (c.eraseP q).filter p = c.filter p := by
  induction c with
  | nil => rfl
  | cons x xs ih =>
    by_cases hx : q x = true
    · rw [List.eraseP_cons_of_pos hx, List.filter_cons_of_neg (by simp [h x hx])]
    · rw [List.eraseP_cons_of_neg (by simp [hx])]
      by_cases hp : p x = true
      · rw [List.filter_cons_of_pos hp, List.filter_cons_of_pos hp, ih]
      · rw [List.filter_cons_of_neg (by simp [hp]),
          List.filter_cons_of_neg (by simp [hp]), ih]

theorem ref_chain_filter_eq_stack [DecidableEq K] (fp : K → Nat) (nb : Nat)
    (ops : List (slab_op K V)) (k : K) :
    (ref_chain fp nb ops (bucket_index fp nb k)).filter
        (fun p => decide (p.1 = k))
      = (ref_stack ops k).map (fun v => (k, v)) := by
  induction ops using List.reverseRecOn with
  | nil => rfl
  | append_singleton ops op ih =>
    cases op with
    | store k' v =>
      rw [ref_chain_append_store, ref_stack_append_store]
      by_cases hk : k' = k
      · subst hk
        rw [if_pos rfl, if_pos rfl, List.filter_cons_of_pos (by simp), ih]
        rfl
      · by_cases hbk : bucket_index fp nb k' = bucket_index fp nb k
        · rw [if_pos hbk, if_neg hk, List.filter_cons_of_neg (by simp [hk]), ih]
        · rw [if_neg hbk, if_neg hk, ih]
    | unlink k' =>
      rw [ref_chain_append_unlink, ref_stack_append_unlink]
      by_cases hk : k' = k
      · subst hk
        rw [if_pos rfl, if_pos rfl, filter_eraseP_self, ih, List.map_tail]
      · by_cases hbk : bucket_index fp nb k' = bucket_index fp nb k
        · rw [if_pos hbk, if_neg hk,
            filter_eraseP_disjoint _ _ _ (by
              intro x hx
              simp only [decide_eq_true_eq] at hx
              simp [hx, hk]), ih]
        · rw [if_neg hbk, if_neg hk, ih]

/-! ## Claim theorems: slab hash table functional correctness (C1) -/

/-- C1: for every key and every single-writer history of store and unlink
operations, get returns the value most recently stored for the key and not
subsequently unlinked, and the null pointer when no such value exists.  The
reference stack records exactly those values, newest first; store prepends a
chain node so a later store shadows an earlier one, and get takes the first
chain node with an equal key. -/
theorem htdb_slab_get_returns_latest [DecidableEq K] (fp : K → Nat) (nb : Nat)
    (hnb : 0 < nb) (ops : List (slab_op K V)) (k : K) :
    (slab_run fp nb ops).get fp k = some ((ref_stack ops k).head?) := by
  obtain ⟨hlen, hb⟩ := SlabInv_run fp nb ops
  have hbk : bucket_index fp nb k < nb := Nat.mod_lt _ hnb
  obtain ⟨ps, hch, hkv, hcond⟩ := hb (bucket_index fp nb k) hbk
  have hhead_le : (slab_run fp nb ops).buckets.getD (bucket_index fp nb k) 0
      ≤ (slab_run fp nb ops).items.length := chain_head_le_length hch
  rw [htdb_slab.get, htdb_slab.read_bucket_value, hlen]
  rw [getLoop_eq_find hch _ (by omega)]
  rw [hkv, find?_eq_head_filter, ref_chain_filter_eq_stack]
  cases ref_stack ops k with
  | nil => rfl
  | cons v vs => rfl

/-- C1 witness: a concrete history with shadowing and an unlink; the bucket
count hypothesis is discharged at bucket count one. -/
theorem htdb_slab_get_returns_latest_witness :
    0 < 1 ∧
    (slab_run (fun n => n) 1
        [slab_op.store 1 10, slab_op.store 1 20, slab_op.store 2 30,
          slab_op.unlink 1]).get (fun n => n) 1
      = some ((ref_stack
          [slab_op.store (1 : Nat) (10 : Nat), slab_op.store 1 20,
            slab_op.store 2 30, slab_op.unlink 1] 1).head?) :=
  ⟨Nat.one_pos,
    htdb_slab_get_returns_latest (fun n => n) 1 Nat.one_pos
      [slab_op.store 1 10, slab_op.store 1 20, slab_op.store 2 30,
        slab_op.unlink 1] 1⟩

/-! ## Claim theorems: store links the bucket head last (C5) -/

theorem wfB_buckets {st : htdb_slab K V} (h : st.wfB = true) :
    ∀ b ∈ st.buckets, b ≤ st.items.length := by
  rw [htdb_slab.wfB, Bool.and_eq_true] at h
  intro b hb
  have := (List.all_eq_true.mp h.1) b hb
  simpa using this

theorem wfB_next {st : htdb_slab K V} (h : st.wfB = true) :
    ∀ i it, st.items.get? i = some it → it.next ≤ i := by
  rw [htdb_slab.wfB, Bool.and_eq_true] at h
  intro i it hit
  have hmem : (i, it) ∈ st.items.enum := by
    rw [List.mk_mem_enum_iff_getElem?, ← List.get?_eq_getElem?]
    exact hit
  have := (List.all_eq_true.mp h.2) (i, it) hmem
  simpa using this

theorem getLoop_agree [DecidableEq K] (items items' : List (slab_item K V))
    (k : K)
    (hag : ∀ i, i < items.length → items'.get? i = items.get? i)
    (hwf : ∀ i it, items.get? i = some it → it.next ≤ i) :
    ∀ fuel cur, cur ≤ items.length →
      htdb_slab.getLoop items' k cur fuel = htdb_slab.getLoop items k cur fuel := by
  intro fuel
  induction fuel with
  | zero => intro cur _; rfl
  | succ f ih =>
    intro cur hcur
    rw [htdb_slab.getLoop, htdb_slab.getLoop]
    by_cases hc : cur = 0
    · simp [hc]
    · rw [if_neg hc, if_neg hc]
      have hlt : cur - 1 < items.length := by omega
      rw [hag _ hlt]
      cases hgi : items.get? (cur - 1) with
      | none => rfl
      | some item =>
        by_cases hk : item.key = k
        · simp [hk]
        · simp only [if_neg hk]
          have hnext : item.next ≤ cur - 1 := hwf _ _ hgi
          exact ih item.next (by omega)

theorem getLoop_fuel_eq [DecidableEq K] (items : List (slab_item K V)) (k : K)
    (hwf : ∀ i it, items.get? i = some it → it.next ≤ i) :
    ∀ fuel1 cur fuel2, cur < fuel1 → cur < fuel2 →
      htdb_slab.getLoop items k cur fuel1 = htdb_slab.getLoop items k cur fuel2 := by
  intro fuel1
  induction fuel1 with
  | zero => intro cur fuel2 h1 _; omega
  | succ f1 ih =>
    intro cur fuel2 h1 h2
    cases fuel2 with
    | zero => omega
    | succ f2 =>
      rw [htdb_slab.getLoop, htdb_slab.getLoop]
      by_cases hc : cur = 0
      · simp [hc]
      · rw [if_neg hc, if_neg hc]
        cases hgi : items.get? (cur - 1) with
        | none => rfl
        | some item =>
          by_cases hk : item.key = k
          · simp [hk]
          · simp only [if_neg hk]
            have hnext : item.next ≤ cur - 1 := hwf _ _ hgi
            exact ih item.next f2 (by omega) (by omega)

theorem get_eq_of_extension [DecidableEq K] (fp : K → Nat)
    (st : htdb_slab K V) (items' : List (slab_item K V))
    (hwf : st.wfB = true)
    (hlen' : items'.length = st.items.length + 1)
    (hag : ∀ i, i < st.items.length → items'.get? i = st.items.get? i) :
    ∀ k', htdb_slab.get fp ⟨st.buckets, items'⟩ k' = st.get fp k' := by
  intro k'
  rw [htdb_slab.get, htdb_slab.get]
  have hbv : htdb_slab.read_bucket_value (V := V) fp ⟨st.buckets, items'⟩ k'
      = st.read_bucket_value fp k' := rfl
  rw [hbv]
  have hhead : st.read_bucket_value fp k' ≤ st.items.length := by
    rw [htdb_slab.read_bucket_value]
    rcases hgd : st.buckets[bucket_index fp st.buckets.length k']? with - | b
    · simp [List.getD_eq_getElem?_getD, hgd]
    · have : b ∈ st.buckets := List.getElem?_mem hgd
      simp [List.getD_eq_getElem?_getD, hgd]
      exact wfB_buckets hwf b this
  rw [show items'.length = st.items.length + 1 from hlen']
  rw [getLoop_agree st.items items' k' hag (wfB_next hwf) _ _ hhead]
  exact getLoop_fuel_eq st.items k' (wfB_next hwf) _ _ _ (by omega) (by omega)

/-- C5: during a store the bucket head slot is written only as the final
step, after the new chain node's key, next field (holding the prior head)
and value have been written: after every earlier prefix of the store's write
sequence every get observes the unchanged table, and the full sequence
equals store. -/
theorem htdb_slab_store_links_bucket_last [DecidableEq K] (fp : K → Nat)
    (st : htdb_slab K V) (k : K) (v : V) (junk : slab_item K V)
    (hwf : st.wfB = true) :
    (∀ st' ∈ (st.storeStates fp k v junk).dropLast,
      ∀ k', st'.get fp k' = st.get fp k') ∧
    (st.storeStates fp k v junk).getLast? = some (st.store fp k v) := by
  constructor
  · intro st' hst'
    have hmem : st' = ⟨st.buckets, st.items ++ [junk]⟩ ∨
        st' = ⟨st.buckets, st.items ++ [⟨k, junk.next, junk.value⟩]⟩ ∨
        st' = ⟨st.buckets, st.items ++ [⟨k, st.read_bucket_value fp k, junk.value⟩]⟩ ∨
        st' = ⟨st.buckets, st.items ++ [⟨k, st.read_bucket_value fp k, v⟩]⟩ := by
      simp only [htdb_slab.storeStates, List.dropLast, List.mem_cons,
        List.mem_singleton, List.not_mem_nil, or_false] at hst'
      have hs2 : (st.items ++ [junk]).set st.items.length
          ⟨k, junk.next, junk.value⟩
          = st.items ++ [(⟨k, junk.next, junk.value⟩ : slab_item K V)] := by
        rw [List.set_append_right _ _ (le_refl _)]
        simp
      have hs3 : (st.items ++ [(⟨k, junk.next, junk.value⟩ : slab_item K V)]).set
          st.items.length ⟨k, st.read_bucket_value fp k, junk.value⟩
          = st.items ++ [(⟨k, st.read_bucket_value fp k, junk.value⟩ : slab_item K V)] := by
        rw [List.set_append_right _ _ (le_refl _)]
        simp
      have hs4 : (st.items ++ [(⟨k, st.read_bucket_value fp k, junk.value⟩ : slab_item K V)]).set
          st.items.length ⟨k, st.read_bucket_value fp k, v⟩
          = st.items ++ [(⟨k, st.read_bucket_value fp k, v⟩ : slab_item K V)] := by
        rw [List.set_append_right _ _ (le_refl _)]
        simp
      rcases hst' with h | h | h | h
      · exact Or.inl h
      · rw [h, hs2]
        exact Or.inr (Or.inl rfl)
      · rw [h, hs2, hs3]
        exact Or.inr (Or.inr (Or.inl rfl))
      · rw [h, hs2, hs3, hs4]
        exact Or.inr (Or.inr (Or.inr rfl))
    have hag : ∀ (w : slab_item K V) i, i < st.items.length →
        (st.items ++ [w]).get? i = st.items.get? i := by
      intro w i hi
      rw [List.get?_eq_getElem?, List.get?_eq_getElem?,
        List.getElem?_append_left hi]
    rcases hmem with rfl | rfl | rfl | rfl <;>
      exact get_eq_of_extension fp st _ hwf (by simp) (hag _)
  · have hs2 : (st.items ++ [junk]).set st.items.length
        ⟨k, junk.next, junk.value⟩
        = st.items ++ [(⟨k, junk.next, junk.value⟩ : slab_item K V)] := by
      rw [List.set_append_right _ _ (le_refl _)]
      simp
    have hs3 : (st.items ++ [(⟨k, junk.next, junk.value⟩ : slab_item K V)]).set
        st.items.length ⟨k, st.read_bucket_value fp k, junk.value⟩
        = st.items ++ [(⟨k, st.read_bucket_value fp k, junk.value⟩ : slab_item K V)] := by
      rw [List.set_append_right _ _ (le_refl _)]
      simp
    have hs4 : (st.items ++ [(⟨k, st.read_bucket_value fp k, junk.value⟩ : slab_item K V)]).set
        st.items.length ⟨k, st.read_bucket_value fp k, v⟩
        = st.items ++ [(⟨k, st.read_bucket_value fp k, v⟩ : slab_item K V)] := by
      rw [List.set_append_right _ _ (le_refl _)]
      simp
    simp only [htdb_slab.storeStates, htdb_slab.store, List.getLast?]
    rw [hs2, hs3, hs4]
    rfl

/-- C5 witness: a concrete well-formed one-item table. -/
theorem htdb_slab_store_links_bucket_last_witness :
    (htdb_slab.mk [1] [⟨1, 0, 10⟩] : htdb_slab Nat Nat).wfB = true ∧
    ((∀ st' ∈ ((htdb_slab.mk [1] [⟨1, 0, 10⟩] : htdb_slab Nat Nat).storeStates
        (fun n => n) 2 20 ⟨0, 0, 0⟩).dropLast,
      ∀ k', st'.get (fun n => n) k'
        = (htdb_slab.mk [1] [⟨1, 0, 10⟩] : htdb_slab Nat Nat).get (fun n => n) k') ∧
    ((htdb_slab.mk [1] [⟨1, 0, 10⟩] : htdb_slab Nat Nat).storeStates
        (fun n => n) 2 20 ⟨0, 0, 0⟩).getLast?
      = some ((htdb_slab.mk [1] [⟨1, 0, 10⟩] : htdb_slab Nat Nat).store
          (fun n => n) 2 20)) :=
  ⟨by decide,
    htdb_slab_store_links_bucket_last (fun n => n)
      (htdb_slab.mk [1] [⟨1, 0, 10⟩]) 2 20 ⟨0, 0, 0⟩ (by decide)⟩

/-! ## Numeric facts about most-significant-first bit values (C2, C6) -/

theorem toNatMSB_go (l : List Bool) :
    ∀ acc : Nat,
      l.foldl (fun acc b => 2 * acc + (if b then 1 else 0)) acc
        = acc * 2 ^ l.length
          + l.foldl (fun acc b => 2 * acc + (if b then 1 else 0)) 0 := by
  induction l with
  | nil => intro acc; simp
  | cons x xs ih =>
    intro acc
    simp only [List.foldl_cons, List.length_cons]
    rw [ih (2 * acc + (if x then 1 else 0)), ih (2 * 0 + (if x then 1 else 0))]
    ring

theorem toNatMSB_cons (x : Bool) (xs : List Bool) :
    toNatMSB (x :: xs) = (if x then 1 else 0) * 2 ^ xs.length + toNatMSB xs := by
  rw [toNatMSB, List.foldl_cons, toNatMSB_go]
  simp [toNatMSB]

theorem toNatMSB_lt (l : List Bool) : toNatMSB l < 2 ^ l.length := by
  induction l with
  | nil => simp [toNatMSB]
  | cons x xs ih =>
    rw [toNatMSB_cons]
    have h2 : (2 : Nat) ^ (x :: xs).length = 2 ^ xs.length + 2 ^ xs.length := by
      simp [pow_succ]
      ring
    rw [List.length_cons] at h2 ⊢
    cases x <;> simp <;> omega

theorem toNatMSB_append (u v : List Bool) :
    toNatMSB (u ++ v) = toNatMSB u * 2 ^ v.length + toNatMSB v := by
  rw [toNatMSB, List.foldl_append, toNatMSB_go]
  rfl

theorem toNatMSB_replicate_false (n : Nat) :
    toNatMSB (List.replicate n false) = 0 := by
  induction n with
  | zero => rfl
  | succ m ih =>
    rw [List.replicate_succ, toNatMSB_cons, ih]
    simp

theorem toNatMSB_inj : ∀ (a b : List Bool), a.length = b.length →
    toNatMSB a = toNatMSB b → a = b
  | [], [], _, _ => rfl
  | [], _ :: _, h, _ => by simp at h
  | _ :: _, [], h, _ => by simp at h
  | x :: xs, y :: ys, hlen, heq => by
    have hl : xs.length = ys.length := by simpa using hlen
    rw [toNatMSB_cons, toNatMSB_cons, hl] at heq
    have hxlt := toNatMSB_lt xs
    have hylt := toNatMSB_lt ys
    rw [hl] at hxlt
    have hxy : x = y := by
      cases x <;> cases y <;> simp at heq ⊢ <;> omega
    subst hxy
    have : toNatMSB xs = toNatMSB ys := by
      cases x <;> simp at heq <;> omega
    rw [toNatMSB_inj xs ys hl this]

theorem reverse_less_than_eq_le : ∀ (a b : List Bool), a.length = b.length →
    (reverse_less_than a b = true ↔ toNatMSB a ≤ toNatMSB b)
  | [], [], _ => by simp [reverse_less_than, toNatMSB]
  | [], _ :: _, h => by simp at h
  | _ :: _, [], h => by simp at h
  | x :: xs, y :: ys, hlen => by
    have hl : xs.length = ys.length := by simpa using hlen
    have hxlt := toNatMSB_lt xs
    have hylt := toNatMSB_lt ys
    rw [toNatMSB_cons, toNatMSB_cons, hl]
    by_cases hxy : x = y
    · subst hxy
      rw [show reverse_less_than (x :: xs) (x :: ys)
            = reverse_less_than xs ys from by simp [reverse_less_than]]
      rw [reverse_less_than_eq_le xs ys hl]
      cases x <;> simp
    · rw [show reverse_less_than (x :: xs) (y :: ys) = (!x && y) from by
        simp [reverse_less_than, hxy]]
      rw [hl] at hxlt
      cases x <;> cases y <;> simp_all <;> omega

theorem reverse_less_than_total :
    ∀ (a b : List Bool), reverse_less_than a b = true ∨ reverse_less_than b a = true
  | [], b => Or.inl rfl
  | _ :: _, [] => Or.inl rfl
  | x :: xs, y :: ys => by
    by_cases hxy : x = y
    · subst hxy
      have := reverse_less_than_total xs ys
      simpa [reverse_less_than] using this
    · cases x <;> cases y <;> simp_all [reverse_less_than]

theorem toNatMSB_take_le {a b : List Bool} (hlen : a.length = b.length)
    (h : toNatMSB a ≤ toNatMSB b) (k : Nat) :
    toNatMSB (a.take k) ≤ toNatMSB (b.take k) := by
  by_cases hk : k ≤ a.length
  · have hda : a = a.take k ++ a.drop k := (List.take_append_drop k a).symm
    have hdb : b = b.take k ++ b.drop k := (List.take_append_drop k b).symm
    have hdl : (a.drop k).length = (b.drop k).length := by simp [hlen]
    rw [hda, hdb, toNatMSB_append, toNatMSB_append, hdl] at h
    by_contra hcon
    have hcon' : toNatMSB (b.take k) + 1 ≤ toNatMSB (a.take k) := by omega
    have hmul := Nat.mul_le_mul_right (2 ^ (b.drop k).length) hcon'
    rw [Nat.add_mul, Nat.one_mul] at hmul
    have hblt := toNatMSB_lt (b.drop k)
    have halt := toNatMSB_lt (a.drop k)
    rw [hdl] at halt
    omega
  · rw [List.take_of_length_le (by omega),
      List.take_of_length_le (by rw [← hlen]; omega)]
    exact h

/-! ## sort_rows agrees with the numeric key order on well-formed batches -/

theorem orderedInsert_congr {α : Type} (r r' : α → α → Prop)
    [DecidableRel r] [DecidableRel r'] (x : α) :
    ∀ m : List α, (∀ y ∈ m, r x y ↔ r' x y) →
      List.orderedInsert r x m = List.orderedInsert r' x m := by
  intro m
  induction m with
  | nil => intro _; rfl
  | cons y ys ih =>
    intro hag
    by_cases h : r x y
    · rw [List.orderedInsert, List.orderedInsert, if_pos h,
        if_pos ((hag y (List.mem_cons_self _ _)).mp h)]
    · rw [List.orderedInsert, List.orderedInsert, if_neg h,
        if_neg (fun h' => h ((hag y (List.mem_cons_self _ _)).mpr h')),
        ih (fun z hz => hag z (List.mem_cons_of_mem _ hz))]

theorem insertionSort_congr {α : Type} (r r' : α → α → Prop)
    [DecidableRel r] [DecidableRel r'] :
    ∀ l : List α, (∀ a ∈ l, ∀ b ∈ l, r a b ↔ r' a b) →
      List.insertionSort r l = List.insertionSort r' l := by
  intro l
  induction l with
  | nil => intro _; rfl
  | cons x xs ih =>
    intro hag
    rw [List.insertionSort, List.insertionSort]
    rw [ih (fun a ha b hb => hag a (List.mem_cons_of_mem _ ha)
      b (List.mem_cons_of_mem _ hb))]
    apply orderedInsert_congr
    intro y hy
    have hy' : y ∈ xs := (List.perm_insertionSort r' xs).mem_iff.mp hy
    exact hag x (List.mem_cons_self _ _) y (List.mem_cons_of_mem _ hy')

/-- On a batch of equal-length keys the source comparator coincides with
comparison of the numeric key values, so sort_rows is the insertion sort by
numeric key. -/
theorem sort_rows_eq_numeric (L : Nat) (l : List entry_row)
    (hkeys : ∀ r ∈ l, r.scan_key.length = L) :
    sort_rows l = List.insertionSort
      (fun a b => toNatMSB a.scan_key ≤ toNatMSB b.scan_key) l := by
  rw [sort_rows]
  apply insertionSort_congr
  intro a ha b hb
  exact reverse_less_than_eq_le a.scan_key b.scan_key
    (by rw [hkeys a ha, hkeys b hb])

theorem sort_rows_sorted_numeric (L : Nat) (l : List entry_row)
    (hkeys : ∀ r ∈ l, r.scan_key.length = L) :
    (sort_rows l).Pairwise
      (fun a b => toNatMSB a.scan_key ≤ toNatMSB b.scan_key) := by
  rw [sort_rows_eq_numeric L l hkeys]
  haveI : IsTotal entry_row (fun a b => toNatMSB a.scan_key ≤ toNatMSB b.scan_key) :=
    ⟨fun a b => Nat.le_total _ _⟩
  haveI : IsTrans entry_row (fun a b => toNatMSB a.scan_key ≤ toNatMSB b.scan_key) :=
    ⟨fun a b c => Nat.le_trans⟩
  exact List.sorted_insertionSort _ l

theorem mem_sort_rows {l : List entry_row} {r : entry_row} :
    r ∈ sort_rows l ↔ r ∈ l :=
  (sort_rows_perm l).mem_iff

/-! ## The bucket table written by write_buckets, on sorted rows -/

theorem bitset_resize_of_le {key : address_bitset} {b : Nat}
    (h : b ≤ key.length) : bitset_resize key b = key.take b := by
  rw [bitset_resize, Nat.sub_eq_zero_of_le h]
  simp

theorem which_bucket_eq_take {key : address_bitset} {b : Nat}
    (h : b ≤ key.length) : which_bucket key b = toNatMSB (key.take b) := by
  rw [which_bucket, to_ulong_reverse, bitset_resize_of_le h]

theorem which_bucket_pad {p : address_bitset} {b : Nat} (h : p.length ≤ b) :
    which_bucket p b = toNatMSB (p ++ List.replicate (b - p.length) false) := by
  rw [which_bucket, to_ulong_reverse, bitset_resize, List.take_of_length_le h]

theorem length_bitset_resize (key : address_bitset) (b : Nat) :
    (bitset_resize key b).length = b := by
  simp [bitset_resize, List.length_take]
  omega

theorem which_bucket_lt (key : address_bitset) (b : Nat) :
    which_bucket key b < 2 ^ b := by
  have := toNatMSB_lt (bitset_resize key b)
  rw [length_bitset_resize] at this
  exact this

theorem row_bucket_mono (s : hdb_shard_settings) {a b : entry_row}
    (hla : s.bucket_bitsize ≤ a.scan_key.length)
    (hlen : a.scan_key.length = b.scan_key.length)
    (h : toNatMSB a.scan_key ≤ toNatMSB b.scan_key) :
    row_bucket s a ≤ row_bucket s b := by
  rw [row_bucket, row_bucket, which_bucket_eq_take hla,
    which_bucket_eq_take (by rw [← hlen]; exact hla)]
  exact toNatMSB_take_le hlen h _

theorem write_buckets_go_eq (s : hdb_shard_settings) (total : Nat) :
    ∀ (rs : List entry_row) (i begin_bucket : Nat),
      rs.Pairwise (fun a b => row_bucket s a ≤ row_bucket s b) →
      (∀ r ∈ rs, row_bucket s r < s.number_buckets) →
      (∀ r ∈ rs, begin_bucket ≤ row_bucket s r + 1) →
      begin_bucket ≤ s.number_buckets →
      i + rs.length = total →
      write_buckets_go s total rs i begin_bucket
        = (List.range' begin_bucket (s.number_buckets - begin_bucket)).map
            (fun j => i + rs.countP (fun r => row_bucket s r < j)) := by
  intro rs
  induction rs with
  | nil =>
    intro i begin_bucket _ _ _ hble htot
    rw [write_buckets_go]
    symm
    rw [List.eq_replicate_iff]
    refine ⟨by simp, ?_⟩
    intro x hx
    rcases List.mem_map.mp hx with ⟨j, -, rfl⟩
    simpa using htot
  | cons r rest ih =>
    intro i begin_bucket hsort hbound hbegin hble htot
    have hpair := List.pairwise_cons.mp hsort
    have hrb : row_bucket s r < s.number_buckets :=
      hbound r (List.mem_cons_self _ _)
    have hbr : begin_bucket ≤ row_bucket s r + 1 :=
      hbegin r (List.mem_cons_self _ _)
    rw [write_buckets_go]
    rw [ih (i + 1) (row_bucket s r + 1) hpair.2
      (fun x hx => hbound x (List.mem_cons_of_mem _ hx))
      (fun x hx => by have := hpair.1 x hx; omega)
      (by omega) (by simp at htot ⊢; omega)]
    have hsplit : List.range' begin_bucket (s.number_buckets - begin_bucket)
        = List.range' begin_bucket (row_bucket s r + 1 - begin_bucket)
          ++ List.range' (row_bucket s r + 1)
            (s.number_buckets - (row_bucket s r + 1)) := by
      rw [show List.range' (row_bucket s r + 1)
            (s.number_buckets - (row_bucket s r + 1))
          = List.range' (begin_bucket + (row_bucket s r + 1 - begin_bucket))
            (s.number_buckets - (row_bucket s r + 1)) from by
        congr 1
        omega]
      rw [List.range'_append_1]
      congr 1
      omega
    rw [hsplit, List.map_append]
    congr 1
    · symm
      rw [List.eq_replicate_iff]
      refine ⟨by simp, ?_⟩
      intro x hx
      rcases List.mem_map.mp hx with ⟨j, hj, rfl⟩
      have hjlt : j < row_bucket s r + 1 := by
        have := List.mem_range'_1.mp hj
        omega
      have hz : (r :: rest).countP (fun x => decide (row_bucket s x < j)) = 0 := by
        rw [List.countP_eq_zero]
        intro x hx
        simp only [decide_eq_true_eq]
        rcases List.mem_cons.mp hx with rfl | hx
        · omega
        · have := hpair.1 x hx
          omega
      rw [hz]
      omega
    · apply List.map_congr_left
      intro j hj
      have hje : row_bucket s r + 1 ≤ j := (List.mem_range'_1.mp hj).1
      rw [List.countP_cons]
      simp only [decide_eq_true_eq]
      rw [if_pos (by omega)]
      omega

theorem write_buckets_eq_map (s : hdb_shard_settings) (rows' : List entry_row)
    (hsort : rows'.Pairwise (fun a b => row_bucket s a ≤ row_bucket s b))
    (hbound : ∀ r ∈ rows', row_bucket s r < s.number_buckets) :
    write_buckets s rows'
      = (List.range' 0 s.number_buckets).map
          (fun j => rows'.countP (fun r => row_bucket s r < j)) := by
  rw [write_buckets, write_buckets_go_eq s rows'.length rows' 0 0 hsort hbound
    (fun r _ => Nat.zero_le _) (Nat.zero_le _) (by omega)]
  simp

theorem write_buckets_length (s : hdb_shard_settings) (rows' : List entry_row)
    (hsort : rows'.Pairwise (fun a b => row_bucket s a ≤ row_bucket s b))
    (hbound : ∀ r ∈ rows', row_bucket s r < s.number_buckets) :
    (write_buckets s rows').length = s.number_buckets := by
  rw [write_buckets_eq_map s rows' hsort hbound]
  simp

theorem write_buckets_getD (s : hdb_shard_settings) (rows' : List entry_row)
    (hsort : rows'.Pairwise (fun a b => row_bucket s a ≤ row_bucket s b))
    (hbound : ∀ r ∈ rows', row_bucket s r < s.number_buckets)
    (bp : Nat) (hbp : bp < s.number_buckets) :
    (write_buckets s rows').getD bp 0
      = rows'.countP (fun r => row_bucket s r < bp) := by
  rw [write_buckets_eq_map s rows' hsort hbound]
  have h1 : (List.range' 0 s.number_buckets)[bp]? = some bp := by
    rw [List.getElem?_range']
    · simp
    · exact hbp
  simp [List.getD_eq_getElem?_getD, List.getElem?_map, h1]

/-! ## Round trip of the bit/byte block conversion -/

theorem length_bitsToBytes (l : List Bool) :
    (bitsToBytes l).length = (l.length + 7) / 8 := by
  simp [bitsToBytes]

theorem byteBits_toNatMSB {l : List Bool} (h : l.length = 8) :
    byteBits (toNatMSB l) = l := by
  match l, h with
  | [a, b, c, d, e, f, g, hh], _ =>
    revert a b c d e f g hh
    decide

theorem bitsToBytes_cons (l : List Bool) (hl : 1 ≤ l.length) :
    bitsToBytes l
      = toNatMSB (l.take 8 ++ List.replicate (8 - (l.take 8).length) false)
        :: bitsToBytes (l.drop 8) := by
  rw [bitsToBytes, bitsToBytes]
  have hsz : (l.length + 7) / 8 = ((l.drop 8).length + 7) / 8 + 1 := by
    simp only [List.length_drop]
    omega
  rw [hsz, List.range_succ_eq_map, List.map_cons, List.map_map]
  simp only [List.cons.injEq]
  refine ⟨by simp, ?_⟩
  apply List.map_congr_left
  intro i _
  simp only [Function.comp]
  rw [show 8 * (i + 1) = 8 + 8 * i from by ring]
  rw [← List.drop_drop]

theorem bytesToBits_cons (b : Nat) (bs : List Nat) :
    bytesToBits (b :: bs) = byteBits b ++ bytesToBits bs := by
  simp [bytesToBits]

theorem bytesToBits_take_bitsToBytes (m : Nat) : ∀ (l : List Bool),
    m ≤ (l.length + 7) / 8 →
    bytesToBits ((bitsToBytes l).take m)
      = l.take (8 * m) ++ List.replicate (8 * m - l.length) false := by
  induction m with
  | zero => intro l _; simp [bytesToBits]
  | succ m ih =>
    intro l hm
    have hl : 1 ≤ l.length := by
      by_contra h
      have : l.length = 0 := by omega
      rw [this] at hm
      omega
    rw [bitsToBytes_cons l hl, List.take_succ_cons, bytesToBits_cons]
    have hchunk : (l.take 8 ++ List.replicate (8 - (l.take 8).length) false).length = 8 := by
      simp [List.length_take]
    rw [byteBits_toNatMSB hchunk]
    rw [ih (l.drop 8) (by simp only [List.length_drop]; omega)]
    by_cases h8 : 8 ≤ l.length
    · have htl : (l.take 8).length = 8 := by
        simp [List.length_take]
        omega
      rw [htl]
      simp only [Nat.sub_self, List.replicate_zero, List.append_nil]
      rw [show 8 * (m + 1) = 8 + 8 * m from by ring, List.take_add]
      have hrep : 8 * m - (l.drop 8).length = 8 + 8 * m - l.length := by
        simp only [List.length_drop]
        omega
      rw [hrep, List.append_assoc]
    · have hm0 : m = 0 := by omega
      subst hm0
      have htk : l.take 8 = l := List.take_of_length_le (by omega)
      have htl : (l.take 8).length = l.length := by rw [htk]
      simp only [htl, htk, Nat.mul_zero, List.take_zero, List.nil_append,
        List.take_nil, Nat.mul_one]
      simp

theorem bytesToBits_take_key {key : List Bool} {pl : Nat} (hp : pl ≤ key.length) :
    (bytesToBits ((bitsToBytes key).take ((pl + 7) / 8))).take pl = key.take pl := by
  have hm : (pl + 7) / 8 ≤ (key.length + 7) / 8 := by omega
  rw [bytesToBits_take_bitsToBytes _ _ hm]
  have hple : pl ≤ (key.take (8 * ((pl + 7) / 8))).length := by
    simp [List.length_take]
    omega
  rw [List.take_append_of_le_length hple, List.take_take]
  congr 1
  omega

/-! ## Numeric prefix/bucket relations and the sorted scan window -/

theorem toNatMSB_take_div (l : List Bool) (n : Nat) (hn : n ≤ l.length) :
    toNatMSB (l.take n) = toNatMSB l / 2 ^ (l.length - n) := by
  have hv : toNatMSB (l.drop n) < 2 ^ (l.length - n) := by
    have := toNatMSB_lt (l.drop n)
    rwa [List.length_drop] at this
  have hsplit : toNatMSB l
      = toNatMSB (l.take n) * 2 ^ (l.length - n) + toNatMSB (l.drop n) := by
    conv_lhs => rw [← List.take_append_drop n l]
    rw [toNatMSB_append, List.length_drop]
  rw [hsplit, Nat.mul_comm, Nat.mul_add_div (Nat.two_pow_pos _),
    Nat.div_eq_of_lt hv, Nat.add_zero]

theorem key_matches_eq_div {p : address_bitset} {r : entry_row} {L : Nat}
    (hkey : r.scan_key.length = L) (hp : p.length ≤ L) :
    (key_matches p r = true)
      ↔ toNatMSB r.scan_key / 2 ^ (L - p.length) = toNatMSB p := by
  have hplen : p.length ≤ r.scan_key.length := by omega
  have htake := toNatMSB_take_div r.scan_key p.length hplen
  rw [hkey] at htake
  constructor
  · intro h
    have h' : r.scan_key.take p.length = p := by
      simpa [key_matches] using h
    rw [← htake, h']
  · intro h
    have h' : r.scan_key.take p.length = p := by
      apply toNatMSB_inj
      · rw [List.length_take]
        omega
      · rw [htake, h]
    simp [key_matches, h']

theorem row_bucket_eq_div {s : hdb_shard_settings} {r : entry_row}
    (hkey : r.scan_key.length = s.scan_bitsize)
    (hb : s.bucket_bitsize ≤ s.scan_bitsize) :
    row_bucket s r
      = toNatMSB r.scan_key / 2 ^ (s.scan_bitsize - s.bucket_bitsize) := by
  rw [row_bucket, which_bucket_eq_take (by rw [hkey]; exact hb),
    toNatMSB_take_div _ _ (by rw [hkey]; exact hb), hkey]

theorem which_bucket_prefix_val {p : address_bitset} {b : Nat}
    (hp : p.length ≤ b) :
    which_bucket p b = toNatMSB p * 2 ^ (b - p.length) := by
  rw [which_bucket_pad hp, toNatMSB_append, toNatMSB_replicate_false,
    List.length_replicate, Nat.add_zero]

theorem filter_eq_takeWhile_of_mono {α : Type} (q : α → Bool) : ∀ (l : List α),
    l.Pairwise (fun a b => q b = true → q a = true) →
    l.filter q = l.takeWhile q := by
  intro l
  induction l with
  | nil => intro _; rfl
  | cons a l ih =>
    intro h
    have h' := List.pairwise_cons.mp h
    cases hqa : q a with
    | true =>
      rw [List.filter_cons_of_pos hqa, List.takeWhile_cons_of_pos hqa, ih h'.2]
    | false =>
      rw [List.filter_cons_of_neg (by simp [hqa]),
        List.takeWhile_cons_of_neg (by simp [hqa])]
      rw [List.filter_eq_nil]
      intro x hx hqx
      have := h'.1 x hx hqx
      rw [hqa] at this
      exact Bool.noConfusion this

theorem countP_eq_takeWhile_length {α : Type} (q : α → Bool) (l : List α)
    (h : l.Pairwise (fun a b => q b = true → q a = true)) :
    l.countP q = (l.takeWhile q).length := by
  rw [List.countP_eq_length_filter, filter_eq_takeWhile_of_mono q l h]

theorem drop_countP_eq_dropWhile {α : Type} (q : α → Bool) (l : List α)
    (h : l.Pairwise (fun a b => q b = true → q a = true)) :
    l.drop (l.countP q) = l.dropWhile q := by
  rw [countP_eq_takeWhile_length q l h]
  nth_rewrite 2 [← List.takeWhile_append_dropWhile q l]
  rw [List.drop_left]

theorem mem_dropWhile_not {α : Type} (q : α → Bool) : ∀ (l : List α),
    l.Pairwise (fun a b => q b = true → q a = true) →
    ∀ x ∈ l.dropWhile q, q x = false := by
  intro l
  induction l with
  | nil => intro _ x hx; simp [List.dropWhile] at hx
  | cons a l ih =>
    intro h x hx
    have h' := List.pairwise_cons.mp h
    cases hqa : q a with
    | true =>
      rw [List.dropWhile_cons_of_pos hqa] at hx
      exact ih h'.2 x hx
    | false =>
      rw [List.dropWhile_cons_of_neg (by simp [hqa])] at hx
      rcases List.mem_cons.mp hx with rfl | hx
      · exact hqa
      · cases hqx : q x with
        | false => rfl
        | true => exact absurd (h'.1 x hx hqx) (by simp [hqa])

theorem sorted_window_filter (s : hdb_shard_settings) (p : address_bitset)
    (rows' : List entry_row)
    (hb : s.bucket_bitsize ≤ s.scan_bitsize)
    (hp : p.length ≤ s.bucket_bitsize)
    (hkeys : ∀ r ∈ rows', r.scan_key.length = s.scan_bitsize)
    (hsorted : rows'.Pairwise
      (fun a b => toNatMSB a.scan_key ≤ toNatMSB b.scan_key)) :
    (rows'.drop (rows'.countP
        (fun r => decide (row_bucket s r < which_bucket p s.bucket_bitsize)))).takeWhile
        (key_matches p)
      = rows'.filter (key_matches p) := by
  have hple : p.length ≤ s.scan_bitsize := le_trans hp hb
  have hbuck : rows'.Pairwise (fun a b => row_bucket s a ≤ row_bucket s b) := by
    rw [List.pairwise_iff_getElem] at hsorted ⊢
    intro i j hi hj hij
    exact row_bucket_mono s
      (by rw [hkeys _ (List.getElem_mem hi)]; exact hb)
      (by rw [hkeys _ (List.getElem_mem hi), hkeys _ (List.getElem_mem hj)])
      (hsorted i j hi hj hij)
  have hq_mono : rows'.Pairwise (fun a b =>
      decide (row_bucket s b < which_bucket p s.bucket_bitsize) = true →
      decide (row_bucket s a < which_bucket p s.bucket_bitsize) = true) := by
    apply hbuck.imp
    intro a b hab
    simp only [decide_eq_true_eq]
    omega
  have hmatch_ge : ∀ r ∈ rows', key_matches p r = true →
      ¬ (row_bucket s r < which_bucket p s.bucket_bitsize) := by
    intro r hr hm hlt
    have hkey := hkeys r hr
    have hdiv := (key_matches_eq_div hkey hple).mp hm
    rw [row_bucket_eq_div hkey hb, which_bucket_prefix_val hp] at hlt
    have h1 : toNatMSB r.scan_key / 2 ^ (s.scan_bitsize - s.bucket_bitsize)
        / 2 ^ (s.bucket_bitsize - p.length) = toNatMSB p := by
      rw [Nat.div_div_eq_div_mul, ← pow_add,
        show s.scan_bitsize - s.bucket_bitsize + (s.bucket_bitsize - p.length)
          = s.scan_bitsize - p.length from by omega]
      exact hdiv
    have h2 : toNatMSB r.scan_key / 2 ^ (s.scan_bitsize - s.bucket_bitsize)
        / 2 ^ (s.bucket_bitsize - p.length) < toNatMSB p :=
      (Nat.div_lt_iff_lt_mul (Nat.two_pow_pos _)).mpr hlt
    omega
  rw [drop_countP_eq_dropWhile _ _ hq_mono]
  conv_rhs => rw [← List.takeWhile_append_dropWhile
    (fun r => decide (row_bucket s r < which_bucket p s.bucket_bitsize)) rows']
  rw [List.filter_append]
  have hfilter_pre : (rows'.takeWhile
      (fun r => decide (row_bucket s r < which_bucket p s.bucket_bitsize))).filter
      (key_matches p) = [] := by
    rw [List.filter_eq_nil]
    intro r hr hm
    have hq := List.mem_takeWhile_imp hr
    have hrmem : r ∈ rows' := (List.takeWhile_sublist _).subset hr
    exact hmatch_ge r hrmem hm (by simpa using hq)
  rw [hfilter_pre, List.nil_append]
  symm
  apply filter_eq_takeWhile_of_mono
  set d := rows'.dropWhile
    (fun r => decide (row_bucket s r < which_bucket p s.bucket_bitsize)) with hdd
  have hd_suffix : d <:+ rows' := by
    rw [hdd]
    exact List.dropWhile_suffix _
  have hdpair := hsorted.sublist hd_suffix.sublist
  have hdnot : ∀ x ∈ d,
      decide (row_bucket s x < which_bucket p s.bucket_bitsize) = false := by
    rw [hdd]
    exact mem_dropWhile_not _ rows' hq_mono
  rw [List.pairwise_iff_getElem] at hdpair ⊢
  intro i j hi hj hij hmb
  have hai := List.getElem_mem hi
  have haj := List.getElem_mem hj
  have himem : d[i] ∈ rows' := hd_suffix.sublist.subset hai
  have hjmem : d[j] ∈ rows' := hd_suffix.sublist.subset haj
  have hkeyi := hkeys _ himem
  have hkeyj := hkeys _ hjmem
  rw [key_matches_eq_div hkeyi hple]
  have hdivj := (key_matches_eq_div hkeyj hple).mp hmb
  have hle1 := Nat.div_le_div_right (c := 2 ^ (s.scan_bitsize - p.length))
    (hdpair i j hi hj hij)
  have hbge : which_bucket p s.bucket_bitsize ≤ row_bucket s d[i] := by
    have h := hdnot _ hai
    simp only [decide_eq_false_iff_not, Nat.not_lt] at h
    exact h
  rw [row_bucket_eq_div hkeyi hb, which_bucket_prefix_val hp] at hbge
  have hge1 := (Nat.le_div_iff_mul_le (Nat.two_pow_pos
    (s.bucket_bitsize - p.length))).mpr hbge
  rw [Nat.div_div_eq_div_mul, ← pow_add,
    show s.scan_bitsize - s.bucket_bitsize + (s.bucket_bitsize - p.length)
      = s.scan_bitsize - p.length from by omega] at hge1
  omega

/-! ## The inner row loop of scan over a serialized row region -/

theorem scan_size_pos (s : hdb_shard_settings) : 1 ≤ s.scan_size := by
  rw [hdb_shard_settings.scan_size]
  omega

theorem row_size_pos (s : hdb_shard_settings) : 1 ≤ s.row_size := by
  rw [hdb_shard_settings.row_size]
  have := scan_size_pos s
  omega

theorem length_row_bytes (s : hdb_shard_settings) (r : entry_row)
    (hs1 : 1 ≤ s.scan_bitsize)
    (hkey : r.scan_key.length = s.scan_bitsize)
    (hval : r.value.length = s.row_value_size) :
    (row_bytes r).length = s.row_size := by
  rw [row_bytes, List.length_append, length_bitsToBytes, hkey, hval,
    hdb_shard_settings.row_size, hdb_shard_settings.scan_size]
  omega

theorem stealth_match_row (s : hdb_shard_settings) (p : address_bitset)
    (F0 rest : List Nat) (r : entry_row)
    (hs1 : 1 ≤ s.scan_bitsize)
    (hkey : r.scan_key.length = s.scan_bitsize)
    (hp : p.length ≤ s.scan_bitsize) :
    stealth_match p (F0 ++ row_bytes r ++ rest) F0.length = key_matches p r := by
  rw [stealth_match, key_matches]
  have hmle : (p.length + 7) / 8 ≤ (bitsToBytes r.scan_key).length := by
    rw [length_bitsToBytes, hkey]
    omega
  have hslice : slice (F0 ++ row_bytes r ++ rest) F0.length ((p.length + 7) / 8)
      = (bitsToBytes r.scan_key).take ((p.length + 7) / 8) := by
    rw [List.append_assoc, slice_append_zero, row_bytes, List.append_assoc]
    exact slice_zero_of_prefix _ _ _ hmle
  rw [hslice, bytesToBits_take_key (by omega)]

theorem value_slice_row (s : hdb_shard_settings) (F0 rest : List Nat)
    (r : entry_row)
    (hs1 : 1 ≤ s.scan_bitsize)
    (hkey : r.scan_key.length = s.scan_bitsize)
    (hval : r.value.length = s.row_value_size) :
    slice (F0 ++ row_bytes r ++ rest) (F0.length + s.scan_size)
      s.row_value_size = r.value := by
  have hbl : (bitsToBytes r.scan_key).length = s.scan_size := by
    rw [length_bitsToBytes, hkey, hdb_shard_settings.scan_size]
    omega
  rw [row_bytes, List.append_assoc, List.append_assoc,
    show F0.length + s.scan_size = (F0 ++ bitsToBytes r.scan_key).length from by
      simp [hbl],
    ← List.append_assoc]
  rw [slice_append_zero, slice_zero_of_prefix _ _ _ (le_of_eq hval.symm),
    List.take_of_length_le (le_of_eq hval)]

theorem scan_rows_loop_spec (s : hdb_shard_settings) (p : address_bitset)
    (hp : p.length ≤ s.scan_bitsize) (hs1 : 1 ≤ s.scan_bitsize) :
    ∀ (rows : List entry_row) (F0 rest : List Nat) (fuel : Nat),
      (∀ r ∈ rows, r.scan_key.length = s.scan_bitsize) →
      (∀ r ∈ rows, r.value.length = s.row_value_size) →
      rows.length < fuel →
      scan_rows_loop s (F0 ++ rows.flatMap row_bytes ++ rest) p
          (F0.length + s.row_size * rows.length) F0.length fuel
        = some ((rows.takeWhile (key_matches p)).map (fun r => r.value)) := by
  intro rows
  induction rows with
  | nil =>
    intro F0 rest fuel _ _ hfuel
    obtain ⟨fuel, rfl⟩ : ∃ f, fuel = f + 1 := ⟨fuel - 1, by omega⟩
    simp [scan_rows_loop]
  | cons r rs ih =>
    intro F0 rest fuel hkeys hvals hfuel
    obtain ⟨fuel, rfl⟩ : ∃ f, fuel = f + 1 := ⟨fuel - 1, by omega⟩
    have hkey := hkeys r (List.mem_cons_self _ _)
    have hval := hvals r (List.mem_cons_self _ _)
    have hrowlen := length_row_bytes s r hs1 hkey hval
    have hne : F0.length ≠ F0.length + s.row_size * (r :: rs).length := by
      have := row_size_pos s
      simp only [List.length_cons]
      have : 1 ≤ s.row_size * (rs.length + 1) := by
        calc 1 ≤ s.row_size := row_size_pos s
        _ ≤ s.row_size * (rs.length + 1) := Nat.le_mul_of_pos_right _ (by omega)
      omega
    have hfe : F0 ++ (r :: rs).flatMap row_bytes ++ rest
        = F0 ++ row_bytes r ++ (rs.flatMap row_bytes ++ rest) := by
      rw [List.flatMap_cons]
      simp [List.append_assoc]
    rw [scan_rows_loop, if_neg hne]
    rw [show F0 ++ (r :: rs).flatMap row_bytes ++ rest
        = (F0 ++ row_bytes r) ++ rs.flatMap row_bytes ++ rest from by
      rw [hfe]
      simp [List.append_assoc]]
    have hsm := stealth_match_row s p F0 (rs.flatMap row_bytes ++ rest) r
      hs1 hkey hp
    rw [← List.append_assoc] at hsm
    rw [hsm]
    cases hm : key_matches p r with
    | false =>
      simp only [Bool.false_eq_true, if_false]
      rw [List.takeWhile_cons_of_neg (by simp [hm])]
      simp
    | true =>
      simp only [if_true]
      have hcur : F0.length + s.row_size = (F0 ++ row_bytes r).length := by
        simp [hrowlen]
      have hend : F0.length + s.row_size * (r :: rs).length
          = (F0 ++ row_bytes r).length + s.row_size * rs.length := by
        simp only [List.length_cons, List.length_append, hrowlen]
        ring
      rw [hcur, hend]
      rw [ih (F0 ++ row_bytes r) rest (fuel)
        (fun x hx => hkeys x (List.mem_cons_of_mem _ hx))
        (fun x hx => hvals x (List.mem_cons_of_mem _ hx))
        (by simp at hfuel ⊢; omega)]
      have hvs := value_slice_row s F0 (rs.flatMap row_bytes ++ rest) r
        hs1 hkey hval
      rw [← List.append_assoc] at hvs
      rw [hvs, List.takeWhile_cons_of_pos (by simp [hm])]
      simp

/-! ## One serialized entry as read back by scan -/

theorem row_bucket_lt (s : hdb_shard_settings) (r : entry_row) :
    row_bucket s r < s.number_buckets := by
  rw [hdb_shard_settings.number_buckets]
  exact which_bucket_lt _ _

theorem sort_rows_bucket_sorted (s : hdb_shard_settings) (B : List entry_row)
    (hb : s.bucket_bitsize ≤ s.scan_bitsize)
    (hkeys : ∀ r ∈ B, r.scan_key.length = s.scan_bitsize) :
    (sort_rows B).Pairwise (fun a b => row_bucket s a ≤ row_bucket s b) := by
  have hkeys' : ∀ r ∈ sort_rows B, r.scan_key.length = s.scan_bitsize :=
    fun r hr => hkeys r (mem_sort_rows.mp hr)
  have hs := sort_rows_sorted_numeric s.scan_bitsize B hkeys
  rw [List.pairwise_iff_getElem] at hs ⊢
  intro i j hi hj hij
  exact row_bucket_mono s
    (by rw [hkeys' _ (List.getElem_mem hi)]; exact hb)
    (by rw [hkeys' _ (List.getElem_mem hi), hkeys' _ (List.getElem_mem hj)])
    (hs i j hi hj hij)

theorem length_flatMap_leBytes2 (l : List Nat) :
    (l.flatMap (leBytes 2)).length = 2 * l.length := by
  induction l with
  | nil => rfl
  | cons x l ih =>
    rw [List.flatMap_cons, List.length_append, length_leBytes, ih,
      List.length_cons]
    ring

theorem length_flatMap_row_bytes (s : hdb_shard_settings)
    (l : List entry_row) (hs1 : 1 ≤ s.scan_bitsize)
    (hkeys : ∀ r ∈ l, r.scan_key.length = s.scan_bitsize)
    (hvals : ∀ r ∈ l, r.value.length = s.row_value_size) :
    (l.flatMap row_bytes).length = s.row_size * l.length := by
  induction l with
  | nil => rfl
  | cons x l ih =>
    rw [List.flatMap_cons, List.length_append,
      length_row_bytes s x hs1 (hkeys x (List.mem_cons_self _ _))
        (hvals x (List.mem_cons_self _ _)),
      ih (fun r hr => hkeys r (List.mem_cons_of_mem _ hr))
        (fun r hr => hvals r (List.mem_cons_of_mem _ hr)),
      List.length_cons]
    ring

theorem entry_readLE_count (s : hdb_shard_settings) (B : List entry_row)
    (F0 rest : List Nat) (hn : B.length < 65536) :
    readLE (F0 ++ entry_blob s B ++ rest) F0.length 2 = B.length := by
  rw [List.append_assoc, readLE_append_zero, entry_blob, entry_bytes,
    List.append_assoc, List.append_assoc, readLE_leBytes_here,
    sort_rows_length]
  omega

theorem entry_row_index (s : hdb_shard_settings) (B : List entry_row)
    (F0 rest : List Nat)
    (hok : settings_ok s)
    (hkeys : ∀ r ∈ B, r.scan_key.length = s.scan_bitsize)
    (hn : B.length < 65536)
    (bp : Nat) (hbp : bp < s.number_buckets) :
    read_row_index (F0 ++ entry_blob s B ++ rest) bp F0.length
      = (sort_rows B).countP (fun r => decide (row_bucket s r < bp)) := by
  have hsortb := sort_rows_bucket_sorted s B hok.2 hkeys
  have hbound : ∀ r ∈ sort_rows B, row_bucket s r < s.number_buckets :=
    fun r _ => row_bucket_lt s r
  rw [read_row_index]
  rw [show F0.length + 2 + 2 * bp = F0.length + (2 + 2 * bp) from by omega,
    List.append_assoc, readLE_append_offset, entry_blob, entry_bytes]
  rw [show (2 : Nat) + 2 * bp = (leBytes 2 (sort_rows B).length).length + 2 * bp
      from by rw [length_leBytes],
    List.append_assoc, List.append_assoc, readLE_append_offset]
  rw [readLE_flatMap_leBytes2 _ bp _
    (by rw [write_buckets_length s _ hsortb hbound]; exact hbp)]
  rw [write_buckets_getD s _ hsortb hbound bp hbp]
  have hle : ((sort_rows B).countP (fun r => decide (row_bucket s r < bp)))
      ≤ B.length := by
    calc ((sort_rows B).countP _) ≤ (sort_rows B).length :=
        List.countP_le_length _
    _ = B.length := sort_rows_length B
  omega

theorem scan_entry_rows (s : hdb_shard_settings) (p : address_bitset)
    (B : List entry_row) (F0 rest : List Nat)
    (hok : settings_ok s) (hgood : good_batch s B)
    (hp : p.length ≤ s.scan_bitsize)
    (fuel : Nat) (hfuel : B.length < fuel) :
    scan_rows_loop s (F0 ++ entry_blob s B ++ rest) p
        (F0.length + entry_size_of s B)
        (F0.length + 2 + 2 * s.number_buckets
          + s.row_size * read_row_index (F0 ++ entry_blob s B ++ rest)
              (which_bucket p s.bucket_bitsize) F0.length)
        fuel
      = some (ref_entry_scan s p B) := by
  obtain ⟨hkB, hvB, hnB⟩ := hgood
  obtain ⟨hs1, hb⟩ := hok
  have hkeys' : ∀ r ∈ sort_rows B, r.scan_key.length = s.scan_bitsize :=
    fun r hr => hkB r (mem_sort_rows.mp hr)
  have hvals' : ∀ r ∈ sort_rows B, r.value.length = s.row_value_size :=
    fun r hr => hvB r (mem_sort_rows.mp hr)
  have hsortb := sort_rows_bucket_sorted s B hb hkB
  have hbound : ∀ r ∈ sort_rows B, row_bucket s r < s.number_buckets :=
    fun r _ => row_bucket_lt s r
  have hbp : which_bucket p s.bucket_bitsize < s.number_buckets := by
    rw [hdb_shard_settings.number_buckets]
    exact which_bucket_lt _ _
  rw [entry_row_index s B F0 rest ⟨hs1, hb⟩ hkB hnB _ hbp]
  set ri := (sort_rows B).countP
    (fun r => decide (row_bucket s r < which_bucket p s.bucket_bitsize))
    with hridef
  have hrile : ri ≤ (sort_rows B).length := List.countP_le_length _
  have hsplitrows : (sort_rows B).flatMap row_bytes
      = ((sort_rows B).take ri).flatMap row_bytes
        ++ ((sort_rows B).drop ri).flatMap row_bytes := by
    rw [← List.flatMap_append, List.take_append_drop]
  have hsplit : F0 ++ entry_blob s B ++ rest
      = ((F0 ++ leBytes 2 (sort_rows B).length)
          ++ (write_buckets s (sort_rows B)).flatMap (leBytes 2)
          ++ ((sort_rows B).take ri).flatMap row_bytes)
        ++ ((sort_rows B).drop ri).flatMap row_bytes ++ rest := by
    rw [entry_blob, entry_bytes, hsplitrows]
    simp [List.append_assoc]
  have hlentake : (((sort_rows B).take ri).flatMap row_bytes).length
      = s.row_size * ri := by
    rw [length_flatMap_row_bytes s _ hs1
      (fun r hr => hkeys' r (List.mem_of_mem_take hr))
      (fun r hr => hvals' r (List.mem_of_mem_take hr))]
    congr 1
    rw [List.length_take]
    omega
  have hF0len : ((F0 ++ leBytes 2 (sort_rows B).length)
      ++ (write_buckets s (sort_rows B)).flatMap (leBytes 2)
      ++ ((sort_rows B).take ri).flatMap row_bytes).length
      = F0.length + 2 + 2 * s.number_buckets + s.row_size * ri := by
    simp only [List.length_append, length_leBytes, length_flatMap_leBytes2,
      hlentake, write_buckets_length s _ hsortb hbound]
  have hcur : F0.length + 2 + 2 * s.number_buckets + s.row_size * ri
      = ((F0 ++ leBytes 2 (sort_rows B).length)
        ++ (write_buckets s (sort_rows B)).flatMap (leBytes 2)
        ++ ((sort_rows B).take ri).flatMap row_bytes).length := hF0len.symm
  have hend : F0.length + entry_size_of s B
      = ((F0 ++ leBytes 2 (sort_rows B).length)
        ++ (write_buckets s (sort_rows B)).flatMap (leBytes 2)
        ++ ((sort_rows B).take ri).flatMap row_bytes).length
        + s.row_size * ((sort_rows B).drop ri).length := by
    have hmul : s.row_size * ri + s.row_size * ((sort_rows B).length - ri)
        = s.row_size * B.length := by
      rw [← Nat.mul_add,
        show ri + ((sort_rows B).length - ri) = (sort_rows B).length from by
          omega,
        sort_rows_length]
    rw [hF0len, entry_size_of, hdb_shard_settings.entry_header_size,
      List.length_drop]
    linarith [hmul]
  rw [hcur, hend, hsplit]
  rw [scan_rows_loop_spec s p hp hs1 ((sort_rows B).drop ri) _ rest fuel
    (fun r hr => hkeys' r (List.mem_of_mem_drop hr))
    (fun r hr => hvals' r (List.mem_of_mem_drop hr))
    (by rw [List.length_drop]; have := sort_rows_length B; omega)]
  have hgetd : (write_buckets s (sort_rows B)).getD
      (which_bucket p s.bucket_bitsize) 0 = ri :=
    write_buckets_getD s _ hsortb hbound _ hbp
  rw [ref_entry_scan]
  simp only [hgetd]

/-! ## The outer entry walk of scan over consecutive serialized entries -/

theorem length_entry_blob (s : hdb_shard_settings) (B : List entry_row)
    (hok : settings_ok s)
    (hkeys : ∀ r ∈ B, r.scan_key.length = s.scan_bitsize)
    (hvals : ∀ r ∈ B, r.value.length = s.row_value_size) :
    (entry_blob s B).length = entry_size_of s B := by
  have hsortb := sort_rows_bucket_sorted s B hok.2 hkeys
  have hbound : ∀ r ∈ sort_rows B, row_bucket s r < s.number_buckets :=
    fun r _ => row_bucket_lt s r
  rw [entry_blob, entry_bytes]
  simp only [List.length_append, length_leBytes, length_flatMap_leBytes2,
    write_buckets_length s _ hsortb hbound,
    length_flatMap_row_bytes s _ hok.1
      (fun r hr => hkeys r (mem_sort_rows.mp hr))
      (fun r hr => hvals r (mem_sort_rows.mp hr)),
    sort_rows_length]
  rw [entry_size_of, hdb_shard_settings.entry_header_size]
  try ring

theorem entry_size_ge_two (s : hdb_shard_settings) (B : List entry_row) :
    2 ≤ entry_size_of s B := by
  rw [entry_size_of, hdb_shard_settings.entry_header_size]
  omega

theorem scan_loop_spec (s : hdb_shard_settings) (p : address_bitset)
    (hok : settings_ok s) (hp : p.length ≤ s.scan_bitsize) :
    ∀ (batches : List (List entry_row)) (F0 rest : List Nat) (fuel : Nat),
      (∀ B ∈ batches, good_batch s B) →
      batches.length < fuel →
      scan_loop s (F0 ++ batches.flatMap (entry_blob s) ++ rest) p
          (which_bucket p s.bucket_bitsize)
          (F0.length + ((batches.map (entry_size_of s)).sum))
          F0.length fuel
        = some (batches.flatMap (ref_entry_scan s p)) := by
  intro batches
  induction batches with
  | nil =>
    intro F0 rest fuel _ hfuel
    obtain ⟨fuel, rfl⟩ : ∃ f, fuel = f + 1 := ⟨fuel - 1, by omega⟩
    simp [scan_loop]
  | cons B bs ih =>
    intro F0 rest fuel hall hfuel
    obtain ⟨fuel, rfl⟩ : ∃ f, fuel = f + 1 := ⟨fuel - 1, by omega⟩
    have hgB := hall B (List.mem_cons_self _ _)
    have hsum : ((B :: bs).map (entry_size_of s)).sum
        = entry_size_of s B + (bs.map (entry_size_of s)).sum := by
      rw [List.map_cons, List.sum_cons]
    have hne : F0.length ≠ F0.length + ((B :: bs).map (entry_size_of s)).sum := by
      have := entry_size_ge_two s B
      rw [hsum]
      omega
    rw [scan_loop, if_neg hne]
    have hfeq : F0 ++ (B :: bs).flatMap (entry_blob s) ++ rest
        = F0 ++ entry_blob s B ++ (bs.flatMap (entry_blob s) ++ rest) := by
      rw [List.flatMap_cons]
      simp [List.append_assoc]
    rw [hfeq]
    rw [entry_readLE_count s B F0 (bs.flatMap (entry_blob s) ++ rest) hgB.2.2]
    rw [show s.entry_header_size + s.row_size * B.length
        = entry_size_of s B from by rw [entry_size_of]]
    have hfuel_rows : B.length < entry_size_of s B + 1 := by
      have h1 : B.length ≤ s.row_size * B.length :=
        Nat.le_mul_of_pos_left _ (row_size_pos s)
      have h2 : entry_size_of s B
          = s.entry_header_size + s.row_size * B.length := by
        rw [entry_size_of]
      have h3 : 2 ≤ s.entry_header_size := by
        rw [hdb_shard_settings.entry_header_size]
        omega
      omega
    dsimp only
    rw [scan_entry_rows s p B F0 (bs.flatMap (entry_blob s) ++ rest) hok hgB hp
      (entry_size_of s B + 1) hfuel_rows]
    have hblen := length_entry_blob s B hok hgB.1 hgB.2.1
    have hnext : F0.length + entry_size_of s B
        = (F0 ++ entry_blob s B).length := by
      rw [List.length_append, hblen]
    have hee : F0.length + ((B :: bs).map (entry_size_of s)).sum
        = (F0 ++ entry_blob s B).length + (bs.map (entry_size_of s)).sum := by
      rw [hsum, List.length_append, hblen]
      omega
    rw [hnext, hee]
    rw [show F0 ++ entry_blob s B ++ (bs.flatMap (entry_blob s) ++ rest)
        = (F0 ++ entry_blob s B) ++ bs.flatMap (entry_blob s) ++ rest from by
      simp [List.append_assoc]]
    rw [ih (F0 ++ entry_blob s B) rest fuel
      (fun x hx => hall x (List.mem_cons_of_mem _ hx))
      (by simp at hfuel ⊢; omega)]
    rw [List.flatMap_cons]
    rfl

/-! ## Fixed-width little-endian arrays: length, element reads and slices -/

theorem length_flatMap_leBytes (w : Nat) (l : List Nat) :
    (l.flatMap (leBytes w)).length = w * l.length := by
  induction l with
  | nil => simp
  | cons x l ih =>
    rw [List.flatMap_cons, List.length_append, length_leBytes, ih,
      List.length_cons]
    ring

theorem readLE_flatMap_leBytes8 (l : List Nat) (j : Nat) (rest : List Nat)
    (hj : j < l.length) :
    readLE (l.flatMap (leBytes 8) ++ rest) (8 * j) 8 = l.getD j 0 % 256 ^ 8 := by
  induction l generalizing j rest with
  | nil => simp at hj
  | cons x l ih =>
    cases j with
    | zero =>
      simp only [Nat.mul_zero, List.flatMap_cons, List.append_assoc]
      have := readLE_leBytes_here 8 x (l.flatMap (leBytes 8) ++ rest)
      simpa using this
    | succ j =>
      have harith : 8 * (j + 1) = (leBytes 8 x).length + 8 * j := by
        rw [length_leBytes]
        omega
      simp only [List.flatMap_cons, List.append_assoc, harith]
      rw [readLE_append_offset]
      simpa using ih j rest (by simpa using hj)

theorem flatMap_leBytes_take (w : Nat) : ∀ (l : List Nat) (j : Nat),
    j ≤ l.length →
    (l.flatMap (leBytes w)).take (w * j) = (l.take j).flatMap (leBytes w) := by
  intro l
  induction l with
  | nil => intro j hj; simp at hj; simp [hj]
  | cons x l ih =>
    intro j hj
    cases j with
    | zero => simp
    | succ j =>
      rw [List.flatMap_cons, show w * (j + 1) = w + w * j from by ring,
        List.take_add, List.take_succ_cons, List.flatMap_cons]
      congr 1
      · rw [List.take_append_of_le_length (by rw [length_leBytes]),
          List.take_of_length_le (by rw [length_leBytes])]
      · have hd : (leBytes w x ++ l.flatMap (leBytes w)).drop w
            = l.flatMap (leBytes w) := by
          have h := List.drop_left (leBytes w x) (l.flatMap (leBytes w))
          rwa [length_leBytes] at h
        rw [hd]
        exact ih j (by simpa using hj)

theorem flatMap_leBytes_drop (w : Nat) : ∀ (l : List Nat) (j : Nat),
    j ≤ l.length →
    (l.flatMap (leBytes w)).drop (w * j) = (l.drop j).flatMap (leBytes w) := by
  intro l
  induction l with
  | nil => intro j hj; simp at hj; simp [hj]
  | cons x l ih =>
    intro j hj
    cases j with
    | zero => simp
    | succ j =>
      rw [List.flatMap_cons, show w * (j + 1) = (leBytes w x).length + w * j
          from by rw [length_leBytes]; ring,
        drop_append_offset, List.drop_succ_cons]
      exact ih j (by simpa using hj)

/-! ## Layout of the shard file across one sync call -/

theorem sync_layout_step (s : hdb_shard_settings) (st : hdb_shard)
    (B : List entry_row) (k : Nat) (H E Z : List Nat)
    (hok : settings_ok s) (hgood : good_batch s B)
    (hH : H.length = 8 * s.shard_max_entries)
    (hk : k < s.shard_max_entries)
    (hfile : st.file.data = leBytes 8 st.entries_end ++ H ++ E ++ Z)
    (hee : st.entries_end = 8 + H.length + E.length) :
    ∃ Z' : List Nat,
      (st.sync s B k).file.data
        = leBytes 8 (st.entries_end + entry_size_of s B)
          ++ (H.take (8 * k) ++ leBytes 8 st.entries_end ++ H.drop (8 * k + 8))
          ++ (E ++ entry_blob s B) ++ Z'
      ∧ (st.sync s B k).entries_end = st.entries_end + entry_size_of s B := by
  have hblen : (entry_blob s B).length = entry_size_of s B :=
    length_entry_blob s B hok hgood.1 hgood.2.1
  have hLlen : (leBytes 8 st.entries_end ++ H ++ E).length = st.entries_end := by
    simp only [List.length_append, length_leBytes]
    omega
  have hfl : st.entries_end ≤ st.file.data.length := by
    rw [hfile]
    simp only [List.length_append, length_leBytes]
    omega
  have hf'len : st.entries_end + entry_size_of s B
      ≤ (st.reserve s (entry_size_of s B)).data.length :=
    reserve_size_ge_required s st (entry_size_of s B)
  have hf'take : ((st.reserve s (entry_size_of s B)).data).take st.entries_end
      = leBytes 8 st.entries_end ++ H ++ E := by
    have h := List.take_left (leBytes 8 st.entries_end ++ H ++ E) Z
    rw [hLlen] at h
    rw [reserve_take_of_le s st _ _ (le_refl _) hfl, hfile]
    exact h
  have hsplit1 : (st.reserve s (entry_size_of s B)).data
      = (leBytes 8 st.entries_end ++ H ++ E)
        ++ ((st.reserve s (entry_size_of s B)).data).drop st.entries_end := by
    conv_lhs => rw [← List.take_append_drop st.entries_end
      (st.reserve s (entry_size_of s B)).data]
    rw [hf'take]
  have hops : st.syncOps s B k
      = (writeByteOps st.entries_end (entry_blob s B)
          ++ writeByteOps (8 + 8 * k) (leBytes 8 st.entries_end))
        ++ writeByteOps 0 (leBytes 8 (st.entries_end + entry_size_of s B)) := by
    rw [hdb_shard.syncOps, ← entry_blob, List.append_assoc]
  have hdata : (st.sync s B k).file.data
      = applyOps ((st.reserve s (entry_size_of s B)).data)
          (st.syncOps s B k) := rfl
  set D := ((st.reserve s (entry_size_of s B)).data).drop
    (st.entries_end + entry_size_of s B) with hD
  have hstep1 : applyOps ((st.reserve s (entry_size_of s B)).data)
      (writeByteOps st.entries_end (entry_blob s B))
      = leBytes 8 st.entries_end ++ (H ++ (E ++ (entry_blob s B ++ D))) := by
    rw [applyOps_writeByteOps _ _ _ (by rw [hblen]; exact hf'len),
      hf'take, hblen, hD]
    simp [List.append_assoc]
  have hlen1 : (leBytes 8 st.entries_end
      ++ (H ++ (E ++ (entry_blob s B ++ D)))).length
      = st.entries_end + entry_size_of s B + D.length := by
    simp only [List.length_append, length_leBytes, hblen]
    omega
  have hb2 : 8 + 8 * k + 8 ≤ st.entries_end := by
    rw [hee, hH]
    omega
  have e_take : (leBytes 8 st.entries_end
      ++ (H ++ (E ++ (entry_blob s B ++ D)))).take (8 + 8 * k)
      = leBytes 8 st.entries_end ++ H.take (8 * k) := by
    have t1 : (leBytes 8 st.entries_end
        ++ (H ++ (E ++ (entry_blob s B ++ D)))).take 8
        = leBytes 8 st.entries_end := by
      have h := List.take_left (leBytes 8 st.entries_end)
        (H ++ (E ++ (entry_blob s B ++ D)))
      rwa [length_leBytes] at h
    have t2 : (leBytes 8 st.entries_end
        ++ (H ++ (E ++ (entry_blob s B ++ D)))).drop 8
        = H ++ (E ++ (entry_blob s B ++ D)) := by
      have h := List.drop_left (leBytes 8 st.entries_end)
        (H ++ (E ++ (entry_blob s B ++ D)))
      rwa [length_leBytes] at h
    rw [List.take_add, t1, t2,
      List.take_append_of_le_length (by rw [hH]; omega)]
  have e_drop : (leBytes 8 st.entries_end
      ++ (H ++ (E ++ (entry_blob s B ++ D)))).drop (8 + 8 * k + 8)
      = H.drop (8 * k + 8) ++ (E ++ (entry_blob s B ++ D)) := by
    rw [show 8 + 8 * k + 8 = (leBytes 8 st.entries_end).length + (8 * k + 8)
        from by rw [length_leBytes]; ring,
      drop_append_offset, List.drop_append_eq_append_drop,
      Nat.sub_eq_zero_of_le (by rw [hH]; omega), List.drop_zero]
  have hstep2 : applyOps (leBytes 8 st.entries_end
        ++ (H ++ (E ++ (entry_blob s B ++ D))))
      (writeByteOps (8 + 8 * k) (leBytes 8 st.entries_end))
      = (leBytes 8 st.entries_end ++ H.take (8 * k))
        ++ leBytes 8 st.entries_end
        ++ (H.drop (8 * k + 8) ++ (E ++ (entry_blob s B ++ D))) := by
    rw [applyOps_writeByteOps _ _ _
      (by rw [length_leBytes, hlen1]; omega)]
    rw [show 8 + 8 * k + (leBytes 8 st.entries_end).length = 8 + 8 * k + 8
        from by rw [length_leBytes]]
    rw [e_take, e_drop]
  refine ⟨D, ?_, rfl⟩
  rw [hdata, hops, applyOps_append, applyOps_append, hstep1, hstep2]
  have hlen2 : 8 ≤ ((leBytes 8 st.entries_end ++ H.take (8 * k))
      ++ leBytes 8 st.entries_end
      ++ (H.drop (8 * k + 8) ++ (E ++ (entry_blob s B ++ D)))).length := by
    simp only [List.length_append, length_leBytes]
    omega
  rw [applyOps_writeByteOps _ _ _ (by rw [length_leBytes]; omega)]
  rw [List.take_zero, List.nil_append, Nat.zero_add, length_leBytes]
  have hdrop8 : ((leBytes 8 st.entries_end ++ H.take (8 * k))
      ++ leBytes 8 st.entries_end
      ++ (H.drop (8 * k + 8) ++ (E ++ (entry_blob s B ++ D)))).drop 8
      = H.take (8 * k) ++ leBytes 8 st.entries_end
        ++ (H.drop (8 * k + 8) ++ (E ++ (entry_blob s B ++ D))) := by
    rw [show (leBytes 8 st.entries_end ++ H.take (8 * k))
          ++ leBytes 8 st.entries_end
          ++ (H.drop (8 * k + 8) ++ (E ++ (entry_blob s B ++ D)))
        = leBytes 8 st.entries_end
          ++ (H.take (8 * k) ++ (leBytes 8 st.entries_end
            ++ (H.drop (8 * k + 8) ++ (E ++ (entry_blob s B ++ D)))))
        from by simp [List.append_assoc]]
    have hdl := List.drop_left (leBytes 8 st.entries_end)
      (H.take (8 * k) ++ (leBytes 8 st.entries_end
        ++ (H.drop (8 * k + 8) ++ (E ++ (entry_blob s B ++ D)))))
    rw [length_leBytes] at hdl
    rw [hdl]
    simp [List.append_assoc]
  rw [hdrop8]
  simp [List.append_assoc]

/-! ## Bookkeeping of entry offsets and height slots across syncs -/

theorem length_heights_list (s : hdb_shard_settings)
    (batches : List (List entry_row)) (k : Nat) :
    (heights_list s batches k).length = s.shard_max_entries := by
  simp [heights_list]

theorem heights_list_zero (s : hdb_shard_settings)
    (batches : List (List entry_row)) :
    heights_list s batches 0 = List.replicate s.shard_max_entries 0 := by
  rw [heights_list, List.eq_replicate_iff]
  refine ⟨by simp, ?_⟩
  intro x hx
  rcases List.mem_map.mp hx with ⟨j, -, rfl⟩
  simp

theorem heights_list_succ (s : hdb_shard_settings)
    (batches : List (List entry_row)) (k : Nat)
    (hk : k < s.shard_max_entries) :
    heights_list s batches (k + 1)
      = (heights_list s batches k).set k (ends_at s batches k) := by
  apply List.ext_getElem
  · simp [heights_list]
  · intro i h1 h2
    have hi : i < s.shard_max_entries := by
      simpa [heights_list] using h1
    rw [List.getElem_set]
    simp only [heights_list, List.getElem_map, List.getElem_range]
    by_cases hik : k = i
    · subst hik
      simp
    · simp only [if_neg hik]
      by_cases hikl : i < k
      · rw [if_pos (by omega), if_pos hikl]
      · rw [if_neg (by omega), if_neg hikl]

theorem heights_list_getD (s : hdb_shard_settings)
    (batches : List (List entry_row)) (k j : Nat)
    (hj : j < s.shard_max_entries) :
    (heights_list s batches k).getD j 0
      = if j < k then ends_at s batches j else 0 := by
  rw [List.getD_eq_getElem?_getD, heights_list, List.getElem?_map,
    List.getElem?_range hj]
  simp

theorem ends_at_zero (s : hdb_shard_settings)
    (batches : List (List entry_row)) :
    ends_at s batches 0 = shard_base s := by
  simp [ends_at]

theorem ends_at_take (s : hdb_shard_settings)
    (batches : List (List entry_row)) (h k : Nat) (hk : k ≤ h) :
    ends_at s (batches.take h) k = ends_at s batches k := by
  rw [ends_at, ends_at, List.take_take, Nat.min_eq_left hk]

theorem ends_at_append_le (s : hdb_shard_settings)
    (bs : List (List entry_row)) (B : List entry_row) (k : Nat)
    (hk : k ≤ bs.length) :
    ends_at s (bs ++ [B]) k = ends_at s bs k := by
  rw [ends_at, ends_at, List.take_append_of_le_length hk]

theorem ends_at_mono (s : hdb_shard_settings)
    (batches : List (List entry_row)) (i j : Nat) (hij : i ≤ j) :
    ends_at s batches i ≤ ends_at s batches j := by
  rw [ends_at, ends_at]
  have hsplit : batches.take j = batches.take i ++ ((batches.take j).drop i) := by
    conv_lhs => rw [← List.take_append_drop i (batches.take j)]
    rw [List.take_take, Nat.min_eq_left hij]
  rw [hsplit, List.map_append, List.sum_append]
  omega

theorem heights_list_append (s : hdb_shard_settings)
    (bs : List (List entry_row)) (B : List entry_row) (k : Nat)
    (hk : k ≤ bs.length) :
    heights_list s (bs ++ [B]) k = heights_list s bs k := by
  rw [heights_list, heights_list]
  apply List.map_congr_left
  intro j _
  by_cases hj : j < k
  · rw [if_pos hj, if_pos hj, ends_at_append_le s bs B j (by omega)]
  · rw [if_neg hj, if_neg hj]

/-! ## The file layout after initialization and consecutive syncs -/

theorem initialize_new_layout (s : hdb_shard_settings) (f0 : mmfile) :
    (hdb_shard.initialize_new s f0).file.data
      = leBytes 8 (shard_base s)
        ++ (List.replicate s.shard_max_entries 0).flatMap (leBytes 8)
    ∧ (hdb_shard.initialize_new s f0).entries_end = shard_base s := by
  constructor
  · show applyOps (f0.resize (shard_base s)).data
        (writeByteOps 0 (leBytes 8 (shard_base s)
          ++ (List.replicate s.shard_max_entries 0).flatMap (leBytes 8)))
      = _
    have hblen : (leBytes 8 (shard_base s)
        ++ (List.replicate s.shard_max_entries 0).flatMap (leBytes 8)).length
        = shard_base s := by
      rw [List.length_append, length_leBytes, length_flatMap_leBytes,
        List.length_replicate, shard_base]
    have hflen : (f0.resize (shard_base s)).data.length = shard_base s :=
      mmfile.size_resize f0 (shard_base s)
    rw [applyOps_writeByteOps _ 0 _ (by rw [hblen, hflen]; omega)]
    rw [List.take_zero, List.nil_append, Nat.zero_add, hblen,
      List.drop_eq_nil_of_le (by rw [hflen]), List.append_nil]
  · rfl

theorem syncSeq_nil (s : hdb_shard_settings) (st : hdb_shard) :
    st.syncSeq s [] = st := rfl

theorem syncSeq_append_one (s : hdb_shard_settings) (st : hdb_shard)
    (bs : List (List entry_row)) (B : List entry_row) :
    st.syncSeq s (bs ++ [B]) = (st.syncSeq s bs).sync s B bs.length := by
  rw [hdb_shard.syncSeq, hdb_shard.syncSeq, List.enum_append,
    List.foldl_append]
  simp [List.enumFrom]

theorem length_flatMap_entry_blob (s : hdb_shard_settings)
    (hok : settings_ok s) :
    ∀ (l : List (List entry_row)),
      (∀ B ∈ l, good_batch s B) →
      (l.flatMap (entry_blob s)).length = (l.map (entry_size_of s)).sum := by
  intro l
  induction l with
  | nil => intro _; rfl
  | cons B bs ih =>
    intro hall
    have hgB := hall B (List.mem_cons_self _ _)
    rw [List.flatMap_cons, List.length_append,
      length_entry_blob s B hok hgB.1 hgB.2.1,
      ih (fun x hx => hall x (List.mem_cons_of_mem _ hx)),
      List.map_cons, List.sum_cons]

theorem syncSeq_layout (s : hdb_shard_settings) (f0 : mmfile)
    (hok : settings_ok s) :
    ∀ (batches : List (List entry_row)),
      (∀ B ∈ batches, good_batch s B) →
      batches.length ≤ s.shard_max_entries →
      ∃ Z : List Nat,
        ((hdb_shard.initialize_new s f0).syncSeq s batches).file.data
          = leBytes 8 (ends_at s batches batches.length)
            ++ (heights_list s batches batches.length).flatMap (leBytes 8)
            ++ batches.flatMap (entry_blob s) ++ Z
        ∧ ((hdb_shard.initialize_new s f0).syncSeq s batches).entries_end
          = ends_at s batches batches.length := by
  intro batches
  induction batches using List.reverseRecOn with
  | nil =>
    intro _ _
    refine ⟨[], ?_, ?_⟩
    · rw [syncSeq_nil, (initialize_new_layout s f0).1]
      simp [ends_at, heights_list_zero]
    · rw [syncSeq_nil, (initialize_new_layout s f0).2]
      simp [ends_at]
  | append_singleton bs B ih =>
    intro hall hlen
    have hbslen : bs.length < s.shard_max_entries := by
      rw [List.length_append, List.length_cons, List.length_nil] at hlen
      omega
    obtain ⟨Z, hdata, hee⟩ := ih
      (fun x hx => hall x (List.mem_append_left _ hx))
      (by omega)
    have hgB := hall B (List.mem_append_right _ (List.mem_cons_self _ _))
    have hHlen : ((heights_list s bs bs.length).flatMap (leBytes 8)).length
        = 8 * s.shard_max_entries := by
      rw [length_flatMap_leBytes, length_heights_list]
    have hElen : (bs.flatMap (entry_blob s)).length
        = (bs.map (entry_size_of s)).sum :=
      length_flatMap_entry_blob s hok bs
        (fun x hx => hall x (List.mem_append_left _ hx))
    have hee2 : ((hdb_shard.initialize_new s f0).syncSeq s bs).entries_end
        = 8 + ((heights_list s bs bs.length).flatMap (leBytes 8)).length
          + (bs.flatMap (entry_blob s)).length := by
      rw [hee, hHlen, hElen, ends_at, shard_base, List.take_of_length_le
        (le_refl bs.length)]
    have hfile2 : ((hdb_shard.initialize_new s f0).syncSeq s bs).file.data
        = leBytes 8 ((hdb_shard.initialize_new s f0).syncSeq s bs).entries_end
          ++ (heights_list s bs bs.length).flatMap (leBytes 8)
          ++ bs.flatMap (entry_blob s) ++ Z := by
      rw [hdata, hee]
    obtain ⟨Z', hdata', hee'⟩ := sync_layout_step s
      ((hdb_shard.initialize_new s f0).syncSeq s bs) B bs.length
      ((heights_list s bs bs.length).flatMap (leBytes 8))
      (bs.flatMap (entry_blob s)) Z hok hgB hHlen hbslen hfile2 hee2
    rw [syncSeq_append_one]
    refine ⟨Z', ?_, ?_⟩
    · rw [hdata', hee]
      have h1 : ends_at s bs bs.length + entry_size_of s B
          = ends_at s (bs ++ [B]) (bs ++ [B]).length := by
        rw [ends_at, ends_at, List.take_of_length_le (le_refl bs.length),
          List.take_of_length_le (le_refl (bs ++ [B]).length),
          List.map_append, List.sum_append]
        simp only [List.map_cons, List.map_nil, List.sum_cons, List.sum_nil]
        omega
      have h2 : ((heights_list s bs bs.length).flatMap (leBytes 8)).take
            (8 * bs.length)
          ++ leBytes 8 (ends_at s bs bs.length)
          ++ ((heights_list s bs bs.length).flatMap (leBytes 8)).drop
            (8 * bs.length + 8)
          = (heights_list s (bs ++ [B]) (bs ++ [B]).length).flatMap
              (leBytes 8) := by
        have hmax : bs.length ≤ (heights_list s bs bs.length).length := by
          rw [length_heights_list]
          omega
        rw [flatMap_leBytes_take 8 _ bs.length hmax,
          show 8 * bs.length + 8 = 8 * (bs.length + 1) from by ring,
          flatMap_leBytes_drop 8 _ (bs.length + 1)
            (by rw [length_heights_list]; omega)]
        rw [show (bs ++ [B]).length = bs.length + 1 from by simp,
          heights_list_succ s (bs ++ [B]) bs.length hbslen,
          heights_list_append s bs B bs.length (le_refl _),
          ends_at_append_le s bs B bs.length (le_refl _)]
        rw [set_eq_splice _ bs.length _ (by rw [length_heights_list]; omega)]
        rw [List.flatMap_append, List.flatMap_cons]
        simp [List.append_assoc]
      have h3 : bs.flatMap (entry_blob s) ++ entry_blob s B
          = (bs ++ [B]).flatMap (entry_blob s) := by
        rw [List.flatMap_append, List.flatMap_cons, List.flatMap_nil,
          List.append_nil]
      rw [h1, h2, h3]
    · rw [hee', hee, ends_at, ends_at, List.take_of_length_le (le_refl _),
        List.take_of_length_le (le_refl _), List.map_append, List.sum_append]
      simp only [List.map_cons, List.map_nil, List.sum_cons, List.sum_nil]
      omega

/-! ## Scanning a state whose file has the canonical layout -/

theorem scan_layout (s : hdb_shard_settings) (p : address_bitset)
    (hok : settings_ok s) (hp : p.length ≤ s.scan_bitsize)
    (st : hdb_shard) (e : Nat) (H Z : List Nat)
    (batches : List (List entry_row)) (h j : Nat)
    (hall : ∀ B ∈ batches, good_batch s B)
    (hH : H.length = 8 * s.shard_max_entries)
    (hlenmax : batches.length ≤ s.shard_max_entries)
    (hle : j ≤ batches.length)
    (hfile : st.file.data
      = leBytes 8 e ++ H ++ batches.flatMap (entry_blob s) ++ Z)
    (hee : st.entries_end
      = shard_base s + ((batches.map (entry_size_of s)).sum))
    (hpos : st.entry_position h
      = shard_base s + (((batches.take j).map (entry_size_of s)).sum)) :
    st.scan s p h = some ((batches.drop j).flatMap (ref_entry_scan s p)) := by
  rw [hdb_shard.scan, hpos]
  have hsplitb : batches.flatMap (entry_blob s)
      = (batches.take j).flatMap (entry_blob s)
        ++ (batches.drop j).flatMap (entry_blob s) := by
    rw [← List.flatMap_append, List.take_append_drop]
  have hfile2 : st.file.data
      = (leBytes 8 e ++ H ++ (batches.take j).flatMap (entry_blob s))
        ++ (batches.drop j).flatMap (entry_blob s) ++ Z := by
    rw [hfile, hsplitb]
    simp [List.append_assoc]
  have hF0len : (leBytes 8 e ++ H
        ++ (batches.take j).flatMap (entry_blob s)).length
      = shard_base s + ((batches.take j).map (entry_size_of s)).sum := by
    simp only [List.length_append, length_leBytes, hH,
      length_flatMap_entry_blob s hok _
        (fun x hx => hall x (List.mem_of_mem_take hx))]
    rw [shard_base]
  have hsumsplit : (batches.map (entry_size_of s)).sum
      = ((batches.take j).map (entry_size_of s)).sum
        + ((batches.drop j).map (entry_size_of s)).sum := by
    conv_lhs => rw [← List.take_append_drop j batches]
    rw [List.map_append, List.sum_append]
  have heeF0 : st.entries_end
      = (leBytes 8 e ++ H ++ (batches.take j).flatMap (entry_blob s)).length
        + ((batches.drop j).map (entry_size_of s)).sum := by
    rw [hee, hF0len, hsumsplit]
    omega
  have hfuel : (batches.drop j).length < st.entries_end + 1 := by
    rw [hee, shard_base]
    have hd : (batches.drop j).length ≤ batches.length := by
      rw [List.length_drop]
      omega
    omega
  rw [hfile2, ← hF0len, heeF0]
  exact scan_loop_spec s p hok hp (batches.drop j) _ Z _
    (fun x hx => hall x (List.mem_of_mem_drop hx))
    (by rw [← heeF0]; exact hfuel)

theorem entry_position_flatMap (st : hdb_shard) (e : Nat) (hl R : List Nat)
    (h : Nat)
    (hfile : st.file.data = leBytes 8 e ++ hl.flatMap (leBytes 8) ++ R)
    (hh : h < hl.length) :
    st.entry_position h = hl.getD h 0 % 256 ^ 8 := by
  rw [hdb_shard.entry_position, hfile,
    show 8 + 8 * h = (leBytes 8 e).length + 8 * h from by rw [length_leBytes],
    List.append_assoc, readLE_append_offset,
    readLE_flatMap_leBytes8 _ h R hh]

theorem ref_entry_scan_filter (s : hdb_shard_settings) (p : address_bitset)
    (B : List entry_row)
    (hok : settings_ok s)
    (hkeys : ∀ r ∈ B, r.scan_key.length = s.scan_bitsize)
    (hp : p.length ≤ s.bucket_bitsize) :
    ref_entry_scan s p B
      = ((sort_rows B).filter (key_matches p)).map (fun r => r.value) := by
  have hkeys' : ∀ r ∈ sort_rows B, r.scan_key.length = s.scan_bitsize :=
    fun r hr => hkeys r (mem_sort_rows.mp hr)
  have hsortb := sort_rows_bucket_sorted s B hok.2 hkeys
  have hbound : ∀ r ∈ sort_rows B, row_bucket s r < s.number_buckets :=
    fun r _ => row_bucket_lt s r
  have hbp : which_bucket p s.bucket_bitsize < s.number_buckets := by
    rw [hdb_shard_settings.number_buckets]
    exact which_bucket_lt _ _
  rw [ref_entry_scan]
  rw [write_buckets_getD s _ hsortb hbound _ hbp]
  rw [sorted_window_filter s p (sort_rows B) hok.2 hp hkeys'
    (sort_rows_sorted_numeric s.scan_bitsize B hkeys)]

/-! ## Claim theorems: scan after a single sync (C2) -/

theorem scan_single_sync_form (s : hdb_shard_settings) (f0 : mmfile)
    (B : List entry_row) (h : Nat) (p : address_bitset)
    (hok : settings_ok s) (hgood : good_batch s B)
    (hp : p.length ≤ s.bucket_bitsize)
    (hh : h < s.shard_max_entries)
    (hfit : shard_base s + entry_size_of s B < 2 ^ 64) :
    hdb_shard.scan s ((hdb_shard.initialize_new s f0).sync s B h) p h
      = some (ref_entry_scan s p B) := by
  obtain ⟨hdata0, hee0⟩ := initialize_new_layout s f0
  have hH0len : ((List.replicate s.shard_max_entries 0).flatMap
      (leBytes 8)).length = 8 * s.shard_max_entries := by
    rw [length_flatMap_leBytes, List.length_replicate]
  have hfile0 : (hdb_shard.initialize_new s f0).file.data
      = leBytes 8 (hdb_shard.initialize_new s f0).entries_end
        ++ (List.replicate s.shard_max_entries 0).flatMap (leBytes 8)
        ++ [] ++ [] := by
    rw [hdata0, hee0]
    simp
  have hee0' : (hdb_shard.initialize_new s f0).entries_end
      = 8 + ((List.replicate s.shard_max_entries 0).flatMap
          (leBytes 8)).length + ([] : List Nat).length := by
    rw [hee0, hH0len, shard_base]
    simp
  obtain ⟨Z', hdata1, hee1⟩ := sync_layout_step s
    (hdb_shard.initialize_new s f0) B h _ [] [] hok hgood hH0len hh
    hfile0 hee0'
  have hHset : ((List.replicate s.shard_max_entries 0).flatMap
        (leBytes 8)).take (8 * h)
      ++ leBytes 8 (hdb_shard.initialize_new s f0).entries_end
      ++ ((List.replicate s.shard_max_entries 0).flatMap
        (leBytes 8)).drop (8 * h + 8)
      = ((List.replicate s.shard_max_entries 0).set h
          (hdb_shard.initialize_new s f0).entries_end).flatMap (leBytes 8) := by
    rw [flatMap_leBytes_take 8 _ h (by rw [List.length_replicate]; omega),
      show 8 * h + 8 = 8 * (h + 1) from by ring,
      flatMap_leBytes_drop 8 _ (h + 1) (by rw [List.length_replicate]; omega),
      set_eq_splice _ h _ (by rw [List.length_replicate]; omega),
      List.flatMap_append, List.flatMap_cons]
    simp [List.append_assoc]
  have hfile1 : ((hdb_shard.initialize_new s f0).sync s B h).file.data
      = leBytes 8 ((hdb_shard.initialize_new s f0).entries_end
          + entry_size_of s B)
        ++ ((List.replicate s.shard_max_entries 0).set h
            (hdb_shard.initialize_new s f0).entries_end).flatMap (leBytes 8)
        ++ [B].flatMap (entry_blob s) ++ Z' := by
    rw [hdata1, hHset]
    simp
  have hee1' : ((hdb_shard.initialize_new s f0).sync s B h).entries_end
      = shard_base s + (([B].map (entry_size_of s)).sum) := by
    rw [hee1, hee0]
    simp
  have hbase64 : shard_base s < 2 ^ 64 := by omega
  have hfile1' : ((hdb_shard.initialize_new s f0).sync s B h).file.data
      = leBytes 8 ((hdb_shard.initialize_new s f0).entries_end
          + entry_size_of s B)
        ++ ((List.replicate s.shard_max_entries 0).set h
            (hdb_shard.initialize_new s f0).entries_end).flatMap (leBytes 8)
        ++ ([B].flatMap (entry_blob s) ++ Z') := by
    rw [hfile1, List.append_assoc]
  have hpos : ((hdb_shard.initialize_new s f0).sync s B h).entry_position h
      = shard_base s + ((([B].take 0).map (entry_size_of s)).sum) := by
    rw [entry_position_flatMap _ _ _ _ h hfile1'
      (by rw [List.length_set, List.length_replicate]; exact hh)]
    rw [List.getD_eq_getElem?_getD,
      List.getElem?_set_self (by rw [List.length_replicate]; exact hh)]
    simp only [Option.getD_some, List.take_zero, List.map_nil,
      List.sum_nil, Nat.add_zero]
    rw [hee0, Nat.mod_eq_of_lt (by norm_num; omega)]
  have hscan := scan_layout s p hok (le_trans hp hok.2)
    ((hdb_shard.initialize_new s f0).sync s B h)
    ((hdb_shard.initialize_new s f0).entries_end + entry_size_of s B)
    _ Z' [B] h 0
    (by intro x hx; rcases List.mem_cons.mp hx with rfl | hx
        · exact hgood
        · simp at hx)
    (by rw [length_flatMap_leBytes, List.length_set, List.length_replicate])
    (by simp; omega)
    (Nat.zero_le _) hfile1 hee1' hpos
  rw [hscan]
  simp

/-- C2 (amended): after a single sync of a buffered batch at height h on a
freshly initialized shard, a scan with a prefix of at most bucket_bitsize
bits invokes the reader on exactly the values of the rows whose scan keys
extend the prefix, in sorted row order; as a set the invocations are exactly
the matching buffered values.  The original claim, which promises this for
every prefix length, is refuted by the counterexample theorem: a prefix
longer than bucket_bitsize can miss matching rows. -/
theorem hdb_shard_scan_after_single_sync (s : hdb_shard_settings)
    (f0 : mmfile) (B : List entry_row) (h : Nat) (p : address_bitset)
    (hok : settings_ok s) (hgood : good_batch s B)
    (hp : p.length ≤ s.bucket_bitsize)
    (hh : h < s.shard_max_entries)
    (hfit : shard_base s + entry_size_of s B < 2 ^ 64) :
    hdb_shard.scan s ((hdb_shard.initialize_new s f0).sync s B h) p h
      = some (((sort_rows B).filter (key_matches p)).map (fun r => r.value))
    ∧ List.Perm
        (((sort_rows B).filter (key_matches p)).map (fun r => r.value))
        ((B.filter (key_matches p)).map (fun r => r.value)) := by
  constructor
  · rw [scan_single_sync_form s f0 B h p hok hgood hp hh hfit,
      ref_entry_scan_filter s p B hok hgood.1 hp]
  · exact ((sort_rows_perm B).filter _).map _

/-- C2 witness: the concrete scenario of the specification: four rows with
32-bit keys 0b00010000…, 0b01010000…, 0b01110000…, 0b11000000… and values
97, 98, 99, 100 synced at height 0; scanning prefix 01 yields 98 then 99. -/
theorem hdb_shard_scan_after_single_sync_witness :
    settings_ok ⟨2, 4, 0, 2, 1⟩
    ∧ good_batch ⟨2, 4, 0, 2, 1⟩
        [⟨[false, false, false, true, false, false, false, false]
            ++ List.replicate 24 false, [97]⟩,
         ⟨[false, true, false, true, false, false, false, false]
            ++ List.replicate 24 false, [98]⟩,
         ⟨[false, true, true, true, false, false, false, false]
            ++ List.replicate 24 false, [99]⟩,
         ⟨[true, true, false, false, false, false, false, false]
            ++ List.replicate 24 false, [100]⟩]
    ∧ ([false, true] : address_bitset).length
        ≤ (hdb_shard_settings.mk 2 4 0 2 1).bucket_bitsize
    ∧ 0 < (hdb_shard_settings.mk 2 4 0 2 1).shard_max_entries
    ∧ shard_base ⟨2, 4, 0, 2, 1⟩ + entry_size_of ⟨2, 4, 0, 2, 1⟩
        [⟨[false, false, false, true, false, false, false, false]
            ++ List.replicate 24 false, [97]⟩,
         ⟨[false, true, false, true, false, false, false, false]
            ++ List.replicate 24 false, [98]⟩,
         ⟨[false, true, true, true, false, false, false, false]
            ++ List.replicate 24 false, [99]⟩,
         ⟨[true, true, false, false, false, false, false, false]
            ++ List.replicate 24 false, [100]⟩] < 2 ^ 64
    ∧ (hdb_shard.scan ⟨2, 4, 0, 2, 1⟩
        ((hdb_shard.initialize_new ⟨2, 4, 0, 2, 1⟩ ⟨[]⟩).sync ⟨2, 4, 0, 2, 1⟩
          [⟨[false, false, false, true, false, false, false, false]
              ++ List.replicate 24 false, [97]⟩,
           ⟨[false, true, false, true, false, false, false, false]
              ++ List.replicate 24 false, [98]⟩,
           ⟨[false, true, true, true, false, false, false, false]
              ++ List.replicate 24 false, [99]⟩,
           ⟨[true, true, false, false, false, false, false, false]
              ++ List.replicate 24 false, [100]⟩] 0)
        [false, true] 0
      = some (((sort_rows
          [⟨[false, false, false, true, false, false, false, false]
              ++ List.replicate 24 false, [97]⟩,
           ⟨[false, true, false, true, false, false, false, false]
              ++ List.replicate 24 false, [98]⟩,
           ⟨[false, true, true, true, false, false, false, false]
              ++ List.replicate 24 false, [99]⟩,
           ⟨[true, true, false, false, false, false, false, false]
              ++ List.replicate 24 false, [100]⟩]).filter
            (key_matches [false, true])).map (fun r => r.value))
      ∧ List.Perm (((sort_rows
          [⟨[false, false, false, true, false, false, false, false]
              ++ List.replicate 24 false, [97]⟩,
           ⟨[false, true, false, true, false, false, false, false]
              ++ List.replicate 24 false, [98]⟩,
           ⟨[false, true, true, true, false, false, false, false]
              ++ List.replicate 24 false, [99]⟩,
           ⟨[true, true, false, false, false, false, false, false]
              ++ List.replicate 24 false, [100]⟩]).filter
            (key_matches [false, true])).map (fun r => r.value))
        (([⟨[false, false, false, true, false, false, false, false]
              ++ List.replicate 24 false, [97]⟩,
           ⟨[false, true, false, true, false, false, false, false]
              ++ List.replicate 24 false, [98]⟩,
           ⟨[false, true, true, true, false, false, false, false]
              ++ List.replicate 24 false, [99]⟩,
           ⟨[true, true, false, false, false, false, false, false]
              ++ List.replicate 24 false, [100]⟩].filter
            (key_matches [false, true])).map (fun r => r.value))) :=
  ⟨⟨by decide, by decide⟩, ⟨by decide, by decide, by decide⟩, by decide,
    by decide, by decide,
    hdb_shard_scan_after_single_sync ⟨2, 4, 0, 2, 1⟩ ⟨[]⟩ _ 0 _
      ⟨by decide, by decide⟩ ⟨by decide, by decide, by decide⟩
      (by decide) (by decide) (by decide)⟩

/-- C2 counterexample: with bucket_bitsize 2, a scan prefix of three bits
misses a matching row.  The batch holds rows with keys 01000000 and 01100000
(value bytes 1 and 2); after sync at height 0, scanning the prefix 011
returns no values although the second row matches it: the scan jumps to the
two-bit bucket slot of the prefix, lands on the first row of bucket 01,
finds it does not match the three-bit prefix, and stops before reaching the
matching row. -/
theorem hdb_shard_scan_long_prefix_counterexample :
    hdb_shard.scan ⟨1, 1, 0, 2, 1⟩
        ((hdb_shard.initialize_new ⟨1, 1, 0, 2, 1⟩ ⟨[]⟩).sync ⟨1, 1, 0, 2, 1⟩
          [⟨[false, true, false, false, false, false, false, false], [1]⟩,
           ⟨[false, true, true, false, false, false, false, false], [2]⟩] 0)
        [false, true, true] 0
      = some []
    ∧ (([⟨[false, true, false, false, false, false, false, false], [1]⟩,
         ⟨[false, true, true, false, false, false, false, false], [2]⟩]
          : List entry_row).filter
          (key_matches [false, true, true])).map (fun r => r.value)
      = [[2]] := by
  constructor
  · decide
  · decide

/-! ## Claim theorems: unlink truncates the scanned history (C6) -/

/-- C6: on a shard whose entries were written by consecutive sync calls at
heights 0, 1, …, unlink(h) for 1 ≤ h succeeds and rewinds entries_end to the
end of the entry at height h-1; a subsequent scan(p, f, 0) performs exactly
the same invocation sequence as a scan on a shard that only synced the first
h batches: all entries for heights ≥ h are truncated. -/
theorem hdb_shard_unlink_truncates_scan (s : hdb_shard_settings) (f0 : mmfile)
    (batches : List (List entry_row)) (h : Nat) (p : address_bitset)
    (hok : settings_ok s)
    (hall : ∀ B ∈ batches, good_batch s B)
    (hlen : batches.length ≤ s.shard_max_entries)
    (hh1 : 1 ≤ h) (hh2 : h ≤ batches.length)
    (hp : p.length ≤ s.scan_bitsize)
    (hfit : ends_at s batches batches.length < 2 ^ 64) :
    ∃ st' : hdb_shard,
      hdb_shard.unlink s ((hdb_shard.initialize_new s f0).syncSeq s batches) h
        = some st'
      ∧ hdb_shard.scan s st' p 0
          = hdb_shard.scan s
              ((hdb_shard.initialize_new s f0).syncSeq s (batches.take h)) p 0
      ∧ hdb_shard.scan s st' p 0
          = some ((batches.take h).flatMap (ref_entry_scan s p)) := by
  have h256 : (256 : Nat) ^ 8 = 2 ^ 64 := by norm_num
  obtain ⟨Z, hdata, hee⟩ := syncSeq_layout s f0 hok batches hall hlen
  have hbh : h - 1 < batches.length := by omega
  have hfit' : ∀ j, j ≤ batches.length → ends_at s batches j < 2 ^ 64 :=
    fun j hj => lt_of_le_of_lt (ends_at_mono s batches j batches.length hj) hfit
  have hdataA : ((hdb_shard.initialize_new s f0).syncSeq s batches).file.data
      = leBytes 8 (ends_at s batches batches.length)
        ++ (heights_list s batches batches.length).flatMap (leBytes 8)
        ++ (batches.flatMap (entry_blob s) ++ Z) := by
    rw [hdata, List.append_assoc]
  have hpos_prev : ((hdb_shard.initialize_new s f0).syncSeq s
        batches).entry_position (h - 1)
      = ends_at s batches (h - 1) := by
    rw [entry_position_flatMap _ _ _ _ (h - 1) hdataA
      (by rw [length_heights_list]; omega)]
    rw [heights_list_getD s batches batches.length (h - 1) (by omega),
      if_pos (by omega), h256,
      Nat.mod_eq_of_lt (hfit' (h - 1) (by omega))]
  have hdropsplit : batches.drop (h - 1)
      = batches[h - 1] :: batches.drop h := by
    have hd := List.drop_eq_getElem_cons hbh
    rw [show h - 1 + 1 = h from by omega] at hd
    exact hd
  have hgoodh := hall _ (List.getElem_mem hbh)
  have hblobsplit : batches.flatMap (entry_blob s)
      = (batches.take (h - 1)).flatMap (entry_blob s)
        ++ (entry_blob s batches[h - 1]
          ++ (batches.drop h).flatMap (entry_blob s)) := by
    conv_lhs => rw [← List.take_append_drop (h - 1) batches]
    rw [List.flatMap_append, hdropsplit, List.flatMap_cons]
  have hF0len : (leBytes 8 (ends_at s batches batches.length)
        ++ (heights_list s batches batches.length).flatMap (leBytes 8)
        ++ (batches.take (h - 1)).flatMap (entry_blob s)).length
      = ends_at s batches (h - 1) := by
    simp only [List.length_append, length_leBytes, length_flatMap_leBytes,
      length_heights_list,
      length_flatMap_entry_blob s hok _
        (fun x hx => hall x (List.mem_of_mem_take hx))]
    rw [ends_at, shard_base]
  have hfileF : ((hdb_shard.initialize_new s f0).syncSeq s batches).file.data
      = (leBytes 8 (ends_at s batches batches.length)
          ++ (heights_list s batches batches.length).flatMap (leBytes 8)
          ++ (batches.take (h - 1)).flatMap (entry_blob s))
        ++ entry_blob s batches[h - 1]
        ++ ((batches.drop h).flatMap (entry_blob s) ++ Z) := by
    rw [hdata, hblobsplit]
    simp [List.append_assoc]
  have hread : readLE ((hdb_shard.initialize_new s f0).syncSeq s
        batches).file.data (ends_at s batches (h - 1)) 2
      = batches[h - 1].length := by
    rw [hfileF, ← hF0len]
    exact entry_readLE_count s _ _ _ hgoodh.2.2
  have htk : batches.take h = batches.take (h - 1) ++ [batches[h - 1]] := by
    have htoList : batches[h - 1]?.toList = [batches[h - 1]] := by
      rw [List.getElem?_eq_getElem hbh]
      rfl
    conv_lhs => rw [show h = (h - 1) + 1 from by omega]
    rw [List.take_succ, htoList]
  have hnew_end : ends_at s batches (h - 1)
        + entry_size_of s (batches[h - 1])
      = ends_at s batches h := by
    rw [ends_at, ends_at, htk, List.map_append, List.sum_append]
    simp only [List.map_cons, List.map_nil, List.sum_cons, List.sum_nil]
    omega
  have hunlink : hdb_shard.unlink s
        ((hdb_shard.initialize_new s f0).syncSeq s batches) h
      = some ⟨⟨applyOps ((hdb_shard.initialize_new s f0).syncSeq s
            batches).file.data
          (writeByteOps 0 (leBytes 8 (ends_at s batches h)))⟩,
        ends_at s batches h⟩ := by
    rw [hdb_shard.unlink, if_neg (by omega)]
    dsimp only
    rw [hpos_prev, hdb_shard.calc_entry_size, hread,
      show s.entry_header_size + s.row_size * (batches[h - 1]).length
        = entry_size_of s (batches[h - 1]) from by rw [entry_size_of],
      hnew_end]
  have hdlen : 8 ≤ ((hdb_shard.initialize_new s f0).syncSeq s
      batches).file.data.length := by
    rw [hdataA]
    simp only [List.length_append, length_leBytes]
    omega
  have hdata' : (applyOps ((hdb_shard.initialize_new s f0).syncSeq s
        batches).file.data
        (writeByteOps 0 (leBytes 8 (ends_at s batches h))))
      = leBytes 8 (ends_at s batches h)
        ++ ((heights_list s batches batches.length).flatMap (leBytes 8)
          ++ (batches.flatMap (entry_blob s) ++ Z)) := by
    rw [applyOps_writeByteOps _ _ _ (by rw [length_leBytes]; omega)]
    rw [List.take_zero, List.nil_append, Nat.zero_add, length_leBytes]
    congr 1
    rw [hdataA]
    have hdl := List.drop_left (leBytes 8 (ends_at s batches batches.length))
      ((heights_list s batches batches.length).flatMap (leBytes 8)
        ++ (batches.flatMap (entry_blob s) ++ Z))
    rw [length_leBytes] at hdl
    rw [List.append_assoc, hdl]
  have hsplit_h : batches.flatMap (entry_blob s)
      = (batches.take h).flatMap (entry_blob s)
        ++ (batches.drop h).flatMap (entry_blob s) := by
    rw [← List.flatMap_append, List.take_append_drop]
  have hmax1 : 0 < s.shard_max_entries := by omega
  have hbase64 : shard_base s < 2 ^ 64 := by
    have := hfit' 0 (by omega)
    rw [ends_at_zero] at this
    exact this
  have hfileU : (hdb_shard.mk
        ⟨applyOps ((hdb_shard.initialize_new s f0).syncSeq s
            batches).file.data
          (writeByteOps 0 (leBytes 8 (ends_at s batches h)))⟩
        (ends_at s batches h)).file.data
      = leBytes 8 (ends_at s batches h)
        ++ (heights_list s batches batches.length).flatMap (leBytes 8)
        ++ (batches.take h).flatMap (entry_blob s)
        ++ ((batches.drop h).flatMap (entry_blob s) ++ Z) := by
    show applyOps _ _ = _
    rw [hdata', hsplit_h]
    simp [List.append_assoc]
  have hposU : (hdb_shard.mk
        ⟨applyOps ((hdb_shard.initialize_new s f0).syncSeq s
            batches).file.data
          (writeByteOps 0 (leBytes 8 (ends_at s batches h)))⟩
        (ends_at s batches h)).entry_position 0
      = shard_base s
        + ((((batches.take h).take 0).map (entry_size_of s)).sum) := by
    have hfileU' : (hdb_shard.mk
          ⟨applyOps ((hdb_shard.initialize_new s f0).syncSeq s
              batches).file.data
            (writeByteOps 0 (leBytes 8 (ends_at s batches h)))⟩
          (ends_at s batches h)).file.data
        = leBytes 8 (ends_at s batches h)
          ++ (heights_list s batches batches.length).flatMap (leBytes 8)
          ++ ((batches.take h).flatMap (entry_blob s)
            ++ ((batches.drop h).flatMap (entry_blob s) ++ Z)) := by
      rw [hfileU]
      simp [List.append_assoc]
    rw [entry_position_flatMap _ _ _ _ 0 hfileU'
      (by rw [length_heights_list]; omega)]
    rw [heights_list_getD s batches batches.length 0 hmax1,
      if_pos (by omega), ends_at_zero, h256, Nat.mod_eq_of_lt hbase64]
    simp
  have heeU : (hdb_shard.mk
        ⟨applyOps ((hdb_shard.initialize_new s f0).syncSeq s
            batches).file.data
          (writeByteOps 0 (leBytes 8 (ends_at s batches h)))⟩
        (ends_at s batches h)).entries_end
      = shard_base s + (((batches.take h).map (entry_size_of s)).sum) := by
    show ends_at s batches h = _
    rw [ends_at]
  have hscanU := scan_layout s p hok hp _ _ _ _ (batches.take h) 0 0
    (fun x hx => hall x (List.mem_of_mem_take hx))
    (by rw [length_flatMap_leBytes, length_heights_list])
    (by rw [List.length_take]; omega)
    (Nat.zero_le _) hfileU heeU hposU
  obtain ⟨Z2, hdata2, hee2⟩ := syncSeq_layout s f0 hok (batches.take h)
    (fun x hx => hall x (List.mem_of_mem_take hx))
    (by rw [List.length_take]; omega)
  have hK2 : (batches.take h).length = h := by
    rw [List.length_take]
    omega
  have hfile2 : ((hdb_shard.initialize_new s f0).syncSeq s
        (batches.take h)).file.data
      = leBytes 8 (ends_at s (batches.take h) (batches.take h).length)
        ++ (heights_list s (batches.take h)
            (batches.take h).length).flatMap (leBytes 8)
        ++ (batches.take h).flatMap (entry_blob s) ++ Z2 := hdata2
  have hee2' : ((hdb_shard.initialize_new s f0).syncSeq s
        (batches.take h)).entries_end
      = shard_base s + (((batches.take h).map (entry_size_of s)).sum) := by
    rw [hee2, ends_at, hK2, List.take_take, Nat.min_self]
  have hpos2 : ((hdb_shard.initialize_new s f0).syncSeq s
        (batches.take h)).entry_position 0
      = shard_base s
        + ((((batches.take h).take 0).map (entry_size_of s)).sum) := by
    have hfile2' : ((hdb_shard.initialize_new s f0).syncSeq s
          (batches.take h)).file.data
        = leBytes 8 (ends_at s (batches.take h) (batches.take h).length)
          ++ (heights_list s (batches.take h)
              (batches.take h).length).flatMap (leBytes 8)
          ++ ((batches.take h).flatMap (entry_blob s) ++ Z2) := by
      rw [hfile2, List.append_assoc]
    rw [entry_position_flatMap _ _ _ _ 0 hfile2'
      (by rw [length_heights_list]; omega)]
    rw [heights_list_getD s (batches.take h) (batches.take h).length 0 hmax1,
      hK2, if_pos (by omega), ends_at_zero, h256, Nat.mod_eq_of_lt hbase64]
    simp
  have hscan2 := scan_layout s p hok hp _ _ _ _ (batches.take h) 0 0
    (fun x hx => hall x (List.mem_of_mem_take hx))
    (by rw [length_flatMap_leBytes, length_heights_list])
    (by rw [List.length_take]; omega)
    (Nat.zero_le _) hfile2 hee2' hpos2
  refine ⟨_, hunlink, ?_, ?_⟩
  · rw [hscanU, hscan2]
  · rw [hscanU]
    simp

/-- C6 witness: a one-batch shard (an eight-bit zero key with value byte 7)
synced at height 0; unlink(1) succeeds and the full-prefix scan from height 0
agrees with the scan of a shard holding only the first batch. -/
theorem hdb_shard_unlink_truncates_scan_witness :
    settings_ok ⟨1, 1, 0, 1, 1⟩
    ∧ (∀ B ∈ [[(⟨List.replicate 8 false, [7]⟩ : entry_row)]],
        good_batch ⟨1, 1, 0, 1, 1⟩ B)
    ∧ ([[(⟨List.replicate 8 false, [7]⟩ : entry_row)]]
        : List (List entry_row)).length
        ≤ (hdb_shard_settings.mk 1 1 0 1 1).shard_max_entries
    ∧ (1 : Nat) ≤ 1
    ∧ 1 ≤ ([[(⟨List.replicate 8 false, [7]⟩ : entry_row)]]
        : List (List entry_row)).length
    ∧ ([] : address_bitset).length
        ≤ (hdb_shard_settings.mk 1 1 0 1 1).scan_bitsize
    ∧ ends_at ⟨1, 1, 0, 1, 1⟩ [[(⟨List.replicate 8 false, [7]⟩ : entry_row)]]
        ([[(⟨List.replicate 8 false, [7]⟩ : entry_row)]]
          : List (List entry_row)).length < 2 ^ 64
    ∧ (∃ st' : hdb_shard,
        hdb_shard.unlink ⟨1, 1, 0, 1, 1⟩
            ((hdb_shard.initialize_new ⟨1, 1, 0, 1, 1⟩ ⟨[]⟩).syncSeq
              ⟨1, 1, 0, 1, 1⟩
              [[(⟨List.replicate 8 false, [7]⟩ : entry_row)]]) 1
          = some st'
        ∧ hdb_shard.scan ⟨1, 1, 0, 1, 1⟩ st' [] 0
            = hdb_shard.scan ⟨1, 1, 0, 1, 1⟩
                ((hdb_shard.initialize_new ⟨1, 1, 0, 1, 1⟩ ⟨[]⟩).syncSeq
                  ⟨1, 1, 0, 1, 1⟩
                  ([[(⟨List.replicate 8 false, [7]⟩ : entry_row)]].take 1))
                [] 0
        ∧ hdb_shard.scan ⟨1, 1, 0, 1, 1⟩ st' [] 0
            = some (([[(⟨List.replicate 8 false, [7]⟩ : entry_row)]].take
                1).flatMap (ref_entry_scan ⟨1, 1, 0, 1, 1⟩ []))) :=
  ⟨⟨by decide, by decide⟩,
   (by
      intro B hB
      rw [List.mem_singleton] at hB
      subst hB
      exact ⟨by decide, by decide, by decide⟩),
   by decide, by decide, by decide, by decide, by decide,
   hdb_shard_unlink_truncates_scan ⟨1, 1, 0, 1, 1⟩ ⟨[]⟩ _ 1 []
     ⟨by decide, by decide⟩
     (by
        intro B hB
        rw [List.mem_singleton] at hB
        subst hB
        exact ⟨by decide, by decide, by decide⟩)
     (by decide) (by decide) (by decide) (by decide) (by decide)⟩

end LibbitcoinDb
